import Mathlib

/-!
# pudding: a verification development of the request-dispatch pipeline

Shallow embedding of `routergroup.go`, `server.go`, `context.go`, `metadata.go`,
`utils.go`, `metadata/metadata.go` and the interface of package `render` of the
`pudding` HTTP framework.

* Go strings are Lean strings, inspected through their character lists. The
  source only ever searches for ASCII bytes, so splitting at a character
  position and splitting at the corresponding byte position agree.
* A Go `panic` is an explicit outcome that keeps the state reached at the
  moment of the panic, so that "nothing was registered" is a statement about
  that state.
* Handlers are opaque values of a type `H` for registration; for chain
  execution they are scripts of calls on the execution context.
* Where the question is whether two handler lists or two maps share storage,
  Go slices and maps are references into an explicit store of backing arrays
  or of maps, and the operations of the source are state transformers on it.
-/

namespace Pudding

/-! ## Outcomes of operations that may panic -/

/-- Result of a state-changing operation: normal return with the new state, or
a Go panic carrying the message and the state reached when it was raised. -/
inductive Outcome (σ : Type) where
  | ok (state : σ)
  | panic (msg : String) (state : σ)

/-- The state carried by an outcome, whether it returned or panicked. -/
def Outcome.state {σ : Type} : Outcome σ → σ
  | .ok s => s
  | .panic _ s => s

/-- Whether the operation ended in a panic. -/
def Outcome.isPanic {σ : Type} : Outcome σ → Bool
  | .ok _ => false
  | .panic _ _ => true

/-! ## Standard-library path normalisation (package `path`) -/

/-- Split a path at every slash (the pieces between separators). -/
def splitSlash : List Char → List (List Char)
  | [] => [[]]
  | c :: cs =>
    match splitSlash cs with
    | [] => [[]]
    | seg :: segs => if c = '/' then [] :: seg :: segs else (c :: seg) :: segs

/-- The element-wise pass of `path.Clean`: empty and `.` elements are dropped,
a `..` element removes the preceding ordinary element; at the root it is
dropped, in a relative path it is kept when nothing precedes it. The output
is kept in reverse order. -/
def cleanSegs (rooted : Bool) : List (List Char) → List (List Char) → List (List Char)
  | [], out => out
  | seg :: rest, out =>
    if seg = [] ∨ seg = ['.'] then cleanSegs rooted rest out
    else if seg = ['.', '.'] then
      match out with
      | top :: out' =>
        if top = ['.', '.'] then cleanSegs rooted rest (seg :: out)
        else cleanSegs rooted rest out'
      | [] => if rooted then cleanSegs rooted rest [] else cleanSegs rooted rest [seg]
    else cleanSegs rooted rest (seg :: out)

/-- Go's `path.Clean`: the shortest path equivalent to the argument by purely
lexical processing. The empty path becomes `.`. -/
def path.Clean (p : String) : String :=
  match p.data with
  | [] => "."
  | c :: _ =>
    let rooted : Bool := c = '/'
    let out := (cleanSegs rooted (splitSlash p.data) []).reverse
    let body := List.intercalate ['/'] out
    let res := if rooted then '/' :: body else body
    if res = [] then "." else String.mk res

/-- Go's `path.Join` for two elements: empty elements are ignored, the rest is
joined with a slash and cleaned; all elements empty gives the empty string. -/
def path.Join (a b : String) : String :=
  if a = "" then (if b = "" then "" else path.Clean b)
  else if b = "" then path.Clean a
  else path.Clean (a ++ "/" ++ b)

/-! ## utils.go -/

/-- Source `lastChar`: the last character of a string; panics on the empty string. -/
def lastChar (str : String) : Except String Char :=
  match str.data.getLast? with
  | none => .error "The length of the string can not be 0"
  | some c => .ok c

/-- Source `joinPaths`: join an absolute and a relative path. -/
def joinPaths (absolutePath relativePath : String) : Except String String :=
  if relativePath = "" then .ok absolutePath
  else
    let finalPath := path.Join absolutePath relativePath
    match lastChar relativePath with
    | .error msg => .error msg
    | .ok r =>
      if r = '/' then
        match lastChar finalPath with
        | .error msg => .error msg
        | .ok f => if f ≠ '/' then .ok (finalPath ++ "/") else .ok finalPath
      else .ok finalPath

/-! ## Data model of the engine (server.go, routergroup.go) -/

/-- Source `_abortIndex int8 = math.MaxInt8 / 2`. -/
def _abortIndex : Int := 127 / 2

/-- Source `MethodConfig`: per-path timeout, a duration in nanoseconds. -/
structure MethodConfig where
  Timeout : Int
deriving DecidableEq, Repr

/-- Source `ServerConfig`; durations are signed 64-bit nanosecond counts. -/
structure ServerConfig where
  NewWork : String
  Address : String
  TimeOut : Int
  ReadTimeOut : Int
  WriteTimeOut : Int
deriving DecidableEq, Repr

/-- Source `injection`: a compiled pattern, represented by its `MatchString`
function, and the handlers to splice in. -/
structure injection (H : Type) where
  pattern : String → Bool
  handlers : List H

/-- Source `RouterGroup`. The back pointer to the engine is passed explicitly
to the operations that use it. -/
structure RouterGroup (H : Type) where
  Handlers : List H
  basePath : String
  root : Bool
  baseConfig : Option MethodConfig

/-- What `addRoute` registers on the multiplexer for a path: the closure
captures the declared method and the merged chain. -/
structure Route (H : Type) where
  path : String
  method : String
  handlers : List H
deriving DecidableEq, Repr

/-- Source `Engine`: the root group, the configuration, the route table
(`mux`), the per-path metadata keys, the method configs (latest entry first)
and the injections in registration order. -/
structure Engine (H : Type) where
  group : RouterGroup H
  conf : ServerConfig
  mux : List (Route H)
  metastore : List String
  methodConfigs : List (String × Option MethodConfig)
  injections : List (injection H)

variable {H : Type}

/-- Source `New`: a blank engine with a one-second default timeout. -/
def New : Engine H :=
  { group := { Handlers := [], basePath := "/", root := true, baseConfig := none }
    conf := { NewWork := "", Address := "", TimeOut := 1000000000, ReadTimeOut := 0, WriteTimeOut := 0 }
    mux := []
    metastore := []
    methodConfigs := []
    injections := [] }

/-- Standard-library `ServeMux.HandleFunc`: panics on an empty pattern and on
a pattern that is already registered, otherwise records the handler. -/
def mux.HandleFunc (m : List (Route H)) (r : Route H) : Except String (List (Route H)) :=
  if r.path = "" then .error "http: invalid pattern"
  else if m.any (fun x => decide (x.path = r.path)) then
    .error ("http: multiple registrations for " ++ r.path)
  else .ok (m ++ [r])

/-- Source `Engine.SetMethodConfig`: `methodConfigs[path] = mc`. -/
def Engine.SetMethodConfig (engine : Engine H) (path : String) (mc : Option MethodConfig) :
    Engine H :=
  { engine with methodConfigs := (path, mc) :: engine.methodConfigs }

/-- Source `Engine.methodConfig`: map lookup, nil when the path has no entry. -/
def Engine.methodConfig (engine : Engine H) (path : String) : Option MethodConfig :=
  match engine.methodConfigs.find? (fun kv => decide (kv.1 = path)) with
  | some kv => kv.2
  | none => none

/-- Source `Engine.Inject`, given the compiled pattern. -/
def Engine.Inject (engine : Engine H) (pattern : String → Bool) (handlers : List H) :
    Engine H :=
  { engine with injections := engine.injections ++ [{ pattern := pattern, handlers := handlers }] }

/-- The metadata step of source `Engine.addRoute`: create the entry of the
path in `metastore` unless it is already there. -/
def Engine.initMeta (engine : Engine H) (path : String) : Engine H :=
  if engine.metastore.contains path then engine
  else { engine with metastore := engine.metastore ++ [path] }

/-- Source `Engine.addRoute`: three guards, then the metadata entry and the
registration on the multiplexer. -/
def Engine.addRoute (engine : Engine H) (method path : String) (handlers : List H) :
    Outcome (Engine H) :=
  match path.data with
  | [] => .panic "runtime error: index out of range" engine
  | c :: _ =>
    if c ≠ '/' then .panic "pudding: path must begin with / " engine
    else if method = "" then .panic "pudding: HTTP method can not be empty " engine
    else if handlers.length = 0 then .panic "pudding: there must be at least one handler" engine
    else
      match mux.HandleFunc (engine.initMeta path).mux
          { path := path, method := method, handlers := handlers } with
      | .error msg => .panic msg (engine.initMeta path)
      | .ok m => .ok { engine.initMeta path with mux := m }

/-- Source `RouterGroup.UseFunc` (and `Use`, which appends the same functions). -/
def RouterGroup.UseFunc (group : RouterGroup H) (middleware : List H) : RouterGroup H :=
  { group with Handlers := group.Handlers ++ middleware }

/-- Source `RouterGroup.combineHandlers`: the size check against
`_abortIndex`, then the group handlers followed by each handler group. -/
def RouterGroup.combineHandlers (group : RouterGroup H) (handlerGroups : List (List H)) :
    Except String (List H) :=
  let finalSize := group.Handlers.length + (handlerGroups.map List.length).sum
  if (finalSize : Int) ≥ _abortIndex then .error "too many handlers"
  else .ok (handlerGroups.foldl (fun merged hs => merged ++ hs) group.Handlers)

/-- Source `RouterGroup.calculateAbsolutePath`. -/
def RouterGroup.calculateAbsolutePath (group : RouterGroup H) (relativePath : String) :
    Except String String :=
  joinPaths group.basePath relativePath

/-- Source `RouterGroup.Group`: a new non-root group. -/
def RouterGroup.Group (group : RouterGroup H) (relativePath : String) (handlers : List H) :
    Except String (RouterGroup H) :=
  match group.combineHandlers [handlers] with
  | .error msg => .error msg
  | .ok merged =>
    match group.calculateAbsolutePath relativePath with
    | .error msg => .error msg
    | .ok p => .ok { Handlers := merged, basePath := p, root := false, baseConfig := none }

/-- The loop of source `RouterGroup.injections`: the handlers of the first
injection whose pattern matches, nil when the loop runs out. -/
def injectionsLoop (absPath : String) : List (injection H) → List H
  | [] => []
  | inj :: rest => if ¬ inj.pattern absPath then injectionsLoop absPath rest else inj.handlers

/-- Source `RouterGroup.injections`. -/
def RouterGroup.injections (group : RouterGroup H) (engine : Engine H) (relativePath : String) :
    Except String (List H) :=
  match group.calculateAbsolutePath relativePath with
  | .error msg => .error msg
  | .ok absPath => .ok (injectionsLoop absPath engine.injections)

/-- Source `RouterGroup.handle`. -/
def RouterGroup.handle (group : RouterGroup H) (engine : Engine H)
    (httpMethod relativePath : String) (handlers : List H) : Outcome (Engine H) :=
  match group.calculateAbsolutePath relativePath with
  | .error msg => .panic msg engine
  | .ok absolutePath =>
    match group.injections engine relativePath with
    | .error msg => .panic msg engine
    | .ok injections =>
      match group.combineHandlers [injections, handlers] with
      | .error msg => .panic msg engine
      | .ok merged =>
        match engine.addRoute httpMethod absolutePath merged with
        | .panic msg e => .panic msg e
        | .ok e =>
          match group.baseConfig with
          | some cfg => .ok (e.SetMethodConfig absolutePath (some cfg))
          | none => .ok e

/-- The character class `[A-Z]`. -/
def classAZ (c : Char) : Bool := decide ('A' ≤ c) && decide (c ≤ 'Z')

/-- Matching `[A-Z]+$` from the current position: one class character, then
either the end of the text or a further repetition. -/
def matchUpperToEnd : List Char → Bool
  | [] => false
  | c :: cs => classAZ c && (cs.isEmpty || matchUpperToEnd cs)

/-- The call `regexp.MatchString("^[A-Z]+$", httpMethod)` of source `Handler`;
the leading anchor pins the match to the start of the text. -/
def matchMethodPattern (httpMethod : String) : Bool := matchUpperToEnd httpMethod.data

/-- Source `RouterGroup.Handler`. -/
def RouterGroup.Handler (group : RouterGroup H) (engine : Engine H)
    (httpMethod relativePath : String) (handlers : List H) : Outcome (Engine H) :=
  if ¬ matchMethodPattern httpMethod then
    .panic ("http method " ++ httpMethod ++ " is not valid") engine
  else group.handle engine httpMethod relativePath handlers

/-- Source `RouterGroup.GET`. -/
def RouterGroup.GET (group : RouterGroup H) (engine : Engine H) (relativePath : String)
    (handlers : List H) : Outcome (Engine H) :=
  group.Handler engine "GET" relativePath handlers

/-- Source `RouterGroup.POST`. -/
def RouterGroup.POST (group : RouterGroup H) (engine : Engine H) (relativePath : String)
    (handlers : List H) : Outcome (Engine H) :=
  group.Handler engine "POST" relativePath handlers

/-- One declaration on the way from the root group to a leaf group: more
middleware on the current group, or a nested group. -/
inductive GroupCall (H : Type) where
  | UseFunc (middleware : List H)
  | Group (relativePath : String) (middleware : List H)

/-- The middleware a declaration contributes. -/
def GroupCall.middleware : GroupCall H → List H
  | .UseFunc ms => ms
  | .Group _ ms => ms

/-- Apply a sequence of `UseFunc` and `Group` declarations, starting from a
group and ending at the leaf group they reach. -/
def RouterGroup.descend (group : RouterGroup H) : List (GroupCall H) →
    Except String (RouterGroup H)
  | [] => .ok group
  | .UseFunc ms :: rest => (group.UseFunc ms).descend rest
  | .Group p ms :: rest =>
    match group.Group p ms with
    | .error msg => .error msg
    | .ok child => child.descend rest

/-! ## strconv.ParseInt (base 10, 64 bits) -/

/-- The two errors of `strconv`: malformed text and value out of range. -/
inductive NumError where
  | ErrSyn
  | ErrRange
deriving DecidableEq, Repr

/-- Largest unsigned 64-bit value, `1<<64 - 1`. -/
def maxUint64 : Nat := 18446744073709551615

/-- Largest signed 64-bit value, `1<<63 - 1`. -/
def maxInt64 : Int := 9223372036854775807

/-- Smallest signed 64-bit value, `-1<<63`. -/
def minInt64 : Int := -9223372036854775808

/-- Reduction of a natural number to the unsigned 64-bit range. -/
def wrapUint64 (x : Nat) : Nat := x % 18446744073709551616

/-- Reduction of an integer to the signed 64-bit range (two's complement). -/
def wrapInt64 (x : Int) : Int :=
  (x + 9223372036854775808) % 18446744073709551616 - 9223372036854775808

/-- The value of a decimal digit character, `c - '0'`. -/
def digitVal (c : Char) : Nat := c.toNat - 48

/-- The digit loop of `strconv.ParseUint(s, 10, 64)`: a character that is not
a decimal digit is a malformed-text error with value 0; overflow of the
unsigned 64-bit accumulator is a range error with the maximal value, raised
as soon as it happens. -/
def ParseUintLoop : List Char → Nat → Nat × Option NumError
  | [], n => (n, none)
  | c :: cs, n =>
    if '0' ≤ c ∧ c ≤ '9' then
      if n ≥ maxUint64 / 10 + 1 then (maxUint64, some .ErrRange)
      else if wrapUint64 (wrapUint64 (n * 10) + digitVal c) < wrapUint64 (n * 10) ∨
          wrapUint64 (wrapUint64 (n * 10) + digitVal c) > maxUint64 then
        (maxUint64, some .ErrRange)
      else ParseUintLoop cs (wrapUint64 (wrapUint64 (n * 10) + digitVal c))
    else (0, some .ErrSyn)

/-- Go's `strconv.ParseUint(s, 10, 64)`. -/
def strconv.ParseUint (s : List Char) : Nat × Option NumError :=
  if s = [] then (0, some .ErrSyn) else ParseUintLoop s 0

/-- The sign handling of `strconv.ParseInt` once the digits are converted:
values beyond the signed range give a range error with the nearest bound. -/
def ParseIntSigned (neg : Bool) (un : Nat) : Int × Option NumError :=
  if ¬ neg ∧ (un : Int) ≥ maxInt64 + 1 then (maxInt64, some .ErrRange)
  else if neg ∧ (un : Int) > maxInt64 + 1 then (minInt64, some .ErrRange)
  else (wrapInt64 (if neg then -(wrapInt64 un) else wrapInt64 un), none)

/-- Go's `strconv.ParseInt(s, 10, 64)`: optional sign, then `ParseUint`; a
malformed text gives value 0 with the error. -/
def strconv.ParseInt (s : String) : Int × Option NumError :=
  match s.data with
  | [] => (0, some .ErrSyn)
  | c :: rest =>
    match strconv.ParseUint (if c = '+' ∨ c = '-' then rest else c :: rest) with
    | (_, some .ErrSyn) => (0, some .ErrSyn)
    | (un, _) => ParseIntSigned (decide (c = '-')) un

/-! ## Requests and metadata.go -/

/-- Request headers: name and first value. Names are written as in the source
and are looked up by equality, which stands for the canonical-name lookup of
`http.Header`. -/
abbrev Header := List (String × String)

/-- Go's `Header.Get`: the value stored for the name, the empty string when
the header is absent. -/
def Header.Get (h : Header) (key : String) : String :=
  match h.find? (fun kv => decide (kv.1 = key)) with
  | some kv => kv.2
  | none => ""

/-- The parts of `http.Request` the framework reads. -/
structure Request where
  Method : String
  Path : String
  Header : Header
  RemoteAddr : String
deriving DecidableEq, Repr

/-- Source constant `_httpHeaderTimeout`. -/
def _httpHeaderTimeout : String := "x-pudding-timeout"

/-- Source constant `_httpHeaderRemoteIP`. -/
def _httpHeaderRemoteIP : String := "x-pudding-real-ip"

/-- Source `timeout`: the client timeout in nanoseconds. The header counts
microseconds; 20 is subtracted when the number parsed without error and
exceeds 20; the product with `time.Microsecond` is a signed 64-bit product. -/
def timeout (req : Request) : Int :=
  let parsed := strconv.ParseInt (Header.Get req.Header _httpHeaderTimeout)
  let t := if parsed.2 = none ∧ parsed.1 > 20 then wrapInt64 (parsed.1 - 20) else parsed.1
  wrapInt64 (t * 1000)

/-- Go's `strings.IndexByte`: position of the first occurrence, -1 if none. -/
def strings.IndexByte (s : String) (c : Char) : Int :=
  if c ∈ s.data then (s.data.indexOf c : Int) else -1

/-- Go slice expression `s[:i]`: panics unless `0 ≤ i ≤ len(s)`. -/
def sliceTo (s : String) (i : Int) : Except String String :=
  if 0 ≤ i ∧ i ≤ s.data.length then .ok (String.mk (s.data.take i.toNat))
  else .error "runtime error: slice bounds out of range"

/-- Go's `unicode.IsSpace`. -/
def isSpace (c : Char) : Bool :=
  c.toNat = 9 || c.toNat = 10 || c.toNat = 11 || c.toNat = 12 || c.toNat = 13 || c.toNat = 32 ||
  c.toNat = 0x85 || c.toNat = 0xA0 || c.toNat = 0x1680 ||
  (decide (0x2000 ≤ c.toNat) && decide (c.toNat ≤ 0x200A)) ||
  c.toNat = 0x2028 || c.toNat = 0x2029 || c.toNat = 0x202F || c.toNat = 0x205F ||
  c.toNat = 0x3000

/-- Go's `strings.TrimSpace`. -/
def strings.TrimSpace (s : String) : String :=
  String.mk ((s.data.dropWhile isSpace).reverse.dropWhile isSpace).reverse

/-- The forwarded-for step of source `remoteIP`: entered when `remote` is not
empty; slices the header value at the position of the first comma. -/
def remoteIPForwarded (remote xff : String) : Except String (Option String) :=
  let index := strings.IndexByte xff ','
  if remote ≠ "" then
    match sliceTo xff index with
    | .error msg => .error msg
    | .ok first =>
      if strings.TrimSpace first ≠ "" then .ok (some (strings.TrimSpace first)) else .ok none
  else .ok none

/-- Source `remoteIP`. -/
def remoteIP (req : Request) : Except String String :=
  let remote := Header.Get req.Header _httpHeaderRemoteIP
  if remote ≠ "" ∧ remote ≠ "null" then .ok remote
  else
    match remoteIPForwarded remote (Header.Get req.Header "X-Forwarder-For") with
    | .error msg => .error msg
    | .ok (some r) => .ok r
    | .ok none =>
      if Header.Get req.Header "X-Real-IP" ≠ "" then .ok (Header.Get req.Header "X-Real-IP")
      else sliceTo req.RemoteAddr (strings.IndexByte req.RemoteAddr ':')

/-- The first steps of the timeout negotiation of source
`Engine.handleContext`: the configured default, replaced by the timeout of the
method config of the request path when there is one. -/
def Engine.baseTimeout (engine : Engine H) (req : Request) : Int :=
  match engine.methodConfig req.Path with
  | some pc => pc.Timeout
  | none => engine.conf.TimeOut

/-- The timeout negotiation of source `Engine.handleContext` (the final value
of the local `tm`): the base timeout, replaced by the client timeout when that
is positive and smaller. -/
def Engine.requestTimeout (engine : Engine H) (req : Request) : Int :=
  if timeout req > 0 ∧ engine.baseTimeout req > timeout req then timeout req
  else engine.baseTimeout req

/-! ## context.go: the execution context and its chain control flow -/

/-- What a handler does with its execution context, in program order. Only
the calls that read or move the cursor are recorded. A handler is invoked at
most once per request, so the calls it makes in a given run form one such
sequence; quantifying over all sequences covers every handler. -/
inductive Action where
  | Next
  | Abort
  | AbortWithStatus (code : Int)
  | IsAborted
deriving DecidableEq, Repr

/-- Source `HandlerFunc`, as the script of its calls on the context. -/
abbrev HandlerFunc := List Action

/-- Observable steps of a request, in order of occurrence. -/
inductive Event where
  | enter (position : Nat)
  | leave (position : Nat)
  | httpError (code : Nat)
  | writeHeader (code : Int)
  | isAborted (result : Bool)
deriving DecidableEq, Repr

/-- Source `Context`: the 8-bit signed cursor, the chain, the declared route
method and the request. `events` records what was invoked and written;
`panicked` is set when a run-time panic unwinds the request. -/
structure Context where
  index : Int
  handlers : List HandlerFunc
  method : String
  Request : Request
  events : List Event
  panicked : Bool
deriving DecidableEq, Repr

/-- Reduction of an integer to the signed 8-bit range (two's complement). -/
def wrapInt8 (x : Int) : Int := (x + 128) % 256 - 128

/-- The statement `c.index++` on the 8-bit cursor. -/
def Context.step (c : Context) : Context := { c with index := wrapInt8 (c.index + 1) }

/-- Append an observable step to the record of the request. -/
def Context.record (c : Context) (e : Event) : Context := { c with events := c.events ++ [e] }

/-- A run-time panic: the request is abandoned in its current state. -/
def Context.fail (c : Context) : Context := { c with panicked := true }

/-- Source `Context.Abort`. -/
def Context.Abort (c : Context) : Context := { c with index := _abortIndex }

/-- Source `Context.Status`: `c.Writer.WriteHeader(code)`. -/
def Context.Status (c : Context) (code : Int) : Context := c.record (.writeHeader code)

/-- Source `Context.AbortWithStatus`. -/
def Context.AbortWithStatus (c : Context) (code : Int) : Context := (c.Status code).Abort

/-- Source `Context.IsAborted`. -/
def Context.IsAborted (c : Context) : Bool := decide (c.index ≥ _abortIndex)

/-- The index expression `c.handlers[c.index]`: none when the cursor is out of
range, which is a run-time panic. -/
def Context.handlerAt (c : Context) : Option HandlerFunc :=
  if 0 ≤ c.index then c.handlers[c.index.toNat]? else none

/-- The method check of source `Context.Next` on the last handler. -/
def Context.methodMismatch (c : Context) (s : Int) : Prop :=
  c.index = wrapInt8 (s - 1) ∧ c.method ≠ c.Request.Method

instance (c : Context) (s : Int) : Decidable (c.methodMismatch s) :=
  inferInstanceAs (Decidable (c.index = wrapInt8 (s - 1) ∧ c.method ≠ c.Request.Method))

/-- The three kinds of activation in a chain execution: a call of `Next`, the
`for` loop of `Next` at its condition (with its local `s`), and the rest of a
handler body. -/
inductive Task where
  | Next
  | loop (s : Int)
  | call (body : List Action)

/-- Source `Context.Next`, together with the handler bodies it invokes and
their re-entrant calls. The first argument bounds the nesting depth of the
evaluation; `none` means the bound was too small. -/
def exec : Nat → Task → Context → Option Context
  | 0, _, _ => none
  | fuel + 1, .Next, c => exec fuel (.loop (wrapInt8 c.handlers.length)) c.step
  | fuel + 1, .loop s, c =>
    if c.index < s then
      if c.methodMismatch s then some (c.record (.httpError 405))
      else
        match c.handlerAt with
        | none => some c.fail
        | some h =>
          match exec fuel (.call h) (c.record (.enter c.index.toNat)) with
          | none => none
          | some c1 =>
            if c1.panicked then some c1
            else exec fuel (.loop s) (c1.record (.leave c.index.toNat)).step
    else some c
  | _ + 1, .call [], c => some c
  | fuel + 1, .call (.Next :: rest), c =>
    match exec fuel .Next c with
    | none => none
    | some c1 => if c1.panicked then some c1 else exec fuel (.call rest) c1
  | fuel + 1, .call (.Abort :: rest), c => exec fuel (.call rest) c.Abort
  | fuel + 1, .call (.AbortWithStatus code :: rest), c =>
    exec fuel (.call rest) (c.AbortWithStatus code)
  | fuel + 1, .call (.IsAborted :: rest), c =>
    exec fuel (.call rest) (c.record (.isAborted c.IsAborted))

/-- The context the closure registered by source `Engine.addRoute` builds for
a request: cursor -1, the merged chain and the declared method. -/
def Route.newContext (r : Route HandlerFunc) (req : Request) : Context :=
  { index := -1, handlers := r.handlers, method := r.method, Request := req, events := [],
    panicked := false }

/-- Nesting depth that the loop of `Next` may need from position `k` on: three
levels per remaining handler and one per action of its body. -/
def weight : List HandlerFunc → Nat → Nat
  | [], _ => 1
  | h :: rest, 0 => h.length + 3 + weight rest 0
  | _ :: rest, k + 1 => weight rest k

/-- A nesting bound that suffices for a whole chain of at most 63 handlers. -/
def chainFuel (handlers : List HandlerFunc) : Nat := weight handlers 0 + 2

/-- The position an event reports as invoked, if it is an invocation. -/
def Event.entered? : Event → Option Nat
  | .enter i => some i
  | _ => none

/-- The position an event reports as returned, if it is a return. -/
def Event.left? : Event → Option Nat
  | .leave i => some i
  | _ => none

/-- The positions of the handlers invoked, in order of invocation. -/
def entered (events : List Event) : List Nat := events.filterMap Event.entered?

/-- The positions of the handlers that returned, in order of return. -/
def left (events : List Event) : List Nat := events.filterMap Event.left?

/-- How often the 405 response was written. -/
def count405 (events : List Event) : Nat := events.count (.httpError 405)

/-- The body calls neither `Abort` nor `AbortWithStatus`. -/
def noAbort : List Action → Bool
  | [] => true
  | .Abort :: _ => false
  | .AbortWithStatus _ :: _ => false
  | _ :: rest => noAbort rest

/-- Pre- and postconditions for the three kinds of activation. -/
structure ExecSpec where
  PN : Context → Prop
  PL : Int → Context → Prop
  PC : List Action → Context → Prop
  QN : Context → Context → Prop
  QL : Int → Context → Context → Prop
  QC : List Action → Context → Context → Prop

/-- The verification conditions of a specification: one per step of `exec`. -/
structure ExecSpec.Sound (S : ExecSpec) : Prop where
  next : ∀ c, S.PN c →
    S.PL (wrapInt8 c.handlers.length) c.step ∧
    ∀ c', S.QL (wrapInt8 c.handlers.length) c.step c' → S.QN c c'
  exit : ∀ s c, S.PL s c → ¬ c.index < s → S.QL s c c
  notAllowed : ∀ s c, S.PL s c → c.index < s → c.methodMismatch s →
    S.QL s c (c.record (.httpError 405))
  outOfRange : ∀ s c, S.PL s c → c.index < s → ¬ c.methodMismatch s →
    c.handlerAt = none → S.QL s c c.fail
  enter : ∀ s c h, S.PL s c → c.index < s → ¬ c.methodMismatch s →
    c.handlerAt = some h →
    S.PC h (c.record (.enter c.index.toNat)) ∧
    ∀ c1, S.QC h (c.record (.enter c.index.toNat)) c1 →
      (c1.panicked = true → S.QL s c c1) ∧
      (c1.panicked = false →
        S.PL s (c1.record (.leave c.index.toNat)).step ∧
        ∀ c', S.QL s (c1.record (.leave c.index.toNat)).step c' → S.QL s c c')
  done : ∀ c, S.PC [] c → S.QC [] c c
  callNext : ∀ rest c, S.PC (.Next :: rest) c →
    S.PN c ∧
    ∀ c1, S.QN c c1 →
      (c1.panicked = true → S.QC (.Next :: rest) c c1) ∧
      (c1.panicked = false →
        S.PC rest c1 ∧ ∀ c', S.QC rest c1 c' → S.QC (.Next :: rest) c c')
  abort : ∀ rest c, S.PC (.Abort :: rest) c →
    S.PC rest c.Abort ∧ ∀ c', S.QC rest c.Abort c' → S.QC (.Abort :: rest) c c'
  abortWithStatus : ∀ code rest c, S.PC (.AbortWithStatus code :: rest) c →
    S.PC rest (c.AbortWithStatus code) ∧
    ∀ c', S.QC rest (c.AbortWithStatus code) c' → S.QC (.AbortWithStatus code :: rest) c c'
  isAborted : ∀ rest c, S.PC (.IsAborted :: rest) c →
    S.PC rest (c.record (.isAborted c.IsAborted)) ∧
    ∀ c', S.QC rest (c.record (.isAborted c.IsAborted)) c' → S.QC (.IsAborted :: rest) c c'

/-- What every returning activation guarantees towards termination: the chain
is untouched and, unless the request panicked, the cursor is a valid
non-negative position from which no more nesting is needed than before. -/
def Progress (hs : List HandlerFunc) (k : Nat) (c' : Context) : Prop :=
  c'.handlers = hs ∧
  (c'.panicked = false →
    0 ≤ c'.index ∧ c'.index ≤ 127 ∧ weight hs (c'.index.toNat + 1) ≤ weight hs k)

/-- A decimal digit. -/
def isDigit (c : Char) : Bool := decide ('0' ≤ c) && decide (c ≤ '9')

/-- The number written by a list of decimal digits, continuing from `n`. -/
def digitsFrom (n : Nat) : List Char → Nat
  | [] => n
  | c :: cs => digitsFrom (n * 10 + digitVal c) cs

/-- A decimal integer numeral: an optional sign followed by one or more
decimal digits. -/
def isDecimalInteger (s : String) : Bool :=
  match s.data with
  | [] => false
  | c :: rest =>
    if c = '+' ∨ c = '-' then !rest.isEmpty && rest.all isDigit
    else (c :: rest).all isDigit

/-- The integer a decimal numeral denotes, without any bound. -/
def decimalValue (s : String) : Int :=
  match s.data with
  | [] => 0
  | c :: rest =>
    if c = '-' then -(digitsFrom 0 rest : Int)
    else if c = '+' then (digitsFrom 0 rest : Int)
    else (digitsFrom 0 (c :: rest) : Int)

/-- Request with only a client-timeout header. -/
def exTimeoutRequest (value : String) : Request :=
  { Method := "GET", Path := "/x", Header := [(_httpHeaderTimeout, value)],
    RemoteAddr := "9.9.9.9:1234" }

/-- Engine with default timeout 100ms and a method config of 50ms for `/x`. -/
def exTimeoutEngine : Engine Nat :=
  ({ (New : Engine Nat) with
      conf := { NewWork := "tcp", Address := "", TimeOut := 100000000, ReadTimeOut := 0,
                WriteTimeOut := 0 } }).SetMethodConfig "/x" (some { Timeout := 50000000 })

/-- Request without the dedicated remote-IP header, with a forwarded-for list. -/
def exForwardedRequest : Request :=
  { Method := "GET", Path := "/x", Header := [("X-Forwarder-For", "1.2.3.4, 5.6.7.8")],
    RemoteAddr := "9.9.9.9:1234" }

/-- The handlers of the first injection, in registration order, whose pattern
matches the path; none when no pattern matches. -/
def firstMatchingInjection (injs : List (injection H)) (absPath : String) : List H :=
  match injs.find? (fun inj => inj.pattern absPath) with
  | some inj => inj.handlers
  | none => []

/-- The middleware declared along a sequence of declarations, in order. -/
def declared : List (GroupCall H) → List H
  | [] => []
  | call :: rest => call.middleware ++ declared rest

/-- Example engine: a blank engine with one injection whose pattern matches
every path (the empty regular expression of `main.go`). -/
def exEngine : Engine Nat := (New : Engine Nat).Inject (fun _ => true) [10]

/-- Example declarations: middleware on the root, then a nested group. -/
def exCalls : List (GroupCall Nat) := [.UseFunc [1], .Group "/internal" [2]]

/-- The group reached from the blank root by `exCalls`. -/
def exLeaf : RouterGroup Nat :=
  { Handlers := [1, 2], basePath := "/internal", root := false, baseConfig := none }

/-- The number of handlers a request runs: all of the chain, or all but the
last when the declared method differs from the request method. -/
def reach (hs : List HandlerFunc) (m : String) (req : Request) : Nat :=
  if m ≠ req.Method then hs.length - 1 else hs.length

/-- The record of a request whose cursor has passed `v` positions: the first
`v` handlers within reach were invoked once each, in order, and the 405
response was written once if the cursor passed a mismatching last handler. -/
def Visited (hs : List HandlerFunc) (m : String) (req : Request) (v : Nat)
    (es : List Event) : Prop :=
  entered es = List.range (min v (reach hs m req)) ∧
  count405 es = (if m ≠ req.Method ∧ hs.length ≤ v then 1 else 0)

/-- The chain, the declared method and the request of a context are the given ones. -/
def Framed (hs : List HandlerFunc) (m : String) (req : Request) (c : Context) : Prop :=
  c.handlers = hs ∧ c.method = m ∧ c.Request = req

/-- Invariant between two calls of a handler body (no handler aborts). -/
def ChainInv (hs : List HandlerFunc) (m : String) (req : Request) (c : Context) : Prop :=
  Framed hs m req c ∧
  (c.panicked = false →
    -1 ≤ c.index ∧ c.index ≤ 127 ∧ Visited hs m req (c.index + 1).toNat c.events) ∧
  (c.panicked = true → Visited hs m req 128 c.events)

/-- Invariant at the loop condition of `Next`, right after an increment. -/
def ChainPre (hs : List HandlerFunc) (m : String) (req : Request) (c : Context) : Prop :=
  Framed hs m req c ∧ c.panicked = false ∧
  ∃ v : Nat, v ≤ 128 ∧ c.index = wrapInt8 v ∧ Visited hs m req v c.events

/-- Specification of chain execution when no reachable handler aborts. -/
def chainSpec (hs : List HandlerFunc) (m : String) (req : Request) : ExecSpec where
  PN := fun c => ChainInv hs m req c ∧ c.panicked = false
  PL := fun s c => s = (hs.length : Int) ∧ ChainPre hs m req c
  PC := fun body c => ChainInv hs m req c ∧ c.panicked = false ∧ noAbort body = true
  QN := fun _ c' => ChainInv hs m req c' ∧ (c'.panicked = false → (hs.length : Int) ≤ c'.index + 1)
  QL := fun _ _ c' =>
    ChainInv hs m req c' ∧ (c'.panicked = false → (hs.length : Int) ≤ c'.index + 1)
  QC := fun _ _ c' => ChainInv hs m req c'

/-- Specification: every invoked position lies within the chain. -/
def rangeSpec (hs : List HandlerFunc) : ExecSpec where
  PN := fun c => c.handlers = hs ∧ ∀ j ∈ entered c.events, j < hs.length
  PL := fun _ c => c.handlers = hs ∧ ∀ j ∈ entered c.events, j < hs.length
  PC := fun _ c => c.handlers = hs ∧ ∀ j ∈ entered c.events, j < hs.length
  QN := fun _ c' => c'.handlers = hs ∧ ∀ j ∈ entered c'.events, j < hs.length
  QL := fun _ _ c' => c'.handlers = hs ∧ ∀ j ∈ entered c'.events, j < hs.length
  QC := fun _ _ c' => c'.handlers = hs ∧ ∀ j ∈ entered c'.events, j < hs.length

/-- The number of handler invocations that have not returned yet. -/
def depth (es : List Event) : Int := ((entered es).length : Int) - ((left es).length : Int)

/-- Invocations of position `j` that have not returned yet. -/
def balance (j : Nat) (es : List Event) : Int :=
  ((entered es).count j : Int) - ((left es).count j : Int)

/-- The number of calls of `Next` in a handler body. -/
def nexts (body : List Action) : Nat := body.count .Next

/-- What a returning activation guarantees when no body calls `Next` twice:
no panic, every invocation made inside has returned, and the cursor leaves
room for the increments still owed by the open invocations. -/
def Settled (hs : List HandlerFunc) (slack : Int) (c c' : Context) : Prop :=
  c'.handlers = hs ∧ c'.panicked = false ∧ 0 ≤ c'.index ∧
  (∀ j, balance j c'.events = balance j c.events) ∧
  depth c'.events = depth c.events ∧
  c'.index + depth c.events ≤ 126 ∧
  (c'.index < (hs.length : Int) → depth c.events ≤ c'.index + slack)

/-- Specification of chain execution when every handler body calls `Next` at
most once: the cursor plus the number of open invocations never exceeds 126. -/
def depthSpec (hs : List HandlerFunc) : ExecSpec where
  PN := fun c => c.handlers = hs ∧ c.panicked = false ∧ -1 ≤ c.index ∧
    0 ≤ depth c.events ∧ depth c.events ≤ 62 ∧ c.index + 1 + depth c.events ≤ 126 ∧
    (c.index < (hs.length : Int) → depth c.events ≤ c.index + 1)
  PL := fun s c => s = (hs.length : Int) ∧ c.handlers = hs ∧ c.panicked = false ∧ 0 ≤ c.index ∧
    0 ≤ depth c.events ∧ depth c.events ≤ 62 ∧ c.index + depth c.events ≤ 126 ∧
    (c.index < (hs.length : Int) → depth c.events ≤ c.index)
  PC := fun body c => c.handlers = hs ∧ c.panicked = false ∧ 0 ≤ c.index ∧ nexts body ≤ 1 ∧
    0 ≤ depth c.events ∧ depth c.events ≤ 62 ∧
    c.index + (nexts body : Int) + depth c.events ≤ 126 ∧
    (c.index < (hs.length : Int) → depth c.events ≤ c.index + 1)
  QN := fun c c' => Settled hs 0 c c'
  QL := fun _ c c' => Settled hs 0 c c'
  QC := fun _ c c' => Settled hs 1 c c'

/-- A middleware in the wrap pattern: it looks at the abort flag, runs the rest
of the chain, and looks again. -/
def exWrap : HandlerFunc := [.IsAborted, .Next, .IsAborted]

/-- A GET route with two wrapping middleware and a final handler. -/
def exRoute : Route HandlerFunc :=
  { path := "/x", method := "GET", handlers := [exWrap, exWrap, []] }

/-- A GET route whose second handler aborts and then calls `Next`. -/
def exAbortRoute : Route HandlerFunc :=
  { path := "/x", method := "GET", handlers := [exWrap, [.Abort, .Next], []] }

/-- A GET request. -/
def exGet : Request := { Method := "GET", Path := "/x", Header := [], RemoteAddr := "9.9.9.9:1" }

/-- A POST request. -/
def exPost : Request := { Method := "POST", Path := "/x", Header := [], RemoteAddr := "9.9.9.9:1" }

/-- Whether a string ends in a slash. -/
def endsInSlash (s : String) : Bool := decide (s.data.getLast? = some '/')

/-- Source `Engine.SetConfig`: the new engine state and the returned error.
Only the default timeout is checked; an empty network kind is replaced by
`tcp` before the configuration is stored. -/
def Engine.SetConfig (engine : Engine H) (conf : ServerConfig) : Engine H × Option String :=
  if conf.TimeOut < 0 then (engine, some "pudding: config timeout must > 0")
  else
    let conf1 := if conf.NewWork = "" then { conf with NewWork := "tcp" } else conf
    ({ engine with conf := conf1 }, none)

/-- A configuration whose default timeout is fine and whose read timeout is negative. -/
def exNegativeReadConfig : ServerConfig :=
  { NewWork := "", Address := ":8080", TimeOut := 0, ReadTimeOut := -1, WriteTimeOut := -5 }

/-- A group as a zero value: empty base path, no handlers. -/
def exBlankGroup : RouterGroup Nat :=
  { Handlers := [], basePath := "", root := false, baseConfig := none }

/-- An execution context standing exactly at the abort sentinel. -/
def exAbortedContext : Context :=
  (exRoute.newContext exPost).Abort

/-- An engine with two injections: paths that begin with `/a`, then all rooted paths. -/
def exTwoInjections : Engine Nat :=
  ((New : Engine Nat).Inject (fun p => decide (p.data.take 2 = ['/', 'a'])) [10]).Inject
    (fun p => decide (p.data.head? = some '/')) [20]

/-! ## Package metadata: maps carried by contexts (metadata/metadata.go) -/

/-- A Go value of type `interface{}`, as far as the package tells values
apart: the nil interface, a string, a 64-bit integer, a boolean, or a value
of any other type. -/
inductive Value where
  | nil
  | str (s : String)
  | int64 (i : Int)
  | bool (b : Bool)
  | other (tag : Nat)
deriving DecidableEq, Repr

/-- The entries of one Go map with string keys, in the order in which a
`range` loop visits them. Each key occurs once. -/
abbrev Entries := List (String × Value)

/-- The keys of a map. -/
def Entries.keys (m : Entries) : List String := m.map Prod.fst

/-- The comma-ok lookup `v, ok := m[k]`. -/
def Entries.get? : Entries → String → Option Value
  | [], _ => none
  | (k', v) :: rest, k => if k' = k then some v else Entries.get? rest k

/-- The index expression `m[k]`: the nil interface when the key is absent. -/
def Entries.index (m : Entries) (k : String) : Value := (m.get? k).getD .nil

/-- The assignment `m[k] = v` on the entries: overwrite the entry of the key,
or add one. -/
def Entries.set : Entries → String → Value → Entries
  | [], k, v => [(k, v)]
  | (k', v') :: rest, k, v =>
    if k' = k then (k, v) :: rest else (k', v') :: Entries.set rest k v

/-- Source `MD`: a map value is nil or refers to a map in the store. Copies of
the value refer to the same map. -/
abbrev MD := Option Nat

/-- The maps allocated so far; a reference is a position in this list. -/
abbrev Maps := List Entries

/-- The entries seen through a map value; a nil map has none. -/
def Maps.entries (σ : Maps) : MD → Entries
  | none => []
  | some r => σ.getD r []

/-- Replace the contents of the map at a reference: the effect of any series of
assignments and deletions on that map. -/
def Maps.store (σ : Maps) (r : Nat) (m : Entries) : Maps := σ.set r m

/-- The assignment `md[k] = v` through a reference. -/
def Maps.assign (σ : Maps) (r : Nat) (k : String) (v : Value) : Maps :=
  σ.store r ((σ.entries (some r)).set k v)

/-- Source `Join`: a new map is allocated and every entry of every argument is
assigned to it, argument by argument. -/
def metadata.Join (σ : Maps) (mds : List MD) : Maps × MD :=
  let out := σ.length
  (mds.foldl
    (fun τ md => (τ.entries md).foldl (fun τ kv => τ.assign out kv.1 kv.2) τ)
    (σ ++ [[]]), some out)

/-- Source `MD.Copy`. -/
def metadata.Copy (σ : Maps) (md : MD) : Maps × MD := metadata.Join σ [md]

/-- Keys of values attached to a context: the unexported `mdKey{}` of the
package, or a key of some other package. -/
inductive CtxKey where
  | mdKey
  | foreign (id : Nat)
deriving DecidableEq, Repr

/-- Values attached to a context: a map of type `MD`, or a value of another type. -/
inductive CtxValue where
  | md (m : MD)
  | foreign (id : Nat)
deriving DecidableEq, Repr

/-- Standard-library contexts, by the way they are built. A cancel function or
timer is identified by a number. -/
inductive context.Context where
  | Background
  | WithValue (parent : context.Context) (key : CtxKey) (val : CtxValue)
  | WithCancel (parent : context.Context) (canceller : Nat)
  | WithDeadline (parent : context.Context) (deadline : Int) (canceller : Nat)
deriving DecidableEq, Repr

/-- Standard-library `Context.Value`: the value attached nearest to the context. -/
def context.Context.Value : context.Context → CtxKey → Option CtxValue
  | .Background, _ => none
  | .WithValue parent key val, k => if key = k then some val else parent.Value k
  | .WithCancel parent _, k => parent.Value k
  | .WithDeadline parent _ _, k => parent.Value k

/-- Standard-library `Context.Deadline`: the earliest deadline on the way to the root. -/
def context.Context.Deadline : context.Context → Option Int
  | .Background => none
  | .WithValue parent _ _ => parent.Deadline
  | .WithCancel parent _ => parent.Deadline
  | .WithDeadline parent deadline _ =>
    match parent.Deadline with
    | some cur => if cur < deadline then some cur else some deadline
    | none => some deadline

/-- Whether the `Done` channel of a context is closed, given the cancel
functions called so far and the current time. -/
def context.Context.Done : context.Context → List Nat → Int → Bool
  | .Background, _, _ => false
  | .WithValue parent _ _, cs, now => parent.Done cs now
  | .WithCancel parent canceller, cs, now => cs.contains canceller || parent.Done cs now
  | .WithDeadline parent deadline canceller, cs, now =>
    cs.contains canceller || decide (deadline ≤ now) || parent.Done cs now

/-- Source `NewContext`. -/
def metadata.NewContext (ctx : context.Context) (md : MD) : context.Context :=
  .WithValue ctx .mdKey (.md md)

/-- Source `FromContext`: the type assertion `ctx.Value(mdKey{}).(MD)`. -/
def metadata.FromContext (ctx : context.Context) : MD × Bool :=
  match ctx.Value .mdKey with
  | some (.md m) => (m, true)
  | _ => (none, false)

/-- Source `WithContext`. -/
def metadata.WithContext (σ : Maps) (ctx : context.Context) : Maps × context.Context :=
  match metadata.FromContext ctx with
  | (md, true) =>
    let (σ1, nmd) := metadata.Copy σ md
    (σ1, metadata.NewContext .Background nmd)
  | (_, false) => (σ, .Background)

/-- Standard-library `strconv.ParseBool`. -/
def strconv.ParseBool (str : String) : Bool × Option NumError :=
  if str = "1" ∨ str = "t" ∨ str = "T" ∨ str = "true" ∨ str = "TRUE" ∨ str = "True" then
    (true, none)
  else if str = "0" ∨ str = "f" ∨ str = "F" ∨ str = "false" ∨ str = "FALSE" ∨ str = "False" then
    (false, none)
  else (false, some .ErrSyn)

/-- Source `Bool`. -/
def metadata.Bool (σ : Maps) (ctx : context.Context) (key : String) : Bool :=
  match metadata.FromContext ctx with
  | (_, false) => false
  | (md, true) =>
    match (σ.entries md).index key with
    | .bool b => b
    | .str s => (strconv.ParseBool s).1
    | _ => false

/-- Assign every entry of a map to another one, in iteration order: the inner
loop of `Join` on the entries of the result. -/
def Entries.overlay (acc m : Entries) : Entries := m.foldl (fun a kv => a.set kv.1 kv.2) acc

/-- The value a key has in the last map of a list that contains the key. -/
def lastBinding : List Entries → String → Option Value
  | [], _ => none
  | m :: rest, k =>
    match lastBinding rest k with
    | some v => some v
    | none => m.get? k

/-- A store with the maps `a: 1` and `a: 2, b: 3` and the map `caller: svcA`. -/
def exMaps : Maps :=
  [[("a", .int64 1)], [("a", .int64 2), ("b", .int64 3)], [("caller", .str "svcA")]]

/-- A context that carries the map `caller: svcA` and has a deadline. -/
def exDeadlineContext : context.Context :=
  .WithDeadline (metadata.NewContext .Background (some 2)) 5 0

/-- A store with one map holding a boolean, strings and a number. -/
def exFlagMaps : Maps :=
  [[("mirror", .bool true), ("color", .str "true"), ("off", .str "false"), ("bad", .str "yes"),
    ("n", .int64 1)]]

/-- A context carrying the map of `exFlagMaps`. -/
def exFlagContext : context.Context := metadata.NewContext .Background (some 0)

/-- A GET route whose chain is 32 wrapping middleware: each calls Next and then
asks IsAborted during its post-processing. No handler aborts. -/
def exLongWrapRoute : Route HandlerFunc :=
  { path := "/x", method := "GET", handlers := List.replicate 32 [.Next, .IsAborted] }

/-! ## Handler slices in memory (routergroup.go under Go slice semantics) -/

/-- A Go slice of handlers: the backing array it refers to, its length and its
capacity. Every slice of this program starts at the first cell of its array.
The nil slice is the empty slice of the empty array at position 0 of the store. -/
structure Slice where
  array : Nat
  len : Nat
  cap : Nat
deriving DecidableEq, Repr

/-- The backing arrays allocated so far; a reference is a position in this list. -/
abbrev Arrays (H : Type) := List (List H)

/-- The cells of the backing array of a slice. -/
def Arrays.cells (μ : Arrays H) (s : Slice) : List H := μ.getD s.array []

/-- The elements of a slice: the first `len` cells of its array. -/
def Arrays.view (μ : Arrays H) (s : Slice) : List H := (μ.cells s).take s.len

/-- Write a run of elements into the cells of an array, from a position on. -/
def overwrite (cells : List H) (pos : Nat) (xs : List H) : List H :=
  cells.take pos ++ xs ++ cells.drop (pos + xs.length)

/-- Built-in `make([]HandlerFunc, n)`: a new array of `n` nil cells. -/
def Arrays.make [Inhabited H] (μ : Arrays H) (n : Nat) : Arrays H × Slice :=
  (μ ++ [List.replicate n default], { array := μ.length, len := n, cap := n })

/-- Built-in `copy(dst[pos:], src)`: as many elements as fit are written into
the array of the destination. -/
def Arrays.copy (μ : Arrays H) (dst : Slice) (pos : Nat) (src : List H) : Arrays H :=
  μ.set dst.array (overwrite (μ.cells dst) pos (src.take (dst.len - pos)))

/-- Built-in `append(s, xs...)`: in place when the capacity suffices, otherwise
into a new array. The capacity of the new array is chosen by the runtime
(`grow`, given the old capacity and the needed length) and is at least the
needed length. -/
def Arrays.append [Inhabited H] (grow : Nat → Nat → Nat) (μ : Arrays H) (s : Slice)
    (xs : List H) : Arrays H × Slice :=
  if s.len + xs.length ≤ s.cap then
    (μ.set s.array (overwrite (μ.cells s) s.len xs), { s with len := s.len + xs.length })
  else
    (μ ++ [μ.view s ++ xs ++
        List.replicate (max (s.len + xs.length) (grow s.cap (s.len + xs.length)) -
          (s.len + xs.length)) default],
      { array := μ.length, len := s.len + xs.length,
        cap := max (s.len + xs.length) (grow s.cap (s.len + xs.length)) })

/-- Source `RouterGroup`, with its handler list as a slice. -/
structure RouterGroupM where
  Handlers : Slice
  basePath : String
  root : Bool
  baseConfig : Option MethodConfig
deriving DecidableEq, Repr

/-- The group as a value: its handler list read from memory. -/
def RouterGroupM.abs (g : RouterGroupM) (μ : Arrays H) : RouterGroup H :=
  { Handlers := μ.view g.Handlers, basePath := g.basePath, root := g.root,
    baseConfig := g.baseConfig }

/-- Source `RouterGroup.UseFunc` on slices. -/
def RouterGroupM.UseFunc [Inhabited H] (grow : Nat → Nat → Nat) (g : RouterGroupM)
    (μ : Arrays H) (middleware : List H) : Arrays H × RouterGroupM :=
  ((μ.append grow g.Handlers middleware).1,
    { g with Handlers := (μ.append grow g.Handlers middleware).2 })

/-- Source `RouterGroup.Use` on slices: one `append` per middleware. -/
def RouterGroupM.Use [Inhabited H] (grow : Nat → Nat → Nat) (g : RouterGroupM)
    (μ : Arrays H) : List H → Arrays H × RouterGroupM
  | [] => (μ, g)
  | m :: rest =>
    RouterGroupM.Use grow { g with Handlers := (μ.append grow g.Handlers [m]).2 }
      (μ.append grow g.Handlers [m]).1 rest

/-- The copying loop of source `combineHandlers`. -/
def copyGroups (merged : Slice) : List (List H) → Arrays H → Nat → Arrays H
  | [], μ, _ => μ
  | handlers :: rest, μ, position =>
    copyGroups merged rest (μ.copy merged position handlers) (position + handlers.length)

/-- Source `RouterGroup.combineHandlers` on slices. -/
def RouterGroupM.combineHandlers [Inhabited H] (g : RouterGroupM) (μ : Arrays H)
    (handlerGroups : List (List H)) : Except String (Arrays H × Slice) :=
  let finalSize := g.Handlers.len + (handlerGroups.map List.length).sum
  if (finalSize : Int) ≥ _abortIndex then .error "too many handlers"
  else
    .ok (copyGroups (μ.make finalSize).2 handlerGroups
        ((μ.make finalSize).1.copy (μ.make finalSize).2 0 ((μ.make finalSize).1.view g.Handlers))
        g.Handlers.len,
      (μ.make finalSize).2)

/-- Source `RouterGroup.Group` on slices. -/
def RouterGroupM.Group [Inhabited H] (g : RouterGroupM) (μ : Arrays H) (relativePath : String)
    (handlers : List H) : Except String (Arrays H × RouterGroupM) :=
  match g.combineHandlers μ [handlers] with
  | .error msg => .error msg
  | .ok (μ1, merged) =>
    match joinPaths g.basePath relativePath with
    | .error msg => .error msg
    | .ok p => .ok (μ1, { Handlers := merged, basePath := p, root := false, baseConfig := none })

/-- The part of the program state that holds handler lists: the arrays, the
groups created so far (the root group first) and the chains of the routes
registered so far. -/
structure World (H : Type) where
  arrays : Arrays H
  groups : List RouterGroupM
  chains : List Slice

/-- The state after source `New`: the root group with a nil handler list. -/
def World.New : World H :=
  { arrays := [[]]
    groups := [{ Handlers := { array := 0, len := 0, cap := 0 }, basePath := "/", root := true,
                 baseConfig := none }]
    chains := [] }

/-- A call that touches handler lists, on the group with a given number. -/
inductive Op (H : Type) where
  | UseFunc (i : Nat) (middleware : List H)
  | Use (i : Nat) (middleware : List H)
  | Group (i : Nat) (relativePath : String) (handlers : List H)
  | handle (i : Nat) (injected handlers : List H)

/-- `UseFunc` on the group with number `i`. -/
def World.UseFunc [Inhabited H] (grow : Nat → Nat → Nat) (w : World H) (i : Nat)
    (middleware : List H) : World H :=
  match w.groups[i]? with
  | none => w
  | some g =>
    { w with arrays := (g.UseFunc grow w.arrays middleware).1
             groups := w.groups.set i (g.UseFunc grow w.arrays middleware).2 }

/-- `Use` on the group with number `i`. -/
def World.Use [Inhabited H] (grow : Nat → Nat → Nat) (w : World H) (i : Nat)
    (middleware : List H) : World H :=
  match w.groups[i]? with
  | none => w
  | some g =>
    { w with arrays := (g.Use grow w.arrays middleware).1
             groups := w.groups.set i (g.Use grow w.arrays middleware).2 }

/-- `Group` on the group with number `i`: the child becomes the last group. -/
def World.Group [Inhabited H] (w : World H) (i : Nat) (relativePath : String)
    (handlers : List H) : Except String (World H) :=
  match w.groups[i]? with
  | none => .error "no such group"
  | some g =>
    match g.Group w.arrays relativePath handlers with
    | .error msg => .error msg
    | .ok (μ, child) => .ok { w with arrays := μ, groups := w.groups ++ [child] }

/-- The chain built by source `handle` on the group with number `i`, given the
injected handlers; it becomes the chain of the last route. The guards of
`addRoute` read no handler list and are left out here, so the states covered
include every state the program reaches. -/
def World.handle [Inhabited H] (w : World H) (i : Nat) (injected handlers : List H) :
    Except String (World H) :=
  match w.groups[i]? with
  | none => .error "no such group"
  | some g =>
    match g.combineHandlers w.arrays [injected, handlers] with
    | .error msg => .error msg
    | .ok (μ, chain) => .ok { w with arrays := μ, chains := w.chains ++ [chain] }

/-- One call; a call that panics leaves the state as it was. -/
def World.step [Inhabited H] (grow : Nat → Nat → Nat) (w : World H) : Op H → World H
  | .UseFunc i ms => w.UseFunc grow i ms
  | .Use i ms => w.Use grow i ms
  | .Group i p ms =>
    match w.Group i p ms with
    | .error _ => w
    | .ok w' => w'
  | .handle i injected hs =>
    match w.handle i injected hs with
    | .error _ => w
    | .ok w' => w'

/-- The state reached from `New` by a sequence of calls. -/
def World.run [Inhabited H] (grow : Nat → Nat → Nat) (ops : List (Op H)) : World H :=
  ops.foldl (World.step grow) World.New

/-- The handler list of the group with number `i`, read from memory. -/
def World.handlersOf (w : World H) (i : Nat) : Option (List H) :=
  (w.groups[i]?).map (fun g => w.arrays.view g.Handlers)

/-- The chains of the registered routes, read from memory. -/
def World.routeChains (w : World H) : List (List H) := w.chains.map w.arrays.view

/-- A growth policy: double the capacity when that suffices. -/
def exGrow (cap need : Nat) : Nat := if need ≤ 2 * cap then 2 * cap else need

/-- Calls on the root group and on a child created in between. -/
def exOps : List (Op Nat) :=
  [.UseFunc 0 [1, 2, 3], .UseFunc 0 [4], .handle 0 [10] [5]]

/-- Later calls: on the root group, and on the child with number 1. -/
def exMore : List (Op Nat) := [.UseFunc 0 [7], .Use 1 [9, 11], .handle 1 [] [12]]

/-- The root group after `exOps`: four handlers in an array of six cells. -/
def exRootGroup : RouterGroupM :=
  { Handlers := { array := 2, len := 4, cap := 6 }, basePath := "/", root := true,
    baseConfig := none }

/-- A slice lies in memory: its length is within its capacity, and its array
is allocated and has as many cells as the capacity says. -/
def Slice.Owned (μ : Arrays H) (s : Slice) : Prop :=
  s.len ≤ s.cap ∧ ∃ cells, μ[s.array]? = some cells ∧ cells.length = s.cap

/-- The effect of appending to a slice: the new slice lies in memory, in the
old array or in one allocated since, and slices in other arrays are as before. -/
def Grows (μ : Arrays H) (s : Slice) (μ' : Arrays H) (s' : Slice) : Prop :=
  s'.Owned μ' ∧ μ.length ≤ μ'.length ∧ (s'.array = s.array ∨ μ.length ≤ s'.array) ∧
  ∀ t : Slice, t.array ≠ s.array → t.Owned μ → t.Owned μ' ∧ μ'.view t = μ.view t

/-- Handler lists and chains lie in memory, no two groups share an array, and
no chain shares an array with a group. -/
def World.Inv (w : World H) : Prop :=
  (∀ g ∈ w.groups, g.Handlers.Owned w.arrays) ∧
  (∀ c ∈ w.chains, c.Owned w.arrays) ∧
  (∀ (i j : Nat) (g g' : RouterGroupM), w.groups[i]? = some g → w.groups[j]? = some g' →
    i ≠ j → g'.Handlers.array ≠ g.Handlers.array) ∧
  (∀ (i : Nat) (g : RouterGroupM), w.groups[i]? = some g →
    ∀ c ∈ w.chains, c.array ≠ g.Handlers.array)

/-! ## Response rendering (context.go, package render) -/

/-- Source `bodyAllowForStatus`. A `case` of a Go `switch` does not fall
through: the two empty cases leave the switch, and the function returns true. -/
def bodyAllowForStatus (status : Int) : Bool :=
  if status ≥ 100 ∧ status ≤ 199 then true
  else if status = 204 then true
  else if status = 304 then false
  else true

/-- Source interface `render.Render`, over a response writer of type `W`:
`Render` writes the body and may return an error, `WriteContentType` sets the
content type. -/
structure render.Render (W : Type) where
  Render : W → W × Option String
  WriteContentType : W → W

/-- The fields of source `Context` that rendering uses: the response writer
and the `Error` field. -/
structure Rendering (W : Type) where
  Writer : W
  Error : Option String

/-- Source `Context.Render`, given the method `WriteHeader` of the writer
(`Context.Status` is a call of it). The writer and the renderer are interface
values; their calls are taken to return. -/
def Context.Render {W : Type} (WriteHeader : W → Int → W) (c : Rendering W) (code : Int)
    (r : render.Render W) : Rendering W :=
  let w1 := r.WriteContentType c.Writer
  let w2 := if code > 0 then WriteHeader w1 code else w1
  if ¬ bodyAllowForStatus code then { c with Writer := w2 }
  else
    match r.Render w2 with
    | (w3, some err) => { Writer := w3, Error := some err }
    | (w3, none) => { c with Writer := w3 }

/-- A response writer that records what it is given: the content type, the
status code of the first `WriteHeader` call, and the body chunks. -/
structure Recorder where
  contentType : List String
  status : Option Int
  body : List String
deriving DecidableEq, Repr

/-- `WriteHeader` of the recorder: the first call counts. -/
def Recorder.WriteHeader (w : Recorder) (code : Int) : Recorder :=
  match w.status with
  | none => { w with status := some code }
  | some _ => w

/-- Source `render.writeContentType`: set the content type unless one is set. -/
def render.writeContentType (w : Recorder) (value : List String) : Recorder :=
  if w.contentType.length = 0 then { w with contentType := value } else w

/-- Source `plainContentType`. -/
def render.plainContentType : List String := ["text/plain; charset=utf-8"]

/-- Source `render.String` without data: the format is written as it is. -/
def render.String (format : String) : render.Render Recorder where
  Render := fun w =>
    ({ render.writeContentType w render.plainContentType with
        body := (render.writeContentType w render.plainContentType).body ++ [format] }, none)
  WriteContentType := fun w => render.writeContentType w render.plainContentType

/-- A renderer whose body step fails after writing. -/
def exFailingRender : render.Render Recorder where
  Render := fun w => ({ w with body := w.body ++ ["partial"] }, some "write failed")
  WriteContentType := fun w => render.writeContentType w render.plainContentType

/-- A blank recorder with no error recorded. -/
def exRendering : Rendering Recorder :=
  { Writer := { contentType := [], status := none, body := [] }, Error := none }

/-- Request with the dedicated remote-IP header set to `null` and no
forwarded-for header. -/
def exNullRemoteRequest : Request :=
  { Method := "GET", Path := "/x", Header := [(_httpHeaderRemoteIP, "null")],
    RemoteAddr := "9.9.9.9:1234" }

/-- The same with a forwarded-for header that holds one address. -/
def exNullRemoteForwarded : Request :=
  { Method := "GET", Path := "/x",
    Header := [(_httpHeaderRemoteIP, "null"), ("X-Forwarder-For", "1.2.3.4"),
      ("X-Real-IP", "5.6.7.8")],
    RemoteAddr := "9.9.9.9:1234" }

/-- What a run does with the cursor: an increment `c.index++`, with the value
the cursor has before it, or an index expression `c.handlers[c.index]`, with
the cursor and the length of the chain at that moment. -/
inductive Probe where
  | increment (before : Int)
  | lookup (index : Int) (length : Nat)
deriving DecidableEq, Repr

/-- The increments and index expressions of an evaluation of `exec`, in the
order in which they are executed: one increment per call of `Next`, one index
expression per handler invocation, one increment per handler that returns to
the loop without a panic. -/
def probes : Nat → Task → Context → List Probe
  | 0, _, _ => []
  | fuel + 1, .Next, c =>
    .increment c.index :: probes fuel (.loop (wrapInt8 c.handlers.length)) c.step
  | fuel + 1, .loop s, c =>
    if c.index < s then
      if c.methodMismatch s then []
      else
        .lookup c.index c.handlers.length ::
          match c.handlerAt with
          | none => []
          | some h =>
            probes fuel (.call h) (c.record (.enter c.index.toNat)) ++
              match exec fuel (.call h) (c.record (.enter c.index.toNat)) with
              | none => []
              | some c1 =>
                if c1.panicked then []
                else
                  .increment c1.index ::
                    probes fuel (.loop s) (c1.record (.leave c.index.toNat)).step
    else []
  | _ + 1, .call [], _ => []
  | fuel + 1, .call (.Next :: rest), c =>
    probes fuel .Next c ++
      match exec fuel .Next c with
      | none => []
      | some c1 => if c1.panicked then [] else probes fuel (.call rest) c1
  | fuel + 1, .call (.Abort :: rest), c => probes fuel (.call rest) c.Abort
  | fuel + 1, .call (.AbortWithStatus code :: rest), c =>
    probes fuel (.call rest) (c.AbortWithStatus code)
  | fuel + 1, .call (.IsAborted :: rest), c =>
    probes fuel (.call rest) (c.record (.isAborted c.IsAborted))

/-- An increment that does not leave the 8-bit range from a cursor of at least
-1, or an index expression within a chain of the given length. -/
def Probe.Within (n : Nat) : Probe → Prop
  | .increment before => -1 ≤ before ∧ before + 1 ≤ 127
  | .lookup index length => length = n ∧ 0 ≤ index ∧ index < (length : Int)

/-! ## Registration programs (routergroup.go, server.go) -/

/-- Source `RouterGroup.Use`: one `append` per middleware. -/
def RouterGroup.Use (group : RouterGroup H) : List H → RouterGroup H
  | [] => group
  | m :: rest => RouterGroup.Use { group with Handlers := group.Handlers ++ [m] } rest

/-- Source `RouterGroup.SetMethodConfig`. -/
def RouterGroup.SetMethodConfig (group : RouterGroup H) (config : Option MethodConfig) :
    RouterGroup H :=
  { group with baseConfig := config }

/-- The state of a program that sets up an engine: the engine, whose embedded
group is the root group and has number 0, and the groups created by `Group`,
numbered from 1 in order of creation. -/
structure Setup (H : Type) where
  engine : Engine H
  groups : List (RouterGroup H)

/-- The state after source `New`. -/
def Setup.New : Setup H := { engine := (Pudding.New : Engine H), groups := [] }

/-- The group with a given number. -/
def Setup.group (s : Setup H) : Nat → Option (RouterGroup H)
  | 0 => some s.engine.group
  | i + 1 => s.groups[i]?

/-- Store a new value of the group with a given number. -/
def Setup.setGroup (s : Setup H) : Nat → RouterGroup H → Setup H
  | 0, g => { s with engine := { s.engine with group := g } }
  | i + 1, g => { s with groups := s.groups.set i g }

/-- A call of the registration interface, on the group with number `i`. -/
inductive Call (H : Type) where
  | UseFunc (i : Nat) (middleware : List H)
  | Use (i : Nat) (middleware : List H)
  | Group (i : Nat) (relativePath : String) (handlers : List H)
  | SetMethodConfig (i : Nat) (config : Option MethodConfig)
  | Inject (pattern : String → Bool) (handlers : List H)
  | Handler (i : Nat) (httpMethod relativePath : String) (handlers : List H)

/-- One call. A call that panics leaves the state it had reached, as a
program that recovers from the panic would see it. -/
def Setup.step (s : Setup H) : Call H → Setup H
  | .UseFunc i ms =>
    match s.group i with
    | none => s
    | some g => s.setGroup i (g.UseFunc ms)
  | .Use i ms =>
    match s.group i with
    | none => s
    | some g => s.setGroup i (g.Use ms)
  | .Group i p ms =>
    match s.group i with
    | none => s
    | some g =>
      match g.Group p ms with
      | .error _ => s
      | .ok child => { s with groups := s.groups ++ [child] }
  | .SetMethodConfig i config =>
    match s.group i with
    | none => s
    | some g => s.setGroup i (g.SetMethodConfig config)
  | .Inject pattern hs => { s with engine := s.engine.Inject pattern hs }
  | .Handler i m rel hs =>
    match s.group i with
    | none => s
    | some g => { s with engine := (g.Handler s.engine m rel hs).state }

/-- The state reached from `New` by a sequence of calls. -/
def Setup.run (calls : List (Call H)) : Setup H := calls.foldl Setup.step Setup.New

/-- A chain has at least one handler and fewer than the abort index. -/
def ChainOk (r : Route H) : Prop :=
  1 ≤ r.handlers.length ∧ (r.handlers.length : Int) < _abortIndex

/-- A setup with middleware on the root, a nested group with its own
middleware, an injection and two routes, one of them refused. -/
def exProgram : List (Call Nat) :=
  [.UseFunc 0 [1], .Group 0 "/v1" [2], .Inject (fun _ => true) [10],
   .Handler 1 "GET" "/a" [3], .Handler 0 "POST" "/b" (List.replicate 63 4), .Use 1 [5],
   .Handler 1 "GET" "/c" [6]]

/-! ## The client side of the timeout header and the request context (metadata.go, server.go) -/

/-- Go's `Header.Set`: the value replaces whatever the name had. -/
def Header.Set (h : Header) (key value : String) : Header :=
  (key, value) :: h.filter (fun kv => decide (kv.1 ≠ key))

/-- The decimal digits of a number, most significant first, in front of the
digits already produced. The first argument bounds the number of digits. -/
def decimalDigits : Nat → Nat → List Char → List Char
  | 0, _, acc => acc
  | fuel + 1, n, acc =>
    if n / 10 = 0 then Char.ofNat (48 + n % 10) :: acc
    else decimalDigits fuel (n / 10) (Char.ofNat (48 + n % 10) :: acc)

/-- Go's `strconv.FormatInt(i, 10)` for a signed 64-bit value, which has at
most 19 digits. -/
def strconv.FormatInt (i : Int) : String :=
  if i < 0 then String.mk ('-' :: decimalDigits 20 i.natAbs [])
  else String.mk (decimalDigits 20 i.natAbs [])

/-- Source `setTimeout`: the timeout, a duration in nanoseconds, is written to
the header in whole microseconds. -/
def setTimeout (req : Request) (timeout : Int) : Request :=
  { req with
    Header := Header.Set req.Header _httpHeaderTimeout (strconv.FormatInt (Int.tdiv timeout 1000)) }

/-- Source constant `_httpHeaderUser`. -/
def _httpHeaderUser : String := "x-pudding-user"

/-- Source constant `_httpHeaderRemoteIPPort`. -/
def _httpHeaderRemoteIPPort : String := "x-pudding-real-port"

/-- Source `mirror`: the mirror flag of the request; absent or unparsable is false. -/
def mirror (req : Request) : Bool :=
  if Header.Get req.Header "x-pudding-mirror" = "" then false
  else
    match strconv.ParseBool (Header.Get req.Header "x-pudding-mirror") with
    | (_, some _) => false
    | (val, none) => val

/-- Source `caller`. -/
def caller (req : Request) : String := Header.Get req.Header _httpHeaderUser

/-- Source `remotePort`: both paths return the header value. -/
def remotePort (req : Request) : String := Header.Get req.Header _httpHeaderRemoteIPPort

/-- The statements of source `Engine.handleContext` from the timeout
negotiation up to the call of `c.Next`: the negotiated timeout, the metadata
map (allocated in the store) attached to a background context, and the
derived context, with a deadline when the timeout is positive and only
cancellable otherwise. `now` is the clock reading of `context.WithTimeout`,
`canceller` names the cancel function. A panic in `remoteIP` ends the request
before any context exists. -/
def Engine.requestContext (engine : Engine H) (σ : Maps) (req : Request) (now : Int)
    (canceller : Nat) : Except String (Maps × context.Context) :=
  match remoteIP req with
  | .error msg => .error msg
  | .ok ip =>
    if engine.requestTimeout req > 0 then
      .ok (σ ++ [[("remote_ip", .str ip), ("remote_port", .str (remotePort req)),
                  ("caller", .str (caller req)), ("mirror", .bool (mirror req))]],
        .WithDeadline (metadata.NewContext .Background (some σ.length))
          (now + engine.requestTimeout req) canceller)
    else
      .ok (σ ++ [[("remote_ip", .str ip), ("remote_port", .str (remotePort req)),
                  ("caller", .str (caller req)), ("mirror", .bool (mirror req))]],
        .WithCancel (metadata.NewContext .Background (some σ.length)) canceller)

/-- Engine whose default timeout is zero, with no method config. -/
def exNoTimeoutEngine : Engine Nat :=
  { (New : Engine Nat) with
    conf := { NewWork := "tcp", Address := "", TimeOut := 0, ReadTimeOut := 0, WriteTimeOut := 0 } }

section Registration

theorem abortIndex_eq : _abortIndex = 63 := by decide

theorem injectionsLoop_eq (absPath : String) (injs : List (injection H)) :
    injectionsLoop absPath injs = firstMatchingInjection injs absPath := by
  induction injs with
  | nil => rfl
  | cons inj rest ih =>
    unfold firstMatchingInjection at ih ⊢
    by_cases h : inj.pattern absPath = true
    · simp [injectionsLoop, List.find?, h]
    · simp only [Bool.not_eq_true] at h
      simp [injectionsLoop, List.find?, h, ih]

theorem combineHandlers_pair (group : RouterGroup H) (a b : List H) :
    group.combineHandlers [a, b] =
      if _abortIndex ≤ ((group.Handlers ++ a ++ b).length : Int) then .error "too many handlers"
      else .ok (group.Handlers ++ a ++ b) := by
  simp only [RouterGroup.combineHandlers, List.map, List.sum_cons, List.sum_nil, List.foldl,
    List.length_append, ge_iff_le]
  congr 2
  push_cast
  omega

theorem combineHandlers_single (group : RouterGroup H) (a : List H) :
    group.combineHandlers [a] =
      if _abortIndex ≤ ((group.Handlers ++ a).length : Int) then .error "too many handlers"
      else .ok (group.Handlers ++ a) := by
  simp only [RouterGroup.combineHandlers, List.map, List.sum_cons, List.sum_nil, List.foldl,
    List.length_append, ge_iff_le]
  congr 2

theorem Group_Handlers (group child : RouterGroup H) (p : String) (ms : List H)
    (h : group.Group p ms = .ok child) : child.Handlers = group.Handlers ++ ms := by
  simp only [RouterGroup.Group, combineHandlers_single] at h
  by_cases hlen : _abortIndex ≤ ((group.Handlers ++ ms).length : Int)
  · simp only [hlen, if_true] at h
    cases h
  · simp only [hlen, if_false] at h
    cases hc : group.calculateAbsolutePath p with
    | error msg => simp [hc] at h
    | ok q =>
      simp only [hc, Except.ok.injEq] at h
      subst h
      rfl

theorem descend_Handlers (calls : List (GroupCall H)) :
    ∀ (root leaf : RouterGroup H), root.descend calls = .ok leaf →
      leaf.Handlers = root.Handlers ++ declared calls := by
  induction calls with
  | nil =>
    intro root leaf h
    simp only [RouterGroup.descend, Except.ok.injEq] at h
    simp [declared, h]
  | cons call rest ih =>
    intro root leaf h
    cases call with
    | UseFunc ms =>
      simp only [RouterGroup.descend] at h
      rw [ih _ _ h]
      simp [RouterGroup.UseFunc, declared, GroupCall.middleware]
    | Group p ms =>
      simp only [RouterGroup.descend] at h
      cases hg : root.Group p ms with
      | error msg => simp [hg] at h
      | ok child =>
        simp only [hg] at h
        rw [ih _ _ h, Group_Handlers _ _ _ _ hg]
        simp [declared, GroupCall.middleware]

/-- What `Handler` does once the absolute path is known. -/
theorem Handler_unfold (group : RouterGroup H) (engine : Engine H) (m rel p : String)
    (hs : List H) (hp : joinPaths group.basePath rel = .ok p) :
    group.Handler engine m rel hs =
      if ¬ matchMethodPattern m = true then
        .panic ("http method " ++ m ++ " is not valid") engine
      else if _abortIndex ≤
          ((group.Handlers ++ firstMatchingInjection engine.injections p ++ hs).length : Int) then
        .panic "too many handlers" engine
      else
        match engine.addRoute m p
            (group.Handlers ++ firstMatchingInjection engine.injections p ++ hs) with
        | .panic msg e => .panic msg e
        | .ok e =>
          match group.baseConfig with
          | some cfg => .ok (e.SetMethodConfig p (some cfg))
          | none => .ok e := by
  simp only [RouterGroup.Handler, RouterGroup.handle, RouterGroup.injections,
    RouterGroup.calculateAbsolutePath, hp, combineHandlers_pair, injectionsLoop_eq]
  by_cases hm : matchMethodPattern m = true
  · by_cases hlen : _abortIndex ≤
        ((group.Handlers ++ firstMatchingInjection engine.injections p ++ hs).length : Int)
    · simp only [hm, hlen, not_true_eq_false, if_true, if_false]
    · simp only [hm, hlen, not_true_eq_false, if_false]
  · rw [if_pos hm, if_pos hm]

theorem string_eq_empty_iff (m : String) : m = "" ↔ m.data = [] := by
  constructor
  · intro h
    subst h
    rfl
  · intro h
    cases m with
    | mk l =>
      simp only at h
      subst h
      rfl

theorem matchUpperToEnd_iff (l : List Char) :
    matchUpperToEnd l = true ↔ l ≠ [] ∧ ∀ c ∈ l, 'A' ≤ c ∧ c ≤ 'Z' := by
  induction l with
  | nil => simp [matchUpperToEnd]
  | cons c cs ih =>
    cases cs with
    | nil => simp [matchUpperToEnd, classAZ]
    | cons d ds =>
      simp only [matchUpperToEnd, classAZ, Bool.and_eq_true, Bool.or_eq_true, decide_eq_true_eq,
        List.isEmpty_cons, Bool.false_eq_true, false_or, ne_eq, reduceCtorEq, not_false_eq_true,
        List.mem_cons, true_and] at ih ⊢
      constructor
      · rintro ⟨hc, hrest⟩
        have := ih.mp hrest
        intro x hx
        rcases hx with rfl | hx
        · exact hc
        · exact this x hx
      · intro hall
        refine ⟨hall c (Or.inl rfl), ih.mpr ?_⟩
        intro x hx
        exact hall x (Or.inr hx)

theorem matchMethodPattern_iff (m : String) :
    matchMethodPattern m = true ↔ m ≠ "" ∧ ∀ c ∈ m.data, 'A' ≤ c ∧ c ≤ 'Z' := by
  rw [matchMethodPattern, matchUpperToEnd_iff, ne_eq, ne_eq, string_eq_empty_iff]

theorem initMeta_mux (engine : Engine H) (p : String) :
    (engine.initMeta p).mux = engine.mux := by
  unfold Engine.initMeta
  split <;> rfl

theorem HandleFunc_ok (m m' : List (Route H)) (r : Route H)
    (h : mux.HandleFunc m r = .ok m') : m' = m ++ [r] := by
  unfold mux.HandleFunc at h
  split at h
  · cases h
  · split at h
    · cases h
    · cases h
      rfl

theorem addRoute_ok_mux (engine engine' : Engine H) (m p : String) (chain : List H)
    (h : engine.addRoute m p chain = .ok engine') :
    engine'.mux = engine.mux ++ [{ path := p, method := m, handlers := chain }] := by
  unfold Engine.addRoute at h
  split at h
  · cases h
  · split at h
    · cases h
    · split at h
      · cases h
      · split at h
        · cases h
        · cases hh : mux.HandleFunc (engine.initMeta p).mux
              { path := p, method := m, handlers := chain } with
          | error msg =>
            rw [hh] at h
            cases h
          | ok m' =>
            rw [hh] at h
            cases h
            rw [HandleFunc_ok _ _ _ hh, initMeta_mux]

theorem addRoute_empty_chain (engine : Engine H) (m p : String) :
    ∃ msg, engine.addRoute m p [] = .panic msg engine := by
  unfold Engine.addRoute
  split
  · exact ⟨_, rfl⟩
  · split
    · exact ⟨_, rfl⟩
    · split
      · exact ⟨_, rfl⟩
      · exact ⟨_, rfl⟩

theorem addRoute_accepts (engine : Engine H) (m p : String) (chain : List H)
    (hslash : p.data.head? = some '/') (hm : m ≠ "") (hchain : chain ≠ [])
    (hfresh : ∀ r ∈ engine.mux, r.path ≠ p) :
    (engine.addRoute m p chain).isPanic = false := by
  have hp : p ≠ "" := by
    intro h
    subst h
    simp at hslash
  have hany : (engine.mux.any fun x => decide (x.path = p)) = false := by
    rw [List.any_eq_false]
    intro r hr
    simpa using hfresh r hr
  have hlen : ¬ chain.length = 0 := by
    simpa [List.length_eq_zero] using hchain
  have hh : mux.HandleFunc (engine.initMeta p).mux { path := p, method := m, handlers := chain }
      = .ok (engine.mux ++ [{ path := p, method := m, handlers := chain }]) := by
    simp only [mux.HandleFunc, initMeta_mux, hp, hany, if_false, Bool.false_eq_true]
  unfold Engine.addRoute
  cases hd : p.data with
  | nil => simp [hd] at hslash
  | cons c t =>
    simp only [hd, List.head?_cons, Option.some.injEq] at hslash
    subst hslash
    simp only [ne_eq, not_true_eq_false, if_false, hm, hlen, hh, Outcome.isPanic]

theorem Handler_path_error (group : RouterGroup H) (engine : Engine H) (m rel msg : String)
    (hs : List H) (hp : joinPaths group.basePath rel = .error msg) :
    ∃ msg', group.Handler engine m rel hs = .panic msg' engine := by
  simp only [RouterGroup.Handler, RouterGroup.handle, RouterGroup.calculateAbsolutePath, hp]
  split
  · exact ⟨_, rfl⟩
  · exact ⟨_, rfl⟩

theorem Handler_accepts (group : RouterGroup H) (engine : Engine H) (m rel p : String)
    (hs : List H) (hp : joinPaths group.basePath rel = .ok p)
    (hm : matchMethodPattern m = true)
    (hslash : p.data.head? = some '/')
    (hfresh : ∀ r ∈ engine.mux, r.path ≠ p)
    (hne : group.Handlers ++ firstMatchingInjection engine.injections p ++ hs ≠ [])
    (hlen : ((group.Handlers ++ firstMatchingInjection engine.injections p ++ hs).length : Int)
      < _abortIndex) :
    (group.Handler engine m rel hs).isPanic = false := by
  have hm' : m ≠ "" := ((matchMethodPattern_iff m).mp hm).1
  have hacc := addRoute_accepts engine m p _ hslash hm' hne hfresh
  rw [Handler_unfold group engine m rel p hs hp, if_neg (not_not.mpr hm), if_neg (not_le.mpr hlen)]
  cases hr : engine.addRoute m p
      (group.Handlers ++ firstMatchingInjection engine.injections p ++ hs) with
  | panic msg e =>
    rw [hr] at hacc
    simp [Outcome.isPanic] at hacc
  | ok e =>
    cases group.baseConfig <;> rfl

theorem addRoute_bad_path (engine : Engine H) (m p : String) (chain : List H)
    (hbad : p.data.head? ≠ some '/') :
    ∃ msg, engine.addRoute m p chain = .panic msg engine := by
  unfold Engine.addRoute
  split
  · exact ⟨_, rfl⟩
  · rename_i c t heq
    rw [heq] at hbad
    simp only [List.head?_cons, ne_eq, Option.some.injEq] at hbad
    rw [if_pos hbad]
    exact ⟨_, rfl⟩

theorem firstMatchingInjection_cases (injs : List (injection H)) (p : String) :
    (∃ (j : Nat) (inj : injection H), injs[j]? = some inj ∧ inj.pattern p = true ∧
        (∀ (i : Nat) (x : injection H), i < j → injs[i]? = some x → x.pattern p = false) ∧
        firstMatchingInjection injs p = inj.handlers) ∨
    ((∀ x ∈ injs, x.pattern p = false) ∧ firstMatchingInjection injs p = []) := by
  rw [← injectionsLoop_eq]
  induction injs with
  | nil => exact Or.inr ⟨by simp, rfl⟩
  | cons a rest ih =>
    by_cases ha : a.pattern p = true
    · refine Or.inl ⟨0, a, List.getElem?_cons_zero, ha, ?_, ?_⟩
      · intro i x hi
        omega
      · simp [injectionsLoop, ha]
    · simp only [Bool.not_eq_true] at ha
      have hloop : injectionsLoop p (a :: rest) = injectionsLoop p rest := by
        simp [injectionsLoop, ha]
      rw [hloop]
      rcases ih with ⟨j, inj, hj, hm, hbefore, hval⟩ | ⟨hnone, hval⟩
      · refine Or.inl ⟨j + 1, inj, by rw [List.getElem?_cons_succ]; exact hj, hm, ?_, hval⟩
        intro i x hi hx
        cases i with
        | zero =>
          simp only [List.getElem?_cons_zero, Option.some.injEq] at hx
          subst hx
          exact ha
        | succ i =>
          simp only [List.getElem?_cons_succ] at hx
          exact hbefore i x (by omega) hx
      · refine Or.inr ⟨?_, hval⟩
        intro x hx
        rcases List.mem_cons.mp hx with rfl | hx
        · exact ha
        · exact hnone x hx

/-- A successful `Handler` call appends exactly one route: the joined path,
the method, and the group handlers, the first matching injection and the
route handlers as its chain. -/
theorem Handler_ok_mux (group : RouterGroup H) (engine engine' : Engine H) (m rel : String)
    (hs : List H) (hreg : group.Handler engine m rel hs = .ok engine') :
    ∃ p, joinPaths group.basePath rel = .ok p ∧
      engine'.mux = engine.mux ++
        [{ path := p, method := m,
           handlers := group.Handlers ++ firstMatchingInjection engine.injections p ++ hs }] := by
  cases hp : joinPaths group.basePath rel with
  | error msg =>
    obtain ⟨msg', h⟩ := Handler_path_error group engine m rel msg hs hp
    rw [h] at hreg
    cases hreg
  | ok p =>
    refine ⟨p, rfl, ?_⟩
    rw [Handler_unfold group engine m rel p hs hp] at hreg
    split at hreg
    · cases hreg
    · split at hreg
      · cases hreg
      · cases hr : engine.addRoute m p
            (group.Handlers ++ firstMatchingInjection engine.injections p ++ hs) with
        | panic msg e =>
          rw [hr] at hreg
          cases hreg
        | ok e =>
          rw [hr] at hreg
          have hmux := addRoute_ok_mux _ _ _ _ _ hr
          cases hb : group.baseConfig with
          | none =>
            rw [hb] at hreg
            cases hreg
            exact hmux
          | some cfg =>
            rw [hb] at hreg
            cases hreg
            exact hmux

end Registration

section Timeouts

theorem wrapInt64_of_range (x : Int) (h1 : minInt64 ≤ x) (h2 : x ≤ maxInt64) :
    wrapInt64 x = x := by
  unfold wrapInt64
  unfold minInt64 at h1
  unfold maxInt64 at h2
  omega

theorem isDigit_of (c : Char) (hc : '0' ≤ c ∧ c ≤ '9') : isDigit c = true := by
  unfold isDigit
  rw [decide_eq_true hc.1, decide_eq_true hc.2]
  rfl

theorem digitVal_le (c : Char) (hc : c ≤ '9') : digitVal c ≤ 9 := by
  have h9 : c.toNat ≤ 57 := Char.le_def.mp hc
  unfold digitVal
  omega

theorem digit_step (n d : Nat) (hd : d ≤ 9) (hn : ¬ n ≥ maxUint64 / 10 + 1)
    (hw : ¬ (wrapUint64 (wrapUint64 (n * 10) + d) < wrapUint64 (n * 10) ∨
      wrapUint64 (wrapUint64 (n * 10) + d) > maxUint64)) :
    wrapUint64 (wrapUint64 (n * 10) + d) = n * 10 + d := by
  simp only [maxUint64, wrapUint64] at hn hw ⊢
  omega

/-- A successful digit loop has read only digits and returns their value. -/
theorem ParseUintLoop_ok (cs : List Char) :
    ∀ (n v : Nat), n ≤ maxUint64 → ParseUintLoop cs n = (v, none) →
      cs.all isDigit = true ∧ v = digitsFrom n cs ∧ v ≤ maxUint64 := by
  induction cs with
  | nil =>
    intro n v hn h
    rw [ParseUintLoop] at h
    cases h
    exact ⟨rfl, rfl, hn⟩
  | cons c cs ih =>
    intro n v _ h
    rw [ParseUintLoop] at h
    by_cases hc : '0' ≤ c ∧ c ≤ '9'
    · rw [if_pos hc] at h
      by_cases hn : n ≥ maxUint64 / 10 + 1
      · rw [if_pos hn] at h
        cases h
      · rw [if_neg hn] at h
        by_cases hw : (wrapUint64 (wrapUint64 (n * 10) + digitVal c) < wrapUint64 (n * 10) ∨
            wrapUint64 (wrapUint64 (n * 10) + digitVal c) > maxUint64)
        · rw [if_pos hw] at h
          cases h
        · rw [if_neg hw] at h
          have hle : wrapUint64 (wrapUint64 (n * 10) + digitVal c) ≤ maxUint64 :=
            not_lt.mp (fun hgt => hw (Or.inr hgt))
          obtain ⟨hall, hv, hb⟩ := ih _ _ hle h
          rw [digit_step n _ (digitVal_le c hc.2) hn hw] at hv
          refine ⟨?_, hv, hb⟩
          rw [List.all_cons, isDigit_of c hc, hall]
          rfl
    · rw [if_neg hc] at h
      cases h

/-- The digit loop reports a range error only with the maximal value. -/
theorem ParseUintLoop_range (cs : List Char) :
    ∀ (n v : Nat), ParseUintLoop cs n = (v, some .ErrRange) → v = maxUint64 := by
  induction cs with
  | nil =>
    intro n v h
    rw [ParseUintLoop] at h
    cases h
  | cons c cs ih =>
    intro n v h
    rw [ParseUintLoop] at h
    by_cases hc : '0' ≤ c ∧ c ≤ '9'
    · rw [if_pos hc] at h
      by_cases hn : n ≥ maxUint64 / 10 + 1
      · rw [if_pos hn] at h
        cases h
        rfl
      · rw [if_neg hn] at h
        by_cases hw : (wrapUint64 (wrapUint64 (n * 10) + digitVal c) < wrapUint64 (n * 10) ∨
            wrapUint64 (wrapUint64 (n * 10) + digitVal c) > maxUint64)
        · rw [if_pos hw] at h
          cases h
          rfl
        · rw [if_neg hw] at h
          exact ih _ _ h
    · rw [if_neg hc] at h
      cases h

theorem ParseUint_ok (digits : List Char) (v : Nat)
    (h : strconv.ParseUint digits = (v, none)) :
    digits ≠ [] ∧ digits.all isDigit = true ∧ v = digitsFrom 0 digits ∧ v ≤ maxUint64 := by
  unfold strconv.ParseUint at h
  by_cases hne : digits = []
  · rw [if_pos hne] at h
    cases h
  · rw [if_neg hne] at h
    obtain ⟨hall, hv, hb⟩ := ParseUintLoop_ok digits 0 v (by decide) h
    exact ⟨hne, hall, hv, hb⟩

theorem ParseUint_range (digits : List Char) (v : Nat)
    (h : strconv.ParseUint digits = (v, some .ErrRange)) : v = maxUint64 := by
  unfold strconv.ParseUint at h
  by_cases hne : digits = []
  · rw [if_pos hne] at h
    cases h
  · rw [if_neg hne] at h
    exact ParseUintLoop_range digits 0 v h

/-- The sign step: success returns the signed value within the 64-bit range;
failure returns a bound of the range. -/
theorem ParseIntSigned_cases (neg : Bool) (un : Nat) :
    ((ParseIntSigned neg un).2 = none ∧
        (ParseIntSigned neg un).1 = (if neg then -(un : Int) else (un : Int)) ∧
        minInt64 ≤ (ParseIntSigned neg un).1 ∧ (ParseIntSigned neg un).1 ≤ maxInt64) ∨
    ((ParseIntSigned neg un).2 = some .ErrRange ∧
        ((ParseIntSigned neg un).1 = maxInt64 ∨ (ParseIntSigned neg un).1 = minInt64)) := by
  unfold ParseIntSigned
  cases neg with
  | false =>
    by_cases hbig : (un : Int) ≥ maxInt64 + 1
    · right
      rw [if_pos ⟨by simp, hbig⟩]
      exact ⟨rfl, Or.inl rfl⟩
    · left
      rw [if_neg (fun hc => hbig hc.2), if_neg (by simp)]
      have h0 : (0 : Int) ≤ un := Int.natCast_nonneg un
      have hw : wrapInt64 (un : Int) = un := by
        apply wrapInt64_of_range
        · unfold minInt64; omega
        · unfold maxInt64 at hbig ⊢; omega
      simp only [Bool.false_eq_true, if_false, hw]
      refine ⟨trivial, trivial, ?_, ?_⟩
      · unfold minInt64; omega
      · unfold maxInt64 at hbig ⊢; omega
  | true =>
    by_cases hbig : (un : Int) > maxInt64 + 1
    · right
      rw [if_neg (by simp), if_pos ⟨rfl, hbig⟩]
      exact ⟨rfl, Or.inr rfl⟩
    · left
      rw [if_neg (by simp), if_neg (fun hc => hbig hc.2)]
      have h0 : (0 : Int) ≤ un := Int.natCast_nonneg un
      have hw : wrapInt64 (-(wrapInt64 (un : Int))) = -(un : Int) := by
        unfold wrapInt64
        unfold maxInt64 at hbig
        omega
      simp only [if_true, hw]
      refine ⟨trivial, trivial, ?_, ?_⟩
      · unfold minInt64; unfold maxInt64 at hbig; omega
      · unfold maxInt64; omega

/-- Whatever the text, `ParseInt` either succeeds on a decimal numeral with
its value, which lies in the signed 64-bit range, or fails with value 0
(malformed text) or with a bound of the range (out of range). -/
theorem ParseInt_cases (s : String) :
    ((strconv.ParseInt s).2 = none ∧ isDecimalInteger s = true ∧
        (strconv.ParseInt s).1 = decimalValue s ∧
        minInt64 ≤ decimalValue s ∧ decimalValue s ≤ maxInt64) ∨
    ((strconv.ParseInt s).2 = some .ErrSyn ∧ (strconv.ParseInt s).1 = 0) ∨
    ((strconv.ParseInt s).2 = some .ErrRange ∧
        ((strconv.ParseInt s).1 = maxInt64 ∨ (strconv.ParseInt s).1 = minInt64)) := by
  unfold strconv.ParseInt isDecimalInteger decimalValue
  cases hs : s.data with
  | nil =>
    right; left
    exact ⟨rfl, rfl⟩
  | cons c rest =>
    simp only
    cases hu : strconv.ParseUint (if c = '+' ∨ c = '-' then rest else c :: rest) with
    | mk un err =>
      cases err with
      | some e =>
        cases e with
        | ErrSyn =>
          right; left
          exact ⟨rfl, rfl⟩
        | ErrRange =>
          right; right
          have hmax := ParseUint_range _ _ hu
          subst hmax
          simp only
          rcases ParseIntSigned_cases (decide (c = '-')) maxUint64 with h | h
          · exfalso
            obtain ⟨_, hv, h1, h2⟩ := h
            rw [hv] at h1 h2
            have hcast : ((maxUint64 : Nat) : Int) = 18446744073709551615 := rfl
            rw [hcast] at h1 h2
            unfold minInt64 at h1
            unfold maxInt64 at h2
            cases hd : decide (c = '-') with
            | false =>
              rw [hd] at h2
              simp only [Bool.false_eq_true, if_false] at h2
              omega
            | true =>
              rw [hd] at h1
              simp only [if_true] at h1
              omega
          · exact h
      | none =>
        obtain ⟨hne, hall, hv, _⟩ := ParseUint_ok _ _ hu
        simp only
        rcases ParseIntSigned_cases (decide (c = '-')) un with h | h
        · left
          obtain ⟨he, hval, h1, h2⟩ := h
          rw [hval] at h1 h2
          by_cases hneg : c = '-'
          · subst hneg
            simp only [or_true, if_true, decide_True] at hne hall hv hval h1 h2 he ⊢
            rw [hval, ← hv]
            refine ⟨he, ?_, rfl, h1, h2⟩
            rw [hall]
            cases rest with
            | nil => exact absurd rfl hne
            | cons _ _ => rfl
          · by_cases hplus : c = '+'
            · subst hplus
              simp only [true_or, if_true, hneg, decide_False, Bool.false_eq_true, if_false]
                at hne hall hv hval h1 h2 he ⊢
              rw [hval, ← hv]
              refine ⟨he, ?_, rfl, h1, h2⟩
              rw [hall]
              cases rest with
              | nil => exact absurd rfl hne
              | cons _ _ => rfl
            · simp only [hplus, hneg, or_self, if_false, decide_False, Bool.false_eq_true]
                at hne hall hv hval h1 h2 he ⊢
              rw [hval, ← hv]
              exact ⟨he, hall, rfl, h1, h2⟩
        · right; right
          exact h

theorem timeout_nonpos_of_error (req : Request)
    (h : (strconv.ParseInt (Header.Get req.Header _httpHeaderTimeout)).2 ≠ none) :
    timeout req ≤ 0 := by
  unfold timeout
  rcases ParseInt_cases (Header.Get req.Header _httpHeaderTimeout) with h1 | h1 | h1
  · exact absurd h1.1 h
  · simp only [h1.1, h1.2, reduceCtorEq, false_and, if_false]
    decide
  · rcases h1 with ⟨he, hv | hv⟩
    · simp only [he, hv, reduceCtorEq, false_and, if_false]
      decide
    · simp only [he, hv, reduceCtorEq, false_and, if_false]
      decide

/-- The scenario of the specification: default 100ms, method config 50ms,
client header 40000 microseconds; the negotiated timeout is 39.98ms. -/
theorem requestTimeout_example :
    exTimeoutEngine.requestTimeout (exTimeoutRequest "40000") = 39980000 := by
  decide

theorem requestTimeout_ignored (engine : Engine H) (req : Request) (h : timeout req ≤ 0) :
    engine.requestTimeout req = engine.baseTimeout req := by
  unfold Engine.requestTimeout
  rw [if_neg]
  intro hc
  omega

/-- In the range where the nanosecond product fits 64 bits, the negotiated
timeout is the smaller of the base timeout and the client value less 20. -/
theorem requestTimeout_of_decoded (engine : Engine H) (req : Request) (v : Int)
    (hv : strconv.ParseInt (Header.Get req.Header _httpHeaderTimeout) = (v, none))
    (h20 : 20 < v) (hfit : (v - 20) * 1000 ≤ maxInt64) :
    engine.requestTimeout req = min (engine.baseTimeout req) ((v - 20) * 1000) := by
  have ht : timeout req = (v - 20) * 1000 := by
    unfold timeout
    simp only [hv, true_and, gt_iff_lt, h20, if_true]
    rw [wrapInt64_of_range (v - 20) (by unfold minInt64; omega)
      (by unfold maxInt64 at hfit ⊢; omega)]
    exact wrapInt64_of_range _ (by unfold minInt64; omega) hfit
  unfold Engine.requestTimeout
  rw [ht]
  by_cases hlt : engine.baseTimeout req > (v - 20) * 1000
  · rw [if_pos ⟨by omega, hlt⟩]
    exact (min_eq_right (le_of_lt hlt)).symm
  · rw [if_neg (fun hc => hlt hc.2)]
    exact (min_eq_left (not_lt.mp hlt)).symm

theorem requestTimeout_cases (engine : Engine H) (req : Request) :
    (engine.requestTimeout req = engine.baseTimeout req) ∨
    (0 < timeout req ∧ timeout req < engine.baseTimeout req ∧
      engine.requestTimeout req = timeout req) := by
  unfold Engine.requestTimeout
  by_cases h : timeout req > 0 ∧ engine.baseTimeout req > timeout req
  · rw [if_pos h]
    exact Or.inr ⟨h.1, h.2, rfl⟩
  · rw [if_neg h]
    exact Or.inl rfl

theorem digitsFrom_ge (cs : List Char) : ∀ n, n ≤ digitsFrom n cs := by
  induction cs with
  | nil =>
    intro n
    show n ≤ n
    exact le_refl n
  | cons c cs ih =>
    intro n
    have := ih (n * 10 + digitVal c)
    show n ≤ digitsFrom (n * 10 + digitVal c) cs
    omega

theorem digitsFrom_append (xs ys : List Char) :
    ∀ n, digitsFrom n (xs ++ ys) = digitsFrom (digitsFrom n xs) ys := by
  induction xs with
  | nil =>
    intro n
    rfl
  | cons c cs ih =>
    intro n
    show digitsFrom (n * 10 + digitVal c) (cs ++ ys) =
      digitsFrom (digitsFrom (n * 10 + digitVal c) cs) ys
    exact ih _

/-- On digits whose value fits 64 bits the digit loop returns that value. -/
theorem ParseUintLoop_complete (cs : List Char) :
    ∀ n, (∀ c ∈ cs, '0' ≤ c ∧ c ≤ '9') → digitsFrom n cs ≤ maxUint64 →
      ParseUintLoop cs n = (digitsFrom n cs, none) := by
  induction cs with
  | nil =>
    intro n _ _
    rfl
  | cons c cs ih =>
    intro n hd hfit
    have hc := hd c (List.mem_cons_self _ _)
    have hge := digitsFrom_ge cs (n * 10 + digitVal c)
    have hd9 := digitVal_le c hc.2
    have hfit' : digitsFrom (n * 10 + digitVal c) cs ≤ maxUint64 := hfit
    show ParseUintLoop (c :: cs) n = (digitsFrom (n * 10 + digitVal c) cs, none)
    have hstep : wrapUint64 (wrapUint64 (n * 10) + digitVal c) = n * 10 + digitVal c := by
      simp only [maxUint64, wrapUint64] at hfit' hge ⊢
      omega
    have h1 : ¬ n ≥ maxUint64 / 10 + 1 := by
      simp only [maxUint64] at hfit' hge ⊢
      omega
    have h2 : ¬ (wrapUint64 (wrapUint64 (n * 10) + digitVal c) < wrapUint64 (n * 10) ∨
        wrapUint64 (wrapUint64 (n * 10) + digitVal c) > maxUint64) := by
      rw [hstep]
      simp only [maxUint64, wrapUint64] at hfit' hge ⊢
      omega
    rw [ParseUintLoop, if_pos hc, if_neg h1, if_neg h2, hstep]
    exact ih _ (fun x hx => hd x (List.mem_cons_of_mem _ hx)) hfit'

theorem digitChar_spec (k : Nat) (hk : k < 10) :
    '0' ≤ Char.ofNat (48 + k) ∧ Char.ofNat (48 + k) ≤ '9' ∧ digitVal (Char.ofNat (48 + k)) = k := by
  interval_cases k <;> decide

/-- The digits produced for a number that has no more digits than the bound:
decimal digit characters, at least one, whose value is the number. -/
theorem decimalDigits_spec (fuel : Nat) :
    ∀ (n : Nat) (acc : List Char), n < 10 ^ fuel → 0 < fuel →
      ∃ ds, decimalDigits fuel n acc = ds ++ acc ∧ ds ≠ [] ∧
        (∀ c ∈ ds, '0' ≤ c ∧ c ≤ '9') ∧
        ∀ m, digitsFrom m ds = m * 10 ^ ds.length + n := by
  induction fuel with
  | zero =>
    intro n acc _ h
    omega
  | succ fuel ih =>
    intro n acc hn _
    obtain ⟨hc1, hc2, hc3⟩ := digitChar_spec (n % 10) (Nat.mod_lt _ (by omega))
    rw [decimalDigits]
    by_cases hz : n / 10 = 0
    · rw [if_pos hz]
      refine ⟨[Char.ofNat (48 + n % 10)], rfl, by simp, ?_, ?_⟩
      · intro c hc
        rw [List.mem_singleton.mp hc]
        exact ⟨hc1, hc2⟩
      · intro m
        show m * 10 + digitVal (Char.ofNat (48 + n % 10)) = m * 10 ^ 1 + n
        rw [hc3, pow_one]
        omega
    · rw [if_neg hz]
      have hfuel : 0 < fuel := by
        rcases Nat.eq_zero_or_pos fuel with h | h
        · subst h
          simp only [zero_add, pow_one] at hn
          omega
        · exact h
      have hlt : n / 10 < 10 ^ fuel := by
        rw [pow_succ] at hn
        omega
      obtain ⟨ds, hds, _, hdig, hval⟩ := ih (n / 10) (Char.ofNat (48 + n % 10) :: acc) hlt hfuel
      refine ⟨ds ++ [Char.ofNat (48 + n % 10)], by rw [hds]; simp, by simp, ?_, ?_⟩
      · intro c hc
        rcases List.mem_append.mp hc with hc | hc
        · exact hdig c hc
        · rw [List.mem_singleton.mp hc]
          exact ⟨hc1, hc2⟩
      · intro m
        rw [digitsFrom_append, hval]
        show (m * 10 ^ ds.length + n / 10) * 10 + digitVal (Char.ofNat (48 + n % 10)) =
          m * 10 ^ (ds ++ [Char.ofNat (48 + n % 10)]).length + n
        rw [hc3, List.length_append, List.length_singleton, pow_succ]
        have := Nat.div_add_mod n 10
        nlinarith [Nat.div_add_mod n 10]

/-- Parsing what `FormatInt` writes for a value from 0 to the largest signed
64-bit value gives the value back. -/
theorem ParseInt_FormatInt (v : Int) (h0 : 0 ≤ v) (hmax : v ≤ maxInt64) :
    strconv.ParseInt (strconv.FormatInt v) = (v, none) := by
  obtain ⟨n, rfl⟩ := Int.eq_ofNat_of_zero_le h0
  have hn : n < 10 ^ 20 := by
    simp only [maxInt64] at hmax
    omega
  obtain ⟨ds, hds, hne, hdig, hval⟩ := decimalDigits_spec 20 n [] hn (by decide)
  have hv := hval 0
  simp only [zero_mul, zero_add] at hv
  have hfmt : strconv.FormatInt (n : Int) = String.mk ds := by
    unfold strconv.FormatInt
    rw [if_neg (by omega)]
    simp only [Int.natAbs_ofNat, hds, List.append_nil]
  rw [hfmt]
  unfold strconv.ParseInt
  cases hcs : ds with
  | nil => exact absurd hcs hne
  | cons c rest =>
    have hc := hdig c (by rw [hcs]; exact List.mem_cons_self _ _)
    have hsign : ¬ (c = '+' ∨ c = '-') := by
      rintro (h | h)
      · subst h
        exact absurd hc.1 (by decide)
      · subst h
        exact absurd hc.1 (by decide)
    have hminus : decide (c = '-') = false := by
      simp only [decide_eq_false_iff_not]
      exact fun h => hsign (Or.inr h)
    simp only [if_neg hsign, hminus]
    have hloop : strconv.ParseUint (c :: rest) = (n, none) := by
      unfold strconv.ParseUint
      rw [if_neg (by simp), ← hcs, ParseUintLoop_complete ds 0 hdig (by
        rw [hv]
        simp only [maxInt64] at hmax
        simp only [maxUint64]
        omega), hv]
    rw [hloop]
    simp only [ParseIntSigned, Bool.false_eq_true, false_and, if_false, not_false_eq_true,
      true_and]
    have h1 : ¬ ((n : Int) ≥ maxInt64 + 1) := by omega
    rw [if_neg h1]
    rw [wrapInt64_of_range (n : Int) (by simp only [minInt64]; omega) hmax,
      wrapInt64_of_range (n : Int) (by simp only [minInt64]; omega) hmax]

theorem Header_Get_Set (h : Header) (key value : String) :
    Header.Get (Header.Set h key value) key = value := by
  simp [Header.Get, Header.Set, List.find?]

/-- What the decoder returns for a timeout written by `setTimeout`: the whole
microseconds of the duration, less 20 microseconds. -/
theorem timeout_setTimeout (req : Request) (d : Int) (hfloor : 20 < Int.tdiv d 1000)
    (hmax : d ≤ maxInt64) :
    timeout (setTimeout req d) = (Int.tdiv d 1000 - 20) * 1000 := by
  have hd0 : 0 ≤ d := by
    by_contra hneg
    have h1 : Int.tdiv d 1000 = -(Int.tdiv (-d) 1000) := by
      rw [← Int.neg_tdiv, neg_neg]
    have h2 : 0 ≤ Int.tdiv (-d) 1000 := Int.tdiv_nonneg (by omega) (by decide)
    omega
  have hdiv : Int.tdiv d 1000 = d / 1000 := Int.tdiv_eq_ediv hd0 (by decide)
  have hv : Int.tdiv d 1000 ≤ maxInt64 := by
    rw [hdiv]
    simp only [maxInt64] at hmax ⊢
    omega
  unfold timeout setTimeout
  simp only [Header_Get_Set, ParseInt_FormatInt _ (by omega) hv, true_and, gt_iff_lt, hfloor,
    if_true]
  rw [hdiv] at hfloor ⊢
  simp only [maxInt64] at hmax
  rw [wrapInt64_of_range (d / 1000 - 20) (by simp only [minInt64]; omega)
    (by simp only [maxInt64]; omega)]
  exact wrapInt64_of_range _ (by simp only [minInt64]; omega) (by simp only [maxInt64]; omega)

end Timeouts

section Execution

/-- Partial correctness: a specification whose verification conditions hold
is met by every evaluation that returns. -/
theorem exec_meets_spec (S : ExecSpec) (hS : S.Sound) :
    ∀ fuel,
      (∀ c c', S.PN c → exec fuel .Next c = some c' → S.QN c c') ∧
      (∀ s c c', S.PL s c → exec fuel (.loop s) c = some c' → S.QL s c c') ∧
      (∀ body c c', S.PC body c → exec fuel (.call body) c = some c' → S.QC body c c') := by
  intro fuel
  induction fuel with
  | zero =>
    refine ⟨?_, ?_, ?_⟩ <;> intros <;> simp [exec] at *
  | succ fuel ih =>
    obtain ⟨ihN, ihL, ihC⟩ := ih
    refine ⟨?_, ?_, ?_⟩
    · intro c c' hP hE
      rw [exec] at hE
      obtain ⟨hPL, hQ⟩ := hS.next c hP
      exact hQ c' (ihL _ _ _ hPL hE)
    · intro s c c' hP hE
      rw [exec] at hE
      by_cases hlt : c.index < s
      · rw [if_pos hlt] at hE
        by_cases hm : c.methodMismatch s
        · rw [if_pos hm] at hE
          cases hE
          exact hS.notAllowed s c hP hlt hm
        · rw [if_neg hm] at hE
          cases hh : c.handlerAt with
          | none =>
            simp only [hh] at hE
            cases hE
            exact hS.outOfRange s c hP hlt hm hh
          | some h =>
            simp only [hh] at hE
            obtain ⟨hPC, hK⟩ := hS.enter s c h hP hlt hm hh
            cases h1 : exec fuel (.call h) (c.record (.enter c.index.toNat)) with
            | none =>
              simp only [h1] at hE
              cases hE
            | some c1 =>
              simp only [h1] at hE
              obtain ⟨hKp, hKn⟩ := hK c1 (ihC _ _ _ hPC h1)
              cases hp : c1.panicked with
              | true =>
                rw [hp] at hE
                simp only [if_true, Option.some.injEq] at hE
                subst hE
                exact hKp hp
              | false =>
                rw [hp] at hE
                simp only [Bool.false_eq_true, if_false] at hE
                obtain ⟨hPL, hQ⟩ := hKn hp
                exact hQ c' (ihL _ _ _ hPL hE)
      · rw [if_neg hlt] at hE
        cases hE
        exact hS.exit s c hP hlt
    · intro body c c' hP hE
      cases body with
      | nil =>
        rw [exec] at hE
        cases hE
        exact hS.done c hP
      | cons a rest =>
        cases a with
        | Next =>
          rw [exec] at hE
          obtain ⟨hPN, hK⟩ := hS.callNext rest c hP
          cases h1 : exec fuel .Next c with
          | none =>
            simp only [h1] at hE
            cases hE
          | some c1 =>
            simp only [h1] at hE
            obtain ⟨hKp, hKn⟩ := hK c1 (ihN _ _ hPN h1)
            cases hp : c1.panicked with
            | true =>
              rw [hp] at hE
              simp only [if_true, Option.some.injEq] at hE
              subst hE
              exact hKp hp
            | false =>
              rw [hp] at hE
              simp only [Bool.false_eq_true, if_false] at hE
              obtain ⟨hPC, hQ⟩ := hKn hp
              exact hQ c' (ihC _ _ _ hPC hE)
        | Abort =>
          rw [exec] at hE
          obtain ⟨hPC, hQ⟩ := hS.abort rest c hP
          exact hQ c' (ihC _ _ _ hPC hE)
        | AbortWithStatus code =>
          rw [exec] at hE
          obtain ⟨hPC, hQ⟩ := hS.abortWithStatus code rest c hP
          exact hQ c' (ihC _ _ _ hPC hE)
        | IsAborted =>
          rw [exec] at hE
          obtain ⟨hPC, hQ⟩ := hS.isAborted rest c hP
          exact hQ c' (ihC _ _ _ hPC hE)

theorem weight_pos (hs : List HandlerFunc) : ∀ k, 1 ≤ weight hs k := by
  induction hs with
  | nil => intro k; simp [weight]
  | cons h t ih =>
    intro k
    cases k with
    | zero => simp only [weight]; omega
    | succ k => simpa [weight] using ih k

theorem weight_succ_le (hs : List HandlerFunc) : ∀ k, weight hs (k + 1) ≤ weight hs k := by
  induction hs with
  | nil => intro k; simp [weight]
  | cons h t ih =>
    intro k
    cases k with
    | zero =>
      simp only [weight]
      omega
    | succ k => simpa [weight] using ih k

theorem weight_antitone (hs : List HandlerFunc) (j k : Nat) (h : j ≤ k) :
    weight hs k ≤ weight hs j := by
  induction h with
  | refl => exact le_refl _
  | step _ ih => exact le_trans (weight_succ_le hs _) ih

theorem weight_get (hs : List HandlerFunc) :
    ∀ k h, hs[k]? = some h → weight hs k = h.length + 3 + weight hs (k + 1) := by
  induction hs with
  | nil => intro k h hk; simp at hk
  | cons x t ih =>
    intro k h hk
    cases k with
    | zero =>
      simp only [List.getElem?_cons_zero, Option.some.injEq] at hk
      subst hk
      simp only [weight]
    | succ k =>
      simp only [List.getElem?_cons_succ] at hk
      simpa [weight] using ih k h hk

theorem weight_of_ge (hs : List HandlerFunc) : ∀ k, hs.length ≤ k → weight hs k = 1 := by
  induction hs with
  | nil => intro k _; simp [weight]
  | cons x t ih =>
    intro k hk
    cases k with
    | zero => simp at hk
    | succ k =>
      simp only [List.length_cons, Nat.add_le_add_iff_right] at hk
      simpa [weight] using ih k hk

theorem wrapInt8_of_range (x : Int) (h1 : -128 ≤ x) (h2 : x ≤ 127) : wrapInt8 x = x := by
  unfold wrapInt8
  omega

theorem wrapInt8_range (x : Int) : -128 ≤ wrapInt8 x ∧ wrapInt8 x ≤ 127 := by
  unfold wrapInt8
  omega

theorem loop_wrapped (hs : List HandlerFunc) (hlen : hs.length ≤ 63) (fuel : Nat) (c : Context)
    (hneg : c.index < -1) (hlo : -128 ≤ c.index) :
    exec (fuel + 1) (.loop (hs.length : Int)) c = some c.fail := by
  rw [exec]
  have hlt : c.index < (hs.length : Int) := by omega
  have hmm : ¬ c.methodMismatch (hs.length : Int) := by
    intro hmm
    have := hmm.1
    rw [wrapInt8_of_range _ (by omega) (by omega)] at this
    omega
  have hnone : c.handlerAt = none := by
    have : ¬ 0 ≤ c.index := by omega
    simp [Context.handlerAt, this]
  rw [if_pos hlt, if_neg hmm]
  simp only [hnone]

/-- Termination: with a chain of at most 63 handlers every activation returns,
given a nesting bound that covers the remaining handlers. -/
theorem exec_terminates (hs : List HandlerFunc) (hlen : hs.length ≤ 63) :
    ∀ fuel,
      (∀ c, c.handlers = hs → -1 ≤ c.index → c.index ≤ 127 →
        weight hs (c.index + 1).toNat + 2 ≤ fuel →
        ∃ c', exec fuel .Next c = some c' ∧ Progress hs (c.index + 1).toNat c') ∧
      (∀ c, c.handlers = hs → 0 ≤ c.index → c.index ≤ 127 →
        weight hs c.index.toNat + 1 ≤ fuel →
        ∃ c', exec fuel (.loop (hs.length : Int)) c = some c' ∧ Progress hs c.index.toNat c') ∧
      (∀ body c, c.handlers = hs → 0 ≤ c.index → c.index ≤ 127 →
        body.length + weight hs (c.index.toNat + 1) + 3 ≤ fuel →
        ∃ c', exec fuel (.call body) c = some c' ∧ Progress hs (c.index.toNat + 1) c') := by
  have hs8 : wrapInt8 (hs.length : Int) = hs.length := wrapInt8_of_range _ (by omega) (by omega)
  intro fuel
  induction fuel with
  | zero =>
    refine ⟨?_, ?_, ?_⟩
    · intro c _ _ _ hf
      omega
    · intro c _ _ _ hf
      have := weight_pos hs c.index.toNat
      omega
    · intro body c _ _ _ hf
      omega
  | succ fuel ih =>
    obtain ⟨ihN, ihL, ihC⟩ := ih
    refine ⟨?_, ?_, ?_⟩
    · -- a call of Next
      intro c hc h1 h2 hf
      have hw1 := weight_pos hs (c.index + 1).toNat
      by_cases hwrap : c.index = 127
      · have hidx : c.step.index = -128 := by
          simp only [Context.step, hwrap, wrapInt8]
          decide
        obtain ⟨f, hfuel⟩ : ∃ f, fuel = f + 1 := ⟨fuel - 1, by omega⟩
        rw [exec, hc, hs8, hfuel, loop_wrapped hs hlen f c.step (by omega) (by omega)]
        refine ⟨_, rfl, hc, ?_⟩
        intro hpf
        simp [Context.fail] at hpf
      · have hidx : c.step.index = c.index + 1 := by
          simp only [Context.step]
          exact wrapInt8_of_range _ (by omega) (by omega)
        have hnat : c.step.index.toNat = c.index.toNat + 1 ∨ c.index = -1 := by omega
        obtain ⟨c', he, hh, hp⟩ := ihL c.step hc (by omega) (by omega)
          (by rw [hidx]; omega)
        rw [exec, hc, hs8]
        refine ⟨c', he, hh, ?_⟩
        intro hpf
        obtain ⟨a, b, hw⟩ := hp hpf
        refine ⟨a, b, le_trans hw ?_⟩
        rw [hidx]
    · -- the loop at its condition
      intro c hc h1 h2 hf
      rw [exec]
      by_cases hlt : c.index < (hs.length : Int)
      · rw [if_pos hlt]
        by_cases hm : c.methodMismatch (hs.length : Int)
        · rw [if_pos hm]
          exact ⟨_, rfl, hc, fun _ => ⟨h1, h2, weight_succ_le hs _⟩⟩
        · rw [if_neg hm]
          cases hh : c.handlerAt with
          | none =>
            simp only [hh]
            refine ⟨_, rfl, hc, ?_⟩
            intro hpf
            simp [Context.fail] at hpf
          | some h =>
            simp only [hh]
            have hget : hs[c.index.toNat]? = some h := by
              simpa [Context.handlerAt, h1, hc] using hh
            have hw := weight_get hs _ h hget
            obtain ⟨c1, he1, ⟨hh1, hp1⟩⟩ := ihC h (c.record (.enter c.index.toNat)) hc h1 h2
              (by simp only [Context.record]; omega)
            rw [he1]
            simp only
            cases hpan : c1.panicked with
            | true =>
              simp only [if_true]
              refine ⟨c1, rfl, hh1, ?_⟩
              intro hpf
              rw [hpan] at hpf
              cases hpf
            | false =>
              simp only [Bool.false_eq_true, if_false]
              obtain ⟨a, b, hw1⟩ := hp1 hpan
              simp only [Context.record] at hw1
              by_cases hwrap : c1.index = 127
              · have hidx : (c1.record (.leave c.index.toNat)).step.index = -128 := by
                  simp only [Context.step, Context.record, hwrap, wrapInt8]
                  decide
                obtain ⟨f, hfuel⟩ : ∃ f, fuel = f + 1 := ⟨fuel - 1, by omega⟩
                rw [hfuel, loop_wrapped hs hlen f _ (by omega) (by omega)]
                refine ⟨_, rfl, hh1, ?_⟩
                intro hpf
                simp [Context.fail] at hpf
              · have hidx : (c1.record (.leave c.index.toNat)).step.index = c1.index + 1 := by
                  simp only [Context.step, Context.record]
                  exact wrapInt8_of_range _ (by omega) (by omega)
                have hnat : (c1.index + 1).toNat = c1.index.toNat + 1 := by omega
                obtain ⟨c', he, hh', hp'⟩ := ihL (c1.record (.leave c.index.toNat)).step hh1
                  (by omega) (by omega) (by rw [hidx, hnat]; omega)
                refine ⟨c', he, hh', ?_⟩
                intro hpf
                obtain ⟨a', b', hw'⟩ := hp' hpf
                refine ⟨a', b', le_trans hw' ?_⟩
                rw [hidx, hnat]
                exact le_trans hw1 (weight_succ_le hs _)
      · rw [if_neg hlt]
        exact ⟨c, rfl, hc, fun _ => ⟨h1, h2, weight_succ_le hs _⟩⟩
    · -- the rest of a handler body
      intro body c hc h1 h2 hf
      cases body with
      | nil =>
        rw [exec]
        exact ⟨c, rfl, hc, fun _ => ⟨h1, h2, le_refl _⟩⟩
      | cons a rest =>
        simp only [List.length_cons] at hf
        have hW64 : ∀ k, weight hs (63 + 1) ≤ weight hs k := by
          intro k
          rw [weight_of_ge hs _ (by omega)]
          exact weight_pos hs k
        have e63 : (63 : Int).toNat = 63 := rfl
        cases a with
        | Next =>
          rw [exec]
          have hnat : (c.index + 1).toNat = c.index.toNat + 1 := by omega
          obtain ⟨c1, he1, hh1, hp1⟩ := ihN c hc (by omega) h2 (by rw [hnat]; omega)
          rw [he1]
          simp only
          cases hpan : c1.panicked with
          | true =>
            simp only [if_true]
            refine ⟨c1, rfl, hh1, ?_⟩
            intro hpf
            rw [hpan] at hpf
            cases hpf
          | false =>
            simp only [Bool.false_eq_true, if_false]
            obtain ⟨a, b, hw1⟩ := hp1 hpan
            rw [hnat] at hw1
            obtain ⟨c', he, hh', hp'⟩ := ihC rest c1 hh1 a b (by omega)
            refine ⟨c', he, hh', ?_⟩
            intro hpf
            obtain ⟨a', b', hw'⟩ := hp' hpf
            exact ⟨a', b', le_trans hw' hw1⟩
        | Abort =>
          rw [exec]
          have hA : c.Abort.index = 63 := rfl
          obtain ⟨c', he, hh', hp'⟩ := ihC rest c.Abort hc (by rw [hA]; omega) (by rw [hA]; omega)
            (by
              rw [hA, e63]
              have := hW64 (c.index.toNat + 1)
              omega)
          refine ⟨c', he, hh', ?_⟩
          intro hpf
          obtain ⟨a', b', hw'⟩ := hp' hpf
          refine ⟨a', b', le_trans hw' ?_⟩
          rw [hA, e63]
          exact hW64 _
        | AbortWithStatus code =>
          rw [exec]
          have hA : (c.AbortWithStatus code).index = 63 := rfl
          obtain ⟨c', he, hh', hp'⟩ := ihC rest (c.AbortWithStatus code) hc (by rw [hA]; omega)
            (by rw [hA]; omega)
            (by
              rw [hA, e63]
              have := hW64 (c.index.toNat + 1)
              omega)
          refine ⟨c', he, hh', ?_⟩
          intro hpf
          obtain ⟨a', b', hw'⟩ := hp' hpf
          refine ⟨a', b', le_trans hw' ?_⟩
          rw [hA, e63]
          exact hW64 _
        | IsAborted =>
          rw [exec]
          obtain ⟨c', he, hh', hp'⟩ := ihC rest (c.record (.isAborted c.IsAborted)) hc h1 h2
            (by simp only [Context.record]; omega)
          exact ⟨c', he, hh', hp'⟩

theorem entered_append (es : List Event) (e : Event) :
    entered (es ++ [e]) = entered es ++ (match e.entered? with | some i => [i] | none => []) := by
  unfold entered
  rw [List.filterMap_append]
  cases h : e.entered? <;> simp [List.filterMap, h]

theorem count405_append (es : List Event) (e : Event) :
    count405 (es ++ [e]) = count405 es + (if e = .httpError 405 then 1 else 0) := by
  unfold count405
  rw [List.count_append]
  by_cases h : e = .httpError 405
  · subst h
    simp
  · simp [h, List.count_cons]

theorem Visited_quiet (hs : List HandlerFunc) (m : String) (req : Request) (v : Nat)
    (es : List Event) (e : Event) (h1 : e.entered? = none) (h2 : e ≠ .httpError 405)
    (h : Visited hs m req v es) : Visited hs m req v (es ++ [e]) := by
  unfold Visited at h ⊢
  rw [entered_append, count405_append, h1, if_neg h2]
  simpa using h

theorem Visited_high (hs : List HandlerFunc) (m : String) (req : Request) (v w : Nat)
    (es : List Event) (hv : hs.length ≤ v) (hw : v ≤ w)
    (h : Visited hs m req v es) : Visited hs m req w es := by
  unfold Visited at h ⊢
  have hr : reach hs m req ≤ hs.length := by
    unfold reach
    split <;> omega
  rw [Nat.min_eq_right (by omega)] at h
  rw [Nat.min_eq_right (by omega)]
  refine ⟨h.1, ?_⟩
  rw [h.2]
  by_cases hm : m ≠ req.Method
  · rw [if_pos ⟨hm, hv⟩, if_pos ⟨hm, by omega⟩]
  · rw [if_neg (fun hc => hm hc.1), if_neg (fun hc => hm hc.1)]

theorem ChainInv_quiet (hs : List HandlerFunc) (m : String) (req : Request) (c : Context)
    (e : Event) (h1 : e.entered? = none) (h2 : e ≠ .httpError 405)
    (h : ChainInv hs m req c) : ChainInv hs m req (c.record e) := by
  obtain ⟨hf, hn, hp⟩ := h
  refine ⟨hf, ?_, ?_⟩
  · intro hpf
    obtain ⟨a, b, hv⟩ := hn hpf
    exact ⟨a, b, Visited_quiet hs m req _ _ e h1 h2 hv⟩
  · intro hpt
    exact Visited_quiet hs m req _ _ e h1 h2 (hp hpt)

theorem ChainPre_of_step (hs : List HandlerFunc) (m : String) (req : Request) (c : Context)
    (h : ChainInv hs m req c) (hp : c.panicked = false) : ChainPre hs m req c.step := by
  obtain ⟨hf, hn, _⟩ := h
  obtain ⟨a, b, hv⟩ := hn hp
  refine ⟨hf, hp, (c.index + 1).toNat, by omega, ?_, hv⟩
  simp only [Context.step]
  congr 1
  omega

theorem wrapInt8_natCast_eq (v : Nat) (hv : v ≤ 128) (x : Int) (hx : 0 ≤ x)
    (h : x = wrapInt8 v) : x = v := by
  unfold wrapInt8 at h
  omega

theorem chainSpec_sound (hs : List HandlerFunc) (m : String) (req : Request)
    (h1 : 1 ≤ hs.length) (h62 : hs.length ≤ 62)
    (hbeh : ∀ j h, j < reach hs m req → hs[j]? = some h → noAbort h = true) :
    (chainSpec hs m req).Sound where
  next := by
    intro c hP
    refine ⟨⟨?_, ChainPre_of_step hs m req c hP.1 hP.2⟩, fun c' h => h⟩
    rw [hP.1.1.1]
    exact wrapInt8_of_range _ (by omega) (by omega)
  exit := by
    rintro s c ⟨hs', hf, hp, v, hv, hidx, hvis⟩ hlt
    subst hs'
    have hr := wrapInt8_range (v : Int)
    have h0 : 0 ≤ c.index := by omega
    have hcv := wrapInt8_natCast_eq v hv c.index h0 hidx
    refine ⟨⟨hf, ?_, ?_⟩, fun _ => by omega⟩
    · intro _
      refine ⟨by omega, by omega, Visited_high hs m req v _ _ (by omega) (by omega) hvis⟩
    · intro hpt
      rw [hp] at hpt
      cases hpt
  notAllowed := by
    rintro s c ⟨hs', hf, hp, v, hv, hidx, hvis⟩ hlt hmm
    subst hs'
    obtain ⟨hi, hne⟩ := hmm
    rw [wrapInt8_of_range _ (by omega) (by omega)] at hi
    rw [hf.2.1, hf.2.2] at hne
    have hcv := wrapInt8_natCast_eq v hv c.index (by omega) hidx
    have hvn : v = hs.length - 1 := by omega
    have hidx0 : (c.record (.httpError 405)).index = c.index := rfl
    refine ⟨⟨hf, ?_, ?_⟩, fun _ => by rw [hidx0]; omega⟩
    · intro _
      have hidx' : (c.record (.httpError 405)).index = c.index := rfl
      refine ⟨by rw [hidx']; omega, by rw [hidx']; omega, ?_⟩
      have hnat : ((c.record (.httpError 405)).index + 1).toNat = hs.length := by
        rw [hidx']
        omega
      rw [hnat]
      unfold Visited at hvis ⊢
      simp only [Context.record]
      rw [entered_append, count405_append, hvis.1, hvis.2]
      have hreach : reach hs m req = hs.length - 1 := by
        unfold reach
        rw [if_pos hne]
      rw [hreach]
      have hc1 : ¬ (m ≠ req.Method ∧ hs.length ≤ v) := by
        intro hc
        omega
      have hc2 : m ≠ req.Method ∧ hs.length ≤ hs.length := ⟨hne, le_refl _⟩
      rw [if_neg hc1, if_pos hc2]
      refine ⟨?_, ?_⟩
      · rw [hvn]
        simp [Event.entered?]
      · simp
    · intro hpt
      simp only [Context.record] at hpt
      rw [hp] at hpt
      cases hpt
  outOfRange := by
    rintro s c ⟨hs', hf, hp, v, hv, hidx, hvis⟩ hlt _ hnone
    subst hs'
    have hneg : c.index < 0 := by
      by_contra h0
      have h0' : 0 ≤ c.index := by omega
      simp only [Context.handlerAt, h0', if_true, hf.1] at hnone
      rw [List.getElem?_eq_none_iff] at hnone
      omega
    have hv128 : v = 128 := by
      by_contra hne
      have : wrapInt8 (v : Int) = v := wrapInt8_of_range _ (by omega) (by omega)
      omega
    subst hv128
    refine ⟨⟨hf, ?_, ?_⟩, ?_⟩
    · intro hpf
      simp [Context.fail] at hpf
    · intro _
      exact hvis
    · intro hpf
      simp [Context.fail] at hpf
  enter := by
    rintro s c h ⟨hs', hf, hp, v, hv, hidx, hvis⟩ hlt hmm hsome
    subst hs'
    have h0 : 0 ≤ c.index := by
      by_contra hneg
      simp [Context.handlerAt, hneg] at hsome
    have hget : hs[c.index.toNat]? = some h := by
      simpa [Context.handlerAt, h0, hf.1] using hsome
    have hcv := wrapInt8_natCast_eq v hv c.index h0 hidx
    have hvk : c.index.toNat = v := by omega
    have hvn : v < hs.length := by omega
    have hreach : v < reach hs m req := by
      unfold reach
      by_cases hne : m ≠ req.Method
      · rw [if_pos hne]
        by_contra hge
        apply hmm
        refine ⟨?_, by rw [hf.2.1, hf.2.2]; exact hne⟩
        rw [wrapInt8_of_range _ (by omega) (by omega)]
        omega
      · rw [if_neg hne]
        exact hvn
    have hinv : ChainInv hs m req (c.record (.enter c.index.toNat)) := by
      refine ⟨hf, ?_, ?_⟩
      · intro _
        have hidx' : (c.record (.enter c.index.toNat)).index = c.index := rfl
        refine ⟨by rw [hidx']; omega, by rw [hidx']; omega, ?_⟩
        have hnat : ((c.record (.enter c.index.toNat)).index + 1).toNat = v + 1 := by
          rw [hidx']
          omega
        rw [hnat, hvk]
        unfold Visited at hvis ⊢
        simp only [Context.record]
        rw [entered_append, count405_append, hvis.1, hvis.2]
        have hr : reach hs m req ≤ hs.length := by
          unfold reach
          split <;> omega
        have hc1 : ¬ (m ≠ req.Method ∧ hs.length ≤ v) := by
          intro hc
          omega
        have hc2 : ¬ (m ≠ req.Method ∧ hs.length ≤ v + 1) := by
          intro hc
          have : reach hs m req = hs.length - 1 := by
            unfold reach
            rw [if_pos hc.1]
          omega
        rw [if_neg hc1, if_neg hc2]
        refine ⟨?_, ?_⟩
        · rw [Nat.min_eq_left (by omega), Nat.min_eq_left (by omega)]
          simp [Event.entered?, List.range_succ]
        · simp
      · intro hpt
        simp only [Context.record] at hpt
        rw [hp] at hpt
        cases hpt
    refine ⟨⟨hinv, hp, hbeh _ h (by rw [hvk]; exact hreach) hget⟩, ?_⟩
    intro c1 hq
    refine ⟨fun hpt => ⟨hq, fun hpf => by rw [hpt] at hpf; cases hpf⟩, ?_⟩
    intro hp1
    refine ⟨⟨rfl, ?_⟩, fun c' h => h⟩
    exact ChainPre_of_step hs m req _
      (ChainInv_quiet hs m req c1 _ rfl (by simp) hq) hp1
  done := by
    intro c hP
    exact hP.1
  callNext := by
    rintro rest c ⟨hinv, hp, hna⟩
    refine ⟨⟨hinv, hp⟩, ?_⟩
    intro c1 hq
    refine ⟨fun _ => hq.1, fun hp1 => ⟨⟨hq.1, hp1, ?_⟩, fun c' h => h⟩⟩
    simpa [noAbort] using hna
  abort := by
    rintro rest c ⟨_, _, hna⟩
    simp [noAbort] at hna
  abortWithStatus := by
    rintro code rest c ⟨_, _, hna⟩
    simp [noAbort] at hna
  isAborted := by
    rintro rest c ⟨hinv, hp, hna⟩
    refine ⟨⟨ChainInv_quiet hs m req c _ rfl (by simp) hinv, hp, ?_⟩, fun c' h => h⟩
    simpa [noAbort] using hna

/-- Running `Next` on a fresh context whose reachable handlers do not abort:
the evaluation returns, the handlers within reach were invoked once each in
chain order, and the 405 response was written once exactly when the declared
method differs from the request method. -/
theorem Next_noAbort (r : Route HandlerFunc) (req : Request) (fuel : Nat)
    (h1 : 1 ≤ r.handlers.length) (h62 : r.handlers.length ≤ 62)
    (hbeh : ∀ j h, j < reach r.handlers r.method req → r.handlers[j]? = some h →
      noAbort h = true)
    (hfuel : chainFuel r.handlers ≤ fuel) :
    ∃ c', exec fuel .Next (r.newContext req) = some c' ∧
      entered c'.events = List.range (reach r.handlers r.method req) ∧
      count405 c'.events = (if r.method ≠ req.Method then 1 else 0) := by
  obtain ⟨c', he, _⟩ := (exec_terminates r.handlers (by omega) fuel).1 (r.newContext req) rfl
    (by simp [Route.newContext]) (by simp [Route.newContext])
    (by simpa [Route.newContext, chainFuel] using hfuel)
  refine ⟨c', he, ?_⟩
  have hsound := chainSpec_sound r.handlers r.method req h1 h62 hbeh
  have h0 : ChainInv r.handlers r.method req (r.newContext req) := by
    refine ⟨⟨rfl, rfl, rfl⟩, ?_, ?_⟩
    · intro _
      refine ⟨by simp [Route.newContext], by simp [Route.newContext], ?_⟩
      refine ⟨?_, ?_⟩
      · simp [Route.newContext, entered]
      · have : ¬ (r.method ≠ req.Method ∧ r.handlers.length ≤ 0) := by
          intro hc
          omega
        have hz : ((r.newContext req).index + 1).toNat = 0 := rfl
        rw [hz, if_neg this]
        rfl
    · intro hpt
      simp [Route.newContext] at hpt
  obtain ⟨hinv, hend⟩ := (exec_meets_spec _ hsound fuel).1 (r.newContext req) c' ⟨h0, rfl⟩ he
  have hr : reach r.handlers r.method req ≤ r.handlers.length := by
    unfold reach
    split <;> omega
  have hfinal : Visited r.handlers r.method req 128 c'.events := by
    cases hp : c'.panicked with
    | true => exact hinv.2.2 hp
    | false =>
      obtain ⟨a, b, hv⟩ := hinv.2.1 hp
      have := hend hp
      exact Visited_high _ _ _ _ 128 _ (by omega) (by omega) hv
  obtain ⟨hent, hcnt⟩ := hfinal
  rw [Nat.min_eq_right (by omega)] at hent
  refine ⟨hent, ?_⟩
  rw [hcnt]
  by_cases hm : r.method ≠ req.Method
  · rw [if_pos ⟨hm, by omega⟩, if_pos hm]
  · rw [if_neg (fun hc => hm hc.1), if_neg hm]

theorem handlerAt_some (c : Context) (h : HandlerFunc) (hh : c.handlerAt = some h) :
    0 ≤ c.index ∧ c.handlers[c.index.toNat]? = some h ∧ c.index.toNat < c.handlers.length := by
  have h0 : 0 ≤ c.index := by
    by_contra hneg
    simp [Context.handlerAt, hneg] at hh
  have hget : c.handlers[c.index.toNat]? = some h := by
    simpa [Context.handlerAt, h0] using hh
  refine ⟨h0, hget, ?_⟩
  obtain ⟨hlt, _⟩ := List.getElem?_eq_some_iff.mp hget
  exact hlt

theorem rangeSpec_sound (hs : List HandlerFunc) : (rangeSpec hs).Sound where
  next := fun c hP => ⟨hP, fun c' h => h⟩
  exit := fun s c hP _ => hP
  notAllowed := by
    rintro s c ⟨hc, hr⟩ _ _
    refine ⟨hc, ?_⟩
    simp only [Context.record]
    rw [entered_append]
    simpa [Event.entered?] using hr
  outOfRange := fun s c hP _ _ _ => hP
  enter := by
    rintro s c h ⟨hc, hr⟩ _ _ hsome
    obtain ⟨h0, hget', hlt'⟩ := handlerAt_some c h hsome
    refine ⟨⟨hc, ?_⟩, ?_⟩
    · simp only [Context.record]
      rw [entered_append]
      intro j hj
      simp only [Event.entered?, List.mem_append, List.mem_singleton] at hj
      rcases hj with hj | hj
      · exact hr j hj
      · rw [hj, ← hc]
        exact hlt'
    · rintro c1 ⟨hc1, hr1⟩
      refine ⟨fun _ => ⟨hc1, hr1⟩, fun _ => ⟨⟨hc1, ?_⟩, fun c' h => h⟩⟩
      simp only [Context.record, Context.step]
      rw [entered_append]
      simpa [Event.entered?] using hr1
  done := fun c hP => hP
  callNext := fun rest c hP => ⟨hP, fun c1 hq => ⟨fun _ => hq, fun _ => ⟨hq, fun c' h => h⟩⟩⟩
  abort := fun rest c hP => ⟨hP, fun c' h => h⟩
  abortWithStatus := by
    rintro code rest c ⟨hc, hr⟩
    refine ⟨⟨hc, ?_⟩, fun c' h => h⟩
    simp only [Context.AbortWithStatus, Context.Status, Context.record, Context.Abort]
    rw [entered_append]
    simpa [Event.entered?] using hr
  isAborted := by
    rintro rest c ⟨hc, hr⟩
    refine ⟨⟨hc, ?_⟩, fun c' h => h⟩
    simp only [Context.record]
    rw [entered_append]
    simpa [Event.entered?] using hr

theorem left_append (es : List Event) (e : Event) :
    left (es ++ [e]) = left es ++ (match e.left? with | some i => [i] | none => []) := by
  unfold left
  rw [List.filterMap_append]
  cases h : e.left? <;> simp [List.filterMap, h]

theorem depth_quiet (es : List Event) (e : Event) (h1 : e.entered? = none)
    (h2 : e.left? = none) : depth (es ++ [e]) = depth es := by
  unfold depth
  rw [entered_append, left_append, h1, h2]
  simp

theorem balance_quiet (j : Nat) (es : List Event) (e : Event) (h1 : e.entered? = none)
    (h2 : e.left? = none) : balance j (es ++ [e]) = balance j es := by
  unfold balance
  rw [entered_append, left_append, h1, h2]
  simp

theorem depth_enter (es : List Event) (k : Nat) : depth (es ++ [.enter k]) = depth es + 1 := by
  unfold depth
  rw [entered_append, left_append]
  simp [Event.entered?, Event.left?]
  omega

theorem depth_leave (es : List Event) (k : Nat) : depth (es ++ [.leave k]) = depth es - 1 := by
  unfold depth
  rw [entered_append, left_append]
  simp [Event.entered?, Event.left?]
  omega

theorem balance_enter_leave (j k : Nat) (es es1 : List Event)
    (h : balance j es1 = balance j (es ++ [.enter k])) :
    balance j (es1 ++ [.leave k]) = balance j es := by
  unfold balance at h ⊢
  rw [entered_append, left_append] at h ⊢
  simp only [Event.entered?, Event.left?, List.append_nil, List.count_append,
    List.count_singleton] at h ⊢
  push_cast at h ⊢
  omega

theorem nexts_cons_Next (rest : List Action) : nexts (.Next :: rest) = nexts rest + 1 := by
  simp [nexts]

theorem nexts_cons_other (a : Action) (rest : List Action) (h : a ≠ .Next) :
    nexts (a :: rest) = nexts rest := by
  unfold nexts
  rw [List.count_cons]
  simp [h]

theorem depthSpec_sound (hs : List HandlerFunc) (h62 : hs.length ≤ 62)
    (honce : ∀ h ∈ hs, nexts h ≤ 1) : (depthSpec hs).Sound where
  next := by
    rintro c ⟨hc, hp, hlo, hd0, hd62, hb, hx⟩
    have hidx : c.step.index = c.index + 1 := by
      simp only [Context.step]
      exact wrapInt8_of_range _ (by omega) (by omega)
    refine ⟨⟨?_, hc, hp, ?_, hd0, hd62, ?_, ?_⟩, fun c' h => h⟩
    · rw [hc]
      exact wrapInt8_of_range _ (by omega) (by omega)
    · rw [hidx]; omega
    · rw [hidx]; exact hb
    · rw [hidx]
      intro hlt
      exact hx (by omega)
  exit := by
    rintro s c ⟨hs', hc, hp, h0, hd0, hd62, hb, hx⟩ hlt
    subst hs'
    exact ⟨hc, hp, h0, fun _ => rfl, rfl, hb, fun hc' => absurd hc' hlt⟩
  notAllowed := by
    rintro s c ⟨hs', hc, hp, h0, hd0, hd62, hb, hx⟩ hlt _
    subst hs'
    refine ⟨hc, hp, h0, fun j => ?_, ?_, hb, fun hc' => ?_⟩
    · exact balance_quiet j _ _ rfl rfl
    · exact depth_quiet _ _ rfl rfl
    · have := hx hc'
      show depth c.events ≤ c.index + 0
      omega
  outOfRange := by
    rintro s c ⟨hs', hc, hp, h0, hd0, hd62, hb, hx⟩ hlt _ hnone
    subst hs'
    exfalso
    simp only [Context.handlerAt, h0, if_true, hc] at hnone
    rw [List.getElem?_eq_none_iff] at hnone
    omega
  enter := by
    rintro s c h ⟨hs', hc, hp, h0, hd0, hd62, hb, hx⟩ hlt _ hsome
    subst hs'
    obtain ⟨_, hget, _⟩ := handlerAt_some c h hsome
    have hmem : h ∈ hs := by
      rw [hc] at hget
      exact List.getElem?_mem hget
    have hn := honce h hmem
    have hdk := hx hlt
    have hde : depth (c.record (.enter c.index.toNat)).events = depth c.events + 1 :=
      depth_enter _ _
    refine ⟨⟨hc, hp, h0, hn, ?_, ?_, ?_, ?_⟩, ?_⟩
    · rw [hde]; omega
    · rw [hde]; omega
    · rw [hde]
      show c.index + (nexts h : Int) + (depth c.events + 1) ≤ 126
      omega
    · intro _
      rw [hde]
      show depth c.events + 1 ≤ c.index + 1
      omega
    · rintro c1 ⟨hc1, hp1, h01, hbal1, hd1, hb1, hx1⟩
      refine ⟨fun hpt => (by rw [hp1] at hpt; cases hpt), fun _ => ?_⟩
      rw [hde] at hd1 hb1 hx1
      have hidx : (c1.record (.leave c.index.toNat)).step.index = c1.index + 1 := by
        simp only [Context.step, Context.record]
        exact wrapInt8_of_range _ (by omega) (by omega)
      have hdl : depth (c1.record (.leave c.index.toNat)).step.events = depth c.events := by
        simp only [Context.step, Context.record]
        rw [depth_leave, hd1]
        omega
      have hbl : ∀ j, balance j (c1.record (.leave c.index.toNat)).step.events
          = balance j c.events := by
        intro j
        simp only [Context.step, Context.record]
        exact balance_enter_leave j _ _ _ (hbal1 j)
      refine ⟨⟨rfl, hc1, hp1, ?_, ?_, ?_, ?_, ?_⟩, ?_⟩
      · rw [hidx]; omega
      · rw [hdl]; exact hd0
      · rw [hdl]; exact hd62
      · rw [hdl, hidx]; omega
      · rw [hdl, hidx]
        intro hlt1
        have := hx1 (by omega)
        omega
      · rintro c' ⟨hc', hp', h0', hbal', hd', hb', hx'⟩
        rw [hdl] at hd' hb' hx'
        exact ⟨hc', hp', h0', fun j => (hbal' j).trans (hbl j), hd', hb', hx'⟩
  done := by
    rintro c ⟨hc, hp, h0, hn, hd0, hd62, hb, hx⟩
    refine ⟨hc, hp, h0, fun _ => rfl, rfl, ?_, hx⟩
    have : (0 : Int) ≤ (nexts [] : Int) := Int.natCast_nonneg _
    omega
  callNext := by
    rintro rest c ⟨hc, hp, h0, hn, hd0, hd62, hb, hx⟩
    rw [nexts_cons_Next] at hn hb
    have hr0 : nexts rest = 0 := by omega
    rw [hr0] at hb
    refine ⟨⟨hc, hp, by omega, hd0, hd62, by
      push_cast at hb
      omega, hx⟩, ?_⟩
    rintro c1 ⟨hc1, hp1, h01, hbal1, hd1, hb1, hx1⟩
    refine ⟨fun hpt => (by rw [hp1] at hpt; cases hpt), fun _ => ?_⟩
    refine ⟨⟨hc1, hp1, h01, by omega, ?_, ?_, ?_, ?_⟩, ?_⟩
    · rw [hd1]; exact hd0
    · rw [hd1]; exact hd62
    · rw [hd1, hr0]
      push_cast
      omega
    · rw [hd1]
      intro hlt1
      have := hx1 hlt1
      omega
    · rintro c' ⟨hc', hp', h0', hbal', hd', hb', hx'⟩
      rw [hd1] at hd' hb' hx'
      exact ⟨hc', hp', h0', fun j => (hbal' j).trans (hbal1 j), hd', hb', hx'⟩
  abort := by
    rintro rest c ⟨hc, hp, h0, hn, hd0, hd62, hb, hx⟩
    rw [nexts_cons_other _ _ (by simp)] at hn hb
    have hA : c.Abort.index = 63 := rfl
    have hE : c.Abort.events = c.events := rfl
    refine ⟨⟨hc, hp, by rw [hA]; omega, hn, by rw [hE]; exact hd0, by rw [hE]; exact hd62, ?_, ?_⟩,
      ?_⟩
    · rw [hA, hE]
      have : (nexts rest : Int) ≤ 1 := by exact_mod_cast hn
      omega
    · rw [hA]
      intro hlt
      omega
    · rintro c' ⟨hc', hp', h0', hbal', hd', hb', hx'⟩
      rw [hE] at hbal' hd' hb' hx'
      exact ⟨hc', hp', h0', hbal', hd', hb', hx'⟩
  abortWithStatus := by
    rintro code rest c ⟨hc, hp, h0, hn, hd0, hd62, hb, hx⟩
    rw [nexts_cons_other _ _ (by simp)] at hn hb
    have hA : (c.AbortWithStatus code).index = 63 := rfl
    have hE : depth (c.AbortWithStatus code).events = depth c.events := depth_quiet _ _ rfl rfl
    have hB : ∀ j, balance j (c.AbortWithStatus code).events = balance j c.events :=
      fun j => balance_quiet j _ _ rfl rfl
    refine ⟨⟨hc, hp, by rw [hA]; omega, hn, by rw [hE]; exact hd0, by rw [hE]; exact hd62, ?_, ?_⟩,
      ?_⟩
    · rw [hA, hE]
      have : (nexts rest : Int) ≤ 1 := by exact_mod_cast hn
      omega
    · rw [hA]
      intro hlt
      omega
    · rintro c' ⟨hc', hp', h0', hbal', hd', hb', hx'⟩
      rw [hE] at hd' hb' hx'
      exact ⟨hc', hp', h0', fun j => (hbal' j).trans (hB j), hd', hb', hx'⟩
  isAborted := by
    rintro rest c ⟨hc, hp, h0, hn, hd0, hd62, hb, hx⟩
    rw [nexts_cons_other _ _ (by simp)] at hn hb
    have hE : depth (c.record (.isAborted c.IsAborted)).events = depth c.events :=
      depth_quiet _ _ rfl rfl
    have hB : ∀ j, balance j (c.record (.isAborted c.IsAborted)).events = balance j c.events :=
      fun j => balance_quiet j _ _ rfl rfl
    refine ⟨⟨hc, hp, h0, hn, by rw [hE]; exact hd0, by rw [hE]; exact hd62, ?_, ?_⟩, ?_⟩
    · rw [hE]
      exact hb
    · rw [hE]
      exact hx
    · rintro c' ⟨hc', hp', h0', hbal', hd', hb', hx'⟩
      rw [hE] at hd' hb' hx'
      exact ⟨hc', hp', h0', fun j => (hbal' j).trans (hB j), hd', hb', hx'⟩

/-- Every increment and index expression of an evaluation satisfies a property
that the preconditions of a sound specification imply at the places where
they are executed. -/
theorem probes_meet (S : ExecSpec) (hS : S.Sound) (Q : Probe → Prop)
    (hN : ∀ c, S.PN c → Q (.increment c.index))
    (hL : ∀ s c, S.PL s c → c.index < s → ¬ c.methodMismatch s →
      Q (.lookup c.index c.handlers.length))
    (hR : ∀ s c h c1, S.PL s c → c.index < s → ¬ c.methodMismatch s → c.handlerAt = some h →
      S.QC h (c.record (.enter c.index.toNat)) c1 → c1.panicked = false →
      Q (.increment c1.index)) :
    ∀ fuel,
      (∀ c, S.PN c → ∀ p ∈ probes fuel .Next c, Q p) ∧
      (∀ s c, S.PL s c → ∀ p ∈ probes fuel (.loop s) c, Q p) ∧
      (∀ body c, S.PC body c → ∀ p ∈ probes fuel (.call body) c, Q p) := by
  intro fuel
  induction fuel with
  | zero =>
    refine ⟨?_, ?_, ?_⟩ <;> intros <;> simp [probes] at *
  | succ fuel ih =>
    obtain ⟨ihN, ihL, ihC⟩ := ih
    have hspec := exec_meets_spec S hS fuel
    refine ⟨?_, ?_, ?_⟩
    · intro c hP p hp
      rw [probes] at hp
      rcases List.mem_cons.mp hp with rfl | hp
      · exact hN c hP
      · exact ihL _ _ (hS.next c hP).1 p hp
    · intro s c hP p hp
      rw [probes] at hp
      by_cases hlt : c.index < s
      · rw [if_pos hlt] at hp
        by_cases hm : c.methodMismatch s
        · rw [if_pos hm] at hp
          cases hp
        · rw [if_neg hm] at hp
          rcases List.mem_cons.mp hp with rfl | hp
          · exact hL s c hP hlt hm
          · cases hh : c.handlerAt with
            | none =>
              simp only [hh] at hp
              cases hp
            | some h =>
              simp only [hh] at hp
              obtain ⟨hPC, hK⟩ := hS.enter s c h hP hlt hm hh
              rcases List.mem_append.mp hp with hp | hp
              · exact ihC _ _ hPC p hp
              · cases h1 : exec fuel (.call h) (c.record (.enter c.index.toNat)) with
                | none =>
                  simp only [h1] at hp
                  cases hp
                | some c1 =>
                  simp only [h1] at hp
                  have hQC := hspec.2.2 _ _ _ hPC h1
                  cases hpan : c1.panicked with
                  | true =>
                    rw [hpan] at hp
                    simp only [if_true] at hp
                    cases hp
                  | false =>
                    rw [hpan] at hp
                    simp only [Bool.false_eq_true, if_false] at hp
                    rcases List.mem_cons.mp hp with rfl | hp
                    · exact hR s c h c1 hP hlt hm hh hQC hpan
                    · exact ihL _ _ ((hK c1 hQC).2 hpan).1 p hp
      · rw [if_neg hlt] at hp
        cases hp
    · intro body c hP p hp
      cases body with
      | nil =>
        rw [probes] at hp
        cases hp
      | cons a rest =>
        cases a with
        | Next =>
          rw [probes] at hp
          obtain ⟨hPN, hK⟩ := hS.callNext rest c hP
          rcases List.mem_append.mp hp with hp | hp
          · exact ihN _ hPN p hp
          · cases h1 : exec fuel .Next c with
            | none =>
              simp only [h1] at hp
              cases hp
            | some c1 =>
              simp only [h1] at hp
              have hQN := hspec.1 _ _ hPN h1
              cases hpan : c1.panicked with
              | true =>
                rw [hpan] at hp
                simp only [if_true] at hp
                cases hp
              | false =>
                rw [hpan] at hp
                simp only [Bool.false_eq_true, if_false] at hp
                exact ihC _ _ ((hK c1 hQN).2 hpan).1 p hp
        | Abort =>
          rw [probes] at hp
          exact ihC _ _ (hS.abort rest c hP).1 p hp
        | AbortWithStatus code =>
          rw [probes] at hp
          exact ihC _ _ (hS.abortWithStatus code rest c hP).1 p hp
        | IsAborted =>
          rw [probes] at hp
          exact ihC _ _ (hS.isAborted rest c hP).1 p hp

end Execution

section Paths

theorem Clean_data_ne_nil (p : String) : (path.Clean p).data ≠ [] := by
  unfold path.Clean
  split
  · decide
  · dsimp only
    split
    · split
      · decide
      · assumption
    · split
      · decide
      · assumption

theorem Clean_rooted (p : String) (h : p.data.head? = some '/') :
    (path.Clean p).data.head? = some '/' := by
  unfold path.Clean
  split
  · rename_i heq
    rw [heq] at h
    cases h
  · rename_i c t heq
    rw [heq] at h
    simp only [List.head?_cons, Option.some.injEq] at h
    subst h
    simp

theorem Join_data_ne_nil (a r : String) (hr : r ≠ "") : (path.Join a r).data ≠ [] := by
  unfold path.Join
  rw [if_neg hr, if_neg hr]
  split
  · exact Clean_data_ne_nil r
  · exact Clean_data_ne_nil _

theorem Join_rooted (a r : String) (hr : r ≠ "") (ha : a.data.head? = some '/') :
    (path.Join a r).data.head? = some '/' := by
  have hane : a ≠ "" := by
    intro h
    subst h
    cases ha
  unfold path.Join
  rw [if_neg hane, if_neg hr]
  apply Clean_rooted
  cases a with
  | mk l =>
    cases l with
    | nil => cases ha
    | cons c t =>
      simpa using ha

theorem lastChar_of_ne_nil (s : String) (h : s.data ≠ []) :
    ∃ c, s.data.getLast? = some c ∧ lastChar s = .ok c := by
  unfold lastChar
  cases hl : s.data.getLast? with
  | none =>
    rw [List.getLast?_eq_none_iff] at hl
    exact absurd hl h
  | some c => exact ⟨c, rfl, rfl⟩

/-- The value of `joinPaths` on a non-empty relative path. -/
theorem joinPaths_nonempty (a r : String) (hr : r ≠ "") :
    joinPaths a r = .ok (if endsInSlash r = true ∧ endsInSlash (path.Join a r) = false
      then path.Join a r ++ "/" else path.Join a r) := by
  have hrd : r.data ≠ [] := fun h => hr ((string_eq_empty_iff r).mpr h)
  obtain ⟨x, hx, hlx⟩ := lastChar_of_ne_nil r hrd
  obtain ⟨f, hf, hlf⟩ := lastChar_of_ne_nil _ (Join_data_ne_nil a r hr)
  unfold joinPaths endsInSlash
  rw [if_neg hr]
  simp only [hlx, hlf, hx, hf, Option.some.injEq, decide_eq_true_eq, decide_eq_false_iff_not]
  by_cases h1 : x = '/'
  · by_cases h2 : f = '/'
    · simp [h1, h2]
    · simp [h1, h2]
  · simp [h1]

theorem endsInSlash_append_slash (s : String) : endsInSlash (s ++ "/") = true := by
  unfold endsInSlash
  simp

theorem joinPaths_keeps_slash (a r p : String) (h : joinPaths a r = .ok p) (hr : r ≠ "")
    (hs : endsInSlash r = true) : endsInSlash p = true := by
  rw [joinPaths_nonempty a r hr] at h
  simp only [Except.ok.injEq] at h
  subst h
  by_cases h2 : endsInSlash (path.Join a r) = true
  · simp [hs, h2]
  · simp only [Bool.not_eq_true] at h2
    simp [hs, h2, endsInSlash_append_slash]

theorem joinPaths_total (a r : String) : ∃ p, joinPaths a r = .ok p := by
  by_cases hr : r = ""
  · subst hr
    exact ⟨a, rfl⟩
  · exact ⟨_, joinPaths_nonempty a r hr⟩

theorem joinPaths_rooted (a r p : String) (h : joinPaths a r = .ok p)
    (ha : a.data.head? = some '/') : p.data.head? = some '/' := by
  by_cases hr : r = ""
  · subst hr
    cases h
    exact ha
  · rw [joinPaths_nonempty a r hr] at h
    simp only [Except.ok.injEq] at h
    subst h
    have hj := Join_rooted a r hr ha
    split
    · have hne := Join_data_ne_nil a r hr
      rw [String.data_append]
      cases hd : (path.Join a r).data with
      | nil => exact absurd hd hne
      | cons c t =>
        rw [hd] at hj
        simpa using hj
    · exact hj

end Paths

section Metadata

theorem get_set (m : Entries) (k k' : String) (v : Value) :
    (m.set k v).get? k' = if k = k' then some v else m.get? k' := by
  induction m with
  | nil => simp [Entries.set, Entries.get?]
  | cons e rest ih =>
    obtain ⟨k1, v1⟩ := e
    by_cases h1 : k1 = k
    · subst h1
      by_cases h2 : k1 = k'
      · simp [Entries.set, Entries.get?, h2]
      · simp [Entries.set, Entries.get?, h2]
    · by_cases h2 : k = k'
      · subst h2
        simp [Entries.set, Entries.get?, h1, ih]
      · simp [Entries.set, Entries.get?, h1, h2, ih]

theorem get_eq_none_iff (m : Entries) (k : String) : m.get? k = none ↔ k ∉ m.keys := by
  induction m with
  | nil => simp [Entries.get?, Entries.keys]
  | cons e rest ih =>
    obtain ⟨k1, v1⟩ := e
    by_cases h1 : k1 = k
    · simp [Entries.get?, Entries.keys, h1]
    · have h1' : ¬ k = k1 := fun h => h1 h.symm
      simp only [Entries.keys] at ih
      simp [Entries.get?, Entries.keys, h1, h1', ih]

theorem mem_keys_iff (m : Entries) (k : String) : k ∈ m.keys ↔ ∃ v, m.get? k = some v := by
  rw [← not_iff_not, ← get_eq_none_iff]
  cases m.get? k <;> simp

theorem mem_keys_set (m : Entries) (k k' : String) (v : Value) :
    k' ∈ (m.set k v).keys ↔ k' = k ∨ k' ∈ m.keys := by
  rw [mem_keys_iff, mem_keys_iff, get_set]
  by_cases h : k = k'
  · simp [h]
  · have h' : ¬ k' = k := fun e => h e.symm
    simp [h, h']

theorem nodup_set (m : Entries) (k : String) (v : Value) (h : m.keys.Nodup) :
    (m.set k v).keys.Nodup := by
  induction m with
  | nil => simp [Entries.set, Entries.keys]
  | cons e rest ih =>
    obtain ⟨k1, v1⟩ := e
    simp only [Entries.keys, List.map_cons, List.nodup_cons] at h
    by_cases h1 : k1 = k
    · subst h1
      simp only [Entries.set, if_true, Entries.keys, List.map_cons, List.nodup_cons]
      exact h
    · simp only [Entries.set, if_neg h1, Entries.keys, List.map_cons, List.nodup_cons]
      refine ⟨?_, ih h.2⟩
      intro hmem
      have hmem' : k1 ∈ (Entries.set rest k v).keys := hmem
      rw [mem_keys_set] at hmem'
      rcases hmem' with hmem' | hmem'
      · exact h1 hmem'
      · exact h.1 hmem'

theorem get_overlay (m : Entries) :
    ∀ (acc : Entries) (k : String), m.keys.Nodup →
      (acc.overlay m).get? k = match m.get? k with
        | some v => some v
        | none => acc.get? k := by
  induction m with
  | nil =>
    intro acc k _
    rfl
  | cons e rest ih =>
    intro acc k hnd
    obtain ⟨k1, v1⟩ := e
    simp only [Entries.keys, List.map_cons, List.nodup_cons] at hnd
    have hstep : acc.overlay ((k1, v1) :: rest) = (acc.set k1 v1).overlay rest := rfl
    rw [hstep, ih _ _ hnd.2, get_set]
    by_cases h1 : k1 = k
    · subst h1
      have hnone : Entries.get? rest k1 = none := (get_eq_none_iff rest k1).mpr hnd.1
      simp [Entries.get?, hnone]
    · simp [Entries.get?, h1]

theorem nodup_overlay (m : Entries) :
    ∀ acc : Entries, acc.keys.Nodup → (acc.overlay m).keys.Nodup := by
  induction m with
  | nil =>
    intro acc h
    exact h
  | cons e rest ih =>
    intro acc h
    exact ih _ (nodup_set acc e.1 e.2 h)

theorem entries_snoc (σ : Maps) (acc : Entries) (md : MD)
    (h : ∀ r, md = some r → r < σ.length) : (σ ++ [acc]).entries md = σ.entries md := by
  cases md with
  | none => rfl
  | some r =>
    have hr := h r rfl
    simp only [Maps.entries, List.getD_eq_getElem?_getD]
    rw [List.getElem?_append_left hr]

theorem entries_snoc_new (σ : Maps) (acc : Entries) :
    (σ ++ [acc]).entries (some σ.length) = acc := by
  simp [Maps.entries, List.getD_eq_getElem?_getD]

theorem assign_snoc (σ : Maps) (acc : Entries) (k : String) (v : Value) :
    (σ ++ [acc]).assign σ.length k v = σ ++ [acc.set k v] := by
  unfold Maps.assign Maps.store
  rw [entries_snoc_new]
  simp

theorem assign_fold (σ : Maps) (m : Entries) :
    ∀ acc : Entries,
      m.foldl (fun τ kv => Maps.assign τ σ.length kv.1 kv.2) (σ ++ [acc]) =
        σ ++ [acc.overlay m] := by
  induction m with
  | nil =>
    intro acc
    rfl
  | cons e rest ih =>
    intro acc
    simp only [List.foldl_cons, assign_snoc, ih]
    rfl

theorem join_fold (σ : Maps) (mds : List MD) :
    ∀ acc : Entries, (∀ r, some r ∈ mds → r < σ.length) →
      mds.foldl
        (fun τ md => (Maps.entries τ md).foldl (fun τ kv => Maps.assign τ σ.length kv.1 kv.2) τ)
        (σ ++ [acc]) =
      σ ++ [(mds.map σ.entries).foldl Entries.overlay acc] := by
  induction mds with
  | nil =>
    intro acc _
    rfl
  | cons md rest ih =>
    intro acc hv
    have hmd : ∀ r, md = some r → r < σ.length := by
      intro r hr
      exact hv r (by simp [hr])
    simp only [List.foldl_cons, List.map_cons, entries_snoc σ acc md hmd, assign_fold]
    exact ih _ (fun r hr => hv r (List.mem_cons_of_mem _ hr))

/-- The result of `Join` on maps that exist in the store. -/
theorem Join_eq (σ : Maps) (mds : List MD) (hv : ∀ r, some r ∈ mds → r < σ.length) :
    metadata.Join σ mds =
      (σ ++ [(mds.map σ.entries).foldl Entries.overlay []], some σ.length) := by
  unfold metadata.Join
  simp only [join_fold σ mds [] hv]

theorem get_foldl_overlay (ms : List Entries) :
    ∀ (acc : Entries) (k : String), (∀ m ∈ ms, m.keys.Nodup) →
      (ms.foldl Entries.overlay acc).get? k = match lastBinding ms k with
        | some v => some v
        | none => acc.get? k := by
  induction ms with
  | nil =>
    intro acc k _
    rfl
  | cons m rest ih =>
    intro acc k hnd
    rw [List.foldl_cons, ih _ _ (fun x hx => hnd x (List.mem_cons_of_mem _ hx)),
      get_overlay m acc k (hnd m (List.mem_cons_self _ _))]
    simp only [lastBinding]
    cases lastBinding rest k <;> rfl

theorem nodup_foldl_overlay (ms : List Entries) :
    ∀ acc : Entries, acc.keys.Nodup → (ms.foldl Entries.overlay acc).keys.Nodup := by
  induction ms with
  | nil =>
    intro acc h
    exact h
  | cons m rest ih =>
    intro acc h
    exact ih _ (nodup_overlay m acc h)

theorem lastBinding_eq_none_iff (ms : List Entries) (k : String) :
    lastBinding ms k = none ↔ ∀ m ∈ ms, m.get? k = none := by
  induction ms with
  | nil => simp [lastBinding]
  | cons m rest ih =>
    simp only [lastBinding, List.mem_cons, forall_eq_or_imp]
    cases hl : lastBinding rest k with
    | none =>
      rw [hl] at ih
      exact ⟨fun h => ⟨h, ih.mp rfl⟩, fun h => h.1⟩
    | some v =>
      rw [hl] at ih
      refine ⟨fun h => ?_, fun h => ?_⟩
      · cases h
      · exact ih.mpr h.2

theorem lastBinding_eq_some_iff (ms : List Entries) (k : String) (v : Value) :
    lastBinding ms k = some v ↔
      ∃ (i : Nat) (m : Entries), ms[i]? = some m ∧ m.get? k = some v ∧
        ∀ (j : Nat) (m' : Entries), i < j → ms[j]? = some m' → m'.get? k = none := by
  induction ms with
  | nil => simp [lastBinding]
  | cons m rest ih =>
    simp only [lastBinding]
    cases hl : lastBinding rest k with
    | some w =>
      rw [hl] at ih
      constructor
      · intro h
        simp only [Option.some.injEq] at h
        subst h
        obtain ⟨i, m0, hi, hg, hlater⟩ := ih.mp rfl
        refine ⟨i + 1, m0, by rw [List.getElem?_cons_succ]; exact hi, hg, ?_⟩
        intro j m' hj hm'
        cases j with
        | zero => omega
        | succ j =>
          rw [List.getElem?_cons_succ] at hm'
          exact hlater j m' (by omega) hm'
      · rintro ⟨i, m0, hi, hg, hlater⟩
        cases i with
        | zero =>
          have hnone : lastBinding rest k = none := by
            rw [lastBinding_eq_none_iff]
            intro x hx
            obtain ⟨n, hn⟩ := List.getElem?_of_mem hx
            exact hlater (n + 1) x (by omega) (by rw [List.getElem?_cons_succ]; exact hn)
          rw [hl] at hnone
          cases hnone
        | succ i =>
          rw [List.getElem?_cons_succ] at hi
          have := ih.mpr ⟨i, m0, hi, hg, fun j m' hj hm' =>
            hlater (j + 1) m' (by omega) (by rw [List.getElem?_cons_succ]; exact hm')⟩
          simpa using this
    | none =>
      have hnone := (lastBinding_eq_none_iff rest k).mp hl
      constructor
      · intro h
        refine ⟨0, m, List.getElem?_cons_zero, h, ?_⟩
        intro j m' hj hm'
        cases j with
        | zero => omega
        | succ j =>
          rw [List.getElem?_cons_succ] at hm'
          exact hnone m' (List.getElem?_mem hm')
      · rintro ⟨i, m0, hi, hg, hlater⟩
        cases i with
        | zero =>
          simp only [List.getElem?_cons_zero, Option.some.injEq] at hi
          subst hi
          exact hg
        | succ i =>
          rw [List.getElem?_cons_succ] at hi
          rw [hnone m0 (List.getElem?_mem hi)] at hg
          cases hg

theorem Copy_eq (σ : Maps) (md : MD) (hv : ∀ r, md = some r → r < σ.length) :
    metadata.Copy σ md = (σ ++ [Entries.overlay [] (σ.entries md)], some σ.length) := by
  unfold metadata.Copy
  rw [Join_eq σ [md] (by
    intro r hr
    exact hv r (by simpa using (List.mem_singleton.mp hr).symm))]
  rfl

theorem get_nil (k : String) : Entries.get? [] k = none := rfl

theorem store_other (σ : Maps) (r r' : Nat) (m : Entries) (h : r ≠ r') :
    (σ.store r m).entries (some r') = σ.entries (some r') := by
  simp only [Maps.store, Maps.entries, List.getD_eq_getElem?_getD]
  rw [List.getElem?_set_ne h]

theorem WithContext_eq (σ : Maps) (ctx : context.Context) (md : MD)
    (hmd : metadata.FromContext ctx = (md, true)) (hv : ∀ r, md = some r → r < σ.length) :
    metadata.WithContext σ ctx =
      (σ ++ [Entries.overlay [] (σ.entries md)],
        metadata.NewContext .Background (some σ.length)) := by
  unfold metadata.WithContext
  rw [hmd]
  simp only [Copy_eq σ md hv]

theorem index_of_get (m : Entries) (k : String) (v : Value) (h : m.get? k = some v) :
    m.index k = v := by
  simp [Entries.index, h]

theorem index_of_absent (m : Entries) (k : String) (h : m.get? k = none) :
    m.index k = .nil := by
  simp [Entries.index, h]

theorem Bool_of_value (σ : Maps) (ctx : context.Context) (key : String) (md : MD)
    (hmd : metadata.FromContext ctx = (md, true)) :
    metadata.Bool σ ctx key =
      match (σ.entries md).index key with
      | .bool b => b
      | .str s => (strconv.ParseBool s).1
      | _ => false := by
  unfold metadata.Bool
  rw [hmd]

theorem Bool_of_none (σ : Maps) (ctx : context.Context) (key : String)
    (hmd : (metadata.FromContext ctx).2 = false) : metadata.Bool σ ctx key = false := by
  unfold metadata.Bool
  cases hf : metadata.FromContext ctx with
  | mk md ok =>
    rw [hf] at hmd
    simp only at hmd
    subst hmd
    rfl

end Metadata

section LongChain

set_option maxRecDepth 1000000

/-- The run of the chain of 32 wrapping middleware on a GET request: no panic,
one IsAborted call that gives true, made just before the first middleware
returns. -/
theorem longWrap_run :
    (exec (chainFuel exLongWrapRoute.handlers) .Next (exLongWrapRoute.newContext exGet)).map
      (fun c => (c.panicked, c.events.count (.isAborted true),
        c.events.drop (c.events.length - 2))) =
      some (false, 1, [.isAborted true, .leave 0]) := by
  decide

end LongChain

section Slices

theorem owned_lt (μ : Arrays H) (s : Slice) (h : s.Owned μ) : s.array < μ.length := by
  obtain ⟨_, cells, hc, _⟩ := h
  exact (List.getElem?_eq_some_iff.mp hc).1

theorem cells_of_owned (μ : Arrays H) (s : Slice) (cells : List H)
    (hc : μ[s.array]? = some cells) : μ.cells s = cells := by
  simp [Arrays.cells, List.getD_eq_getElem?_getD, hc]

theorem view_length (μ : Arrays H) (s : Slice) (h : s.Owned μ) : (μ.view s).length = s.len := by
  obtain ⟨hle, cells, hc, hlen⟩ := h
  rw [Arrays.view, cells_of_owned μ s cells hc, List.length_take]
  omega

theorem view_snoc (μ : Arrays H) (a : List H) (s : Slice) (h : s.array < μ.length) :
    Arrays.view (μ ++ [a]) s = μ.view s := by
  simp only [Arrays.view, Arrays.cells, List.getD_eq_getElem?_getD]
  rw [List.getElem?_append_left h]

theorem owned_snoc (μ : Arrays H) (a : List H) (s : Slice) (h : s.Owned μ) :
    s.Owned (μ ++ [a]) := by
  have hlt := owned_lt μ s h
  obtain ⟨hle, cells, hc, hlen⟩ := h
  exact ⟨hle, cells, by rw [List.getElem?_append_left hlt]; exact hc, hlen⟩

theorem view_set_ne (μ : Arrays H) (k : Nat) (a : List H) (s : Slice) (h : s.array ≠ k) :
    Arrays.view (μ.set k a) s = μ.view s := by
  simp only [Arrays.view, Arrays.cells, List.getD_eq_getElem?_getD]
  rw [List.getElem?_set_ne (Ne.symm h)]

theorem owned_set_ne (μ : Arrays H) (k : Nat) (a : List H) (s : Slice) (h : s.array ≠ k)
    (ho : s.Owned μ) : s.Owned (μ.set k a) := by
  obtain ⟨hle, cells, hc, hlen⟩ := ho
  exact ⟨hle, cells, by rw [List.getElem?_set_ne (Ne.symm h)]; exact hc, hlen⟩

theorem set_snoc (μ : Arrays H) (a b : List H) : (μ ++ [a]).set μ.length b = μ ++ [b] := by
  simp

theorem overwrite_length (cells : List H) (pos : Nat) (xs : List H)
    (h : pos + xs.length ≤ cells.length) : (overwrite cells pos xs).length = cells.length := by
  simp only [overwrite, List.length_append, List.length_take, List.length_drop]
  omega

theorem take_overwrite (cells : List H) (pos : Nat) (xs : List H) (h : pos ≤ cells.length) :
    (overwrite cells pos xs).take (pos + xs.length) = cells.take pos ++ xs := by
  have hl : (cells.take pos ++ xs).length = pos + xs.length := by
    simp only [List.length_append, List.length_take]
    omega
  unfold overwrite
  rw [← hl, List.take_left']
  rfl

theorem overwrite_pad (w hs : List H) (k : Nat) (d : H) :
    overwrite (w ++ List.replicate k d) w.length hs =
      (w ++ hs) ++ List.replicate (k - hs.length) d := by
  unfold overwrite
  rw [List.take_left', List.drop_append, List.drop_replicate]
  rfl

theorem append_view [Inhabited H] (grow : Nat → Nat → Nat) (μ : Arrays H) (s : Slice)
    (xs : List H) (h : s.Owned μ) :
    Arrays.view (μ.append grow s xs).1 (μ.append grow s xs).2 = μ.view s ++ xs := by
  have hlt := owned_lt μ s h
  have hvl := view_length μ s h
  obtain ⟨hle, cells, hc, hlen⟩ := h
  have hcells := cells_of_owned μ s cells hc
  unfold Arrays.append
  split
  · rename_i hfit
    simp only [Arrays.view, Arrays.cells, List.getD_eq_getElem?_getD]
    rw [List.getElem?_set_self hlt]
    simp only [Option.getD_some]
    rw [← List.getD_eq_getElem?_getD, ← Arrays.cells, hcells,
      take_overwrite cells s.len xs (by omega)]
  · simp only [Arrays.view, Arrays.cells, List.getD_eq_getElem?_getD,
      List.getElem?_concat_length, Option.getD_some]
    rw [← List.getD_eq_getElem?_getD, ← Arrays.cells, ← Arrays.view, List.append_assoc,
      ← List.append_assoc, ← hvl, ← List.length_append, List.take_left']
    rfl

theorem append_grows [Inhabited H] (grow : Nat → Nat → Nat) (μ : Arrays H) (s : Slice)
    (xs : List H) (h : s.Owned μ) :
    Grows μ s (μ.append grow s xs).1 (μ.append grow s xs).2 := by
  have hlt := owned_lt μ s h
  have hvl := view_length μ s h
  obtain ⟨hle, cells, hc, hlen⟩ := h
  have hcells := cells_of_owned μ s cells hc
  unfold Arrays.append
  split
  · rename_i hfit
    refine ⟨⟨hfit, overwrite cells s.len xs, ?_, ?_⟩, ?_, Or.inl rfl, ?_⟩
    · rw [hcells]
      exact List.getElem?_set_self hlt
    · rw [overwrite_length cells s.len xs (by omega)]
      exact hlen
    · simp
    · intro t ht hto
      exact ⟨owned_set_ne μ _ _ t ht hto, view_set_ne μ _ _ t ht⟩
  · rename_i hfit
    refine ⟨⟨le_max_left _ _, _, List.getElem?_concat_length _ _, ?_⟩, by simp, Or.inr (le_refl _),
      ?_⟩
    · simp only [List.length_append, List.length_replicate, hvl]
      have := le_max_left (s.len + xs.length) (grow s.cap (s.len + xs.length))
      omega
    · intro t _ hto
      exact ⟨owned_snoc μ _ t hto, view_snoc μ _ t (owned_lt μ t hto)⟩

theorem Grows.trans {μ μ1 μ2 : Arrays H} {s s1 s2 : Slice} (h1 : Grows μ s μ1 s1)
    (h2 : Grows μ1 s1 μ2 s2) : Grows μ s μ2 s2 := by
  obtain ⟨_, hl1, ha1, hf1⟩ := h1
  obtain ⟨ho2, hl2, ha2, hf2⟩ := h2
  refine ⟨ho2, le_trans hl1 hl2, ?_, ?_⟩
  · rcases ha2 with ha2 | ha2
    · rcases ha1 with ha1 | ha1
      · exact Or.inl (ha2.trans ha1)
      · exact Or.inr (by omega)
    · exact Or.inr (by omega)
  · intro t ht hto
    have hlt := owned_lt μ t hto
    obtain ⟨hto1, hv1⟩ := hf1 t ht hto
    have hne : t.array ≠ s1.array := by
      rcases ha1 with ha1 | ha1
      · rw [ha1]
        exact ht
      · omega
    obtain ⟨hto2, hv2⟩ := hf2 t hne hto1
    exact ⟨hto2, hv2.trans hv1⟩

theorem Grows.refl (μ : Arrays H) (s : Slice) (h : s.Owned μ) : Grows μ s μ s :=
  ⟨h, le_refl _, Or.inl rfl, fun _ _ hto => ⟨hto, rfl⟩⟩

theorem UseFunc_spec [Inhabited H] (grow : Nat → Nat → Nat) (g : RouterGroupM) (μ : Arrays H)
    (ms : List H) (h : g.Handlers.Owned μ) :
    Grows μ g.Handlers (g.UseFunc grow μ ms).1 (g.UseFunc grow μ ms).2.Handlers ∧
    Arrays.view (g.UseFunc grow μ ms).1 (g.UseFunc grow μ ms).2.Handlers =
      μ.view g.Handlers ++ ms ∧
    (g.UseFunc grow μ ms).2.basePath = g.basePath ∧ (g.UseFunc grow μ ms).2.root = g.root :=
  ⟨append_grows grow μ g.Handlers ms h, append_view grow μ g.Handlers ms h, rfl, rfl⟩

theorem Use_spec [Inhabited H] (grow : Nat → Nat → Nat) (ms : List H) :
    ∀ (g : RouterGroupM) (μ : Arrays H), g.Handlers.Owned μ →
      Grows μ g.Handlers (g.Use grow μ ms).1 (g.Use grow μ ms).2.Handlers ∧
      Arrays.view (g.Use grow μ ms).1 (g.Use grow μ ms).2.Handlers = μ.view g.Handlers ++ ms ∧
      (g.Use grow μ ms).2.basePath = g.basePath ∧ (g.Use grow μ ms).2.root = g.root := by
  induction ms with
  | nil =>
    intro g μ h
    exact ⟨Grows.refl μ _ h, by simp [RouterGroupM.Use], rfl, rfl⟩
  | cons m rest ih =>
    intro g μ h
    have hg := append_grows grow μ g.Handlers [m] h
    have hv := append_view grow μ g.Handlers [m] h
    obtain ⟨hg2, hv2, hb, hr⟩ := ih { g with Handlers := (μ.append grow g.Handlers [m]).2 }
      (μ.append grow g.Handlers [m]).1 hg.1
    refine ⟨hg.trans hg2, ?_, hb, hr⟩
    show Arrays.view (RouterGroupM.Use grow _ _ rest).1 (RouterGroupM.Use grow _ _ rest).2.Handlers
      = _
    rw [hv2]
    show Arrays.view (μ.append grow g.Handlers [m]).1 (μ.append grow g.Handlers [m]).2 ++ rest = _
    rw [hv]
    simp

theorem cells_snoc_new (μ : Arrays H) (a : List H) (len cap : Nat) :
    Arrays.cells (μ ++ [a]) { array := μ.length, len := len, cap := cap } = a := by
  simp [Arrays.cells, List.getD_eq_getElem?_getD]

theorem copy_snoc (μ : Arrays H) (w hs : List H) (k n : Nat) (d : H) (h : hs.length ≤ k) :
    Arrays.copy (μ ++ [w ++ List.replicate k d])
        { array := μ.length, len := w.length + k, cap := n } w.length hs =
      μ ++ [(w ++ hs) ++ List.replicate (k - hs.length) d] := by
  unfold Arrays.copy
  rw [cells_snoc_new]
  have htake : hs.take (w.length + k - w.length) = hs := by
    rw [List.take_of_length_le]
    omega
  simp only [htake, overwrite_pad, set_snoc]

theorem copyGroups_spec (μ : Arrays H) (d : H) (groups : List (List H)) :
    ∀ (w : List H) (k n : Nat), (groups.map List.length).sum ≤ k →
      copyGroups { array := μ.length, len := w.length + k, cap := n } groups
          (μ ++ [w ++ List.replicate k d]) w.length =
        μ ++ [w ++ groups.flatten ++ List.replicate (k - (groups.map List.length).sum) d] := by
  induction groups with
  | nil =>
    intro w k n _
    simp [copyGroups]
  | cons hs rest ih =>
    intro w k n hk
    simp only [List.map_cons, List.sum_cons] at hk
    have hstep := ih (w ++ hs) (k - hs.length) n (by omega)
    have hslice : ({ array := μ.length, len := (w ++ hs).length + (k - hs.length), cap := n }
        : Slice) = { array := μ.length, len := w.length + k, cap := n } := by
      simp only [List.length_append, Slice.mk.injEq, true_and, and_true]
      omega
    rw [hslice, List.length_append] at hstep
    simp only [copyGroups, copy_snoc μ w hs k n d (by omega), List.flatten_cons,
      List.map_cons, List.sum_cons]
    rw [hstep]
    simp only [List.append_assoc, Nat.sub_sub]

theorem combineHandlers_spec [Inhabited H] (g : RouterGroupM) (μ : Arrays H)
    (groups : List (List H)) (h : g.Handlers.Owned μ)
    (hlen : ((g.Handlers.len + (groups.map List.length).sum : Nat) : Int) < _abortIndex) :
    g.combineHandlers μ groups =
      .ok (μ ++ [μ.view g.Handlers ++ groups.flatten],
        { array := μ.length, len := g.Handlers.len + (groups.map List.length).sum,
          cap := g.Handlers.len + (groups.map List.length).sum }) := by
  have hvl := view_length μ g.Handlers h
  have hlt := owned_lt μ g.Handlers h
  unfold RouterGroupM.combineHandlers
  simp only [ge_iff_le]
  rw [if_neg (not_le.mpr hlen)]
  unfold Arrays.make
  simp only [view_snoc μ _ g.Handlers hlt]
  have hfirst := copy_snoc μ [] (μ.view g.Handlers) (g.Handlers.len + (groups.map List.length).sum)
    (g.Handlers.len + (groups.map List.length).sum) default (by omega)
  simp only [List.nil_append, List.length_nil, Nat.zero_add, hvl] at hfirst
  rw [hfirst]
  have hloop := copyGroups_spec μ default groups (μ.view g.Handlers)
    ((groups.map List.length).sum) (g.Handlers.len + (groups.map List.length).sum) (le_refl _)
  simp only [hvl, Nat.sub_self, List.replicate_zero, List.append_nil] at hloop
  have hk : g.Handlers.len + (groups.map List.length).sum - g.Handlers.len =
      (groups.map List.length).sum := by omega
  rw [hk, hloop]

theorem getElem?_set_cases {α : Type} (l : List α) (i j : Nat) (a x : α)
    (h : (l.set i a)[j]? = some x) : (j = i ∧ x = a) ∨ (j ≠ i ∧ l[j]? = some x) := by
  by_cases hij : i = j
  · subst hij
    rw [List.getElem?_set] at h
    simp only [if_true] at h
    split at h
    · exact Or.inl ⟨rfl, (Option.some.inj h).symm⟩
    · cases h
  · rw [List.getElem?_set_ne hij] at h
    exact Or.inr ⟨fun e => hij e.symm, h⟩

theorem getElem?_snoc_cases {α : Type} (l : List α) (j : Nat) (a x : α)
    (h : (l ++ [a])[j]? = some x) : (j < l.length ∧ l[j]? = some x) ∨ (j = l.length ∧ x = a) := by
  by_cases hj : j < l.length
  · rw [List.getElem?_append_left hj] at h
    exact Or.inl ⟨hj, h⟩
  · have hlen := (List.getElem?_eq_some_iff.mp h).1
    simp only [List.length_append, List.length_singleton] at hlen
    have hj' : j = l.length := by omega
    subst hj'
    rw [List.getElem?_concat_length] at h
    exact Or.inr ⟨rfl, (Option.some.inj h).symm⟩

theorem Inv_New : (World.New : World H).Inv := by
  refine ⟨?_, ?_, ?_, ?_⟩
  · intro g hg
    simp only [World.New, List.mem_singleton] at hg
    subst hg
    exact ⟨le_refl _, [], rfl, rfl⟩
  · intro c hc
    simp [World.New] at hc
  · intro i j g g' hi hj hij
    have h1 := (List.getElem?_eq_some_iff.mp hi).1
    have h2 := (List.getElem?_eq_some_iff.mp hj).1
    simp only [World.New, List.length_singleton] at h1 h2
    omega
  · intro i g _ c hc
    simp [World.New] at hc

/-- Replacing the handler slice of one group by a slice grown from it keeps
the invariant and leaves every other handler list and every chain as it was. -/
theorem Inv_update (w : World H) (i : Nat) (g g' : RouterGroupM) (μ' : Arrays H)
    (hinv : w.Inv) (hg : w.groups[i]? = some g) (hgrow : Grows w.arrays g.Handlers μ' g'.Handlers) :
    World.Inv { arrays := μ', groups := w.groups.set i g', chains := w.chains } ∧
    (∀ (j : Nat) (c : RouterGroupM), j ≠ i → w.groups[j]? = some c →
      (w.groups.set i g')[j]? = some c ∧ μ'.view c.Handlers = w.arrays.view c.Handlers) ∧
    (∀ c ∈ w.chains, μ'.view c = w.arrays.view c) ∧
    (w.groups.set i g')[i]? = some g' := by
  obtain ⟨hog, hoc, hgg, hgc⟩ := hinv
  obtain ⟨ho', hlen', harr', hframe⟩ := hgrow
  have hother : ∀ (j : Nat) (c : RouterGroupM), j ≠ i → w.groups[j]? = some c →
      c.Handlers.Owned μ' ∧ μ'.view c.Handlers = w.arrays.view c.Handlers ∧
      c.Handlers.array ≠ g'.Handlers.array := by
    intro j c hj hc
    have hne := hgg i j g c hg hc (fun e => hj e.symm)
    have hown := hog c (List.getElem?_mem hc)
    obtain ⟨h1, h2⟩ := hframe c.Handlers hne hown
    refine ⟨h1, h2, ?_⟩
    rcases harr' with e | e
    · rw [e]
      exact hne
    · have := owned_lt _ _ hown
      omega
  have hchain : ∀ c ∈ w.chains, c.Owned μ' ∧ μ'.view c = w.arrays.view c ∧
      c.array ≠ g'.Handlers.array := by
    intro c hc
    have hne := hgc i g hg c hc
    have hown := hoc c hc
    obtain ⟨h1, h2⟩ := hframe c hne hown
    refine ⟨h1, h2, ?_⟩
    rcases harr' with e | e
    · rw [e]
      exact hne
    · have := owned_lt _ _ hown
      omega
  have hi : i < w.groups.length := (List.getElem?_eq_some_iff.mp hg).1
  refine ⟨⟨?_, ?_, ?_, ?_⟩, ?_, ?_, ?_⟩
  · intro x hx
    obtain ⟨j, hj⟩ := List.getElem?_of_mem hx
    rcases getElem?_set_cases _ _ _ _ _ hj with ⟨_, rfl⟩ | ⟨hne, hold⟩
    · exact ho'
    · exact (hother j x hne hold).1
  · intro c hc
    exact (hchain c hc).1
  · intro a b x y ha hb hab
    rcases getElem?_set_cases _ _ _ _ _ ha with ⟨ha1, rfl⟩ | ⟨ha1, ha2⟩
    · rcases getElem?_set_cases _ _ _ _ _ hb with ⟨hb1, rfl⟩ | ⟨hb1, hb2⟩
      · omega
      · exact (hother b y hb1 hb2).2.2
    · rcases getElem?_set_cases _ _ _ _ _ hb with ⟨hb1, rfl⟩ | ⟨hb1, hb2⟩
      · exact fun e => (hother a x ha1 ha2).2.2 e.symm
      · exact hgg a b x y ha2 hb2 hab
  · intro a x ha c hc
    rcases getElem?_set_cases _ _ _ _ _ ha with ⟨_, rfl⟩ | ⟨ha1, ha2⟩
    · exact (hchain c hc).2.2
    · exact hgc a x ha2 c hc
  · intro j c hj hc
    exact ⟨by rw [List.getElem?_set_ne (fun e => hj e.symm)]; exact hc, (hother j c hj hc).2.1⟩
  · intro c hc
    exact (hchain c hc).2.1
  · exact List.getElem?_set_self hi

/-- Adding a slice in a newly allocated array, for a new group or for a new
chain, keeps the invariant. -/
theorem Inv_alloc (w : World H) (cells : List H) (n : Nat) (hinv : w.Inv)
    (hcells : cells.length = n) :
    (∀ child : RouterGroupM,
      child.Handlers = { array := w.arrays.length, len := n, cap := n } →
      World.Inv { arrays := w.arrays ++ [cells], groups := w.groups ++ [child],
                  chains := w.chains }) ∧
    World.Inv { arrays := w.arrays ++ [cells], groups := w.groups,
                chains := w.chains ++ [{ array := w.arrays.length, len := n, cap := n }] } := by
  obtain ⟨hog, hoc, hgg, hgc⟩ := hinv
  have hnew : Slice.Owned (w.arrays ++ [cells])
      { array := w.arrays.length, len := n, cap := n } :=
    ⟨le_refl _, cells, List.getElem?_concat_length _ _, hcells⟩
  constructor
  · intro child hchild
    refine ⟨?_, ?_, ?_, ?_⟩
    · intro x hx
      rcases List.mem_append.mp hx with hx | hx
      · exact owned_snoc _ _ _ (hog x hx)
      · rw [List.mem_singleton.mp hx, hchild]
        exact hnew
    · intro c hc
      exact owned_snoc _ _ _ (hoc c hc)
    · intro a b x y ha hb hab
      rcases getElem?_snoc_cases _ _ _ _ ha with ⟨_, ha2⟩ | ⟨ha1, rfl⟩
      · rcases getElem?_snoc_cases _ _ _ _ hb with ⟨_, hb2⟩ | ⟨hb1, rfl⟩
        · exact hgg a b x y ha2 hb2 hab
        · have := owned_lt _ _ (hog x (List.getElem?_mem ha2))
          rw [hchild]
          exact fun e => by simp only at e; omega
      · rcases getElem?_snoc_cases _ _ _ _ hb with ⟨_, hb2⟩ | ⟨hb1, rfl⟩
        · have := owned_lt _ _ (hog y (List.getElem?_mem hb2))
          rw [hchild]
          exact fun e => by simp only at e; omega
        · omega
    · intro a x ha c hc
      rcases getElem?_snoc_cases _ _ _ _ ha with ⟨_, ha2⟩ | ⟨_, rfl⟩
      · exact hgc a x ha2 c hc
      · have := owned_lt _ _ (hoc c hc)
        rw [hchild]
        exact fun e => by simp only at e; omega
  · refine ⟨?_, ?_, hgg, ?_⟩
    · intro x hx
      exact owned_snoc _ _ _ (hog x hx)
    · intro c hc
      rcases List.mem_append.mp hc with hc | hc
      · exact owned_snoc _ _ _ (hoc c hc)
      · rw [List.mem_singleton.mp hc]
        exact hnew
    · intro a x ha c hc
      rcases List.mem_append.mp hc with hc | hc
      · exact hgc a x ha c hc
      · rw [List.mem_singleton.mp hc]
        have := owned_lt _ _ (hog x (List.getElem?_mem ha))
        exact fun e => by simp only at e; omega

theorem Group_spec [Inhabited H] (w : World H) (i : Nat) (g : RouterGroupM) (p : String)
    (ms : List H) (hinv : w.Inv) (hg : w.groups[i]? = some g)
    (hlen : (((w.arrays.view g.Handlers).length + ms.length : Nat) : Int) < _abortIndex) :
    ∃ q, joinPaths g.basePath p = .ok q ∧
      w.Group i p ms = .ok
        { arrays := w.arrays ++ [w.arrays.view g.Handlers ++ ms]
          groups := w.groups ++
            [{ Handlers := { array := w.arrays.length, len := g.Handlers.len + ms.length,
                             cap := g.Handlers.len + ms.length },
               basePath := q, root := false, baseConfig := none }]
          chains := w.chains } := by
  have hown := hinv.1 g (List.getElem?_mem hg)
  have hvl := view_length _ _ hown
  obtain ⟨q, hq⟩ := joinPaths_total g.basePath p
  refine ⟨q, hq, ?_⟩
  have hc := combineHandlers_spec g w.arrays [ms] hown (by
    simp only [List.map_cons, List.map_nil, List.sum_cons, List.sum_nil, Nat.add_zero]
    rw [← hvl]
    exact hlen)
  simp only [List.map_cons, List.map_nil, List.sum_cons, List.sum_nil, Nat.add_zero,
    List.flatten_cons, List.flatten_nil, List.append_nil] at hc
  simp only [World.Group, hg, RouterGroupM.Group, hc, hq]

theorem handle_spec [Inhabited H] (w : World H) (i : Nat) (g : RouterGroupM)
    (injected hs : List H) (hinv : w.Inv) (hg : w.groups[i]? = some g)
    (hlen : (((w.arrays.view g.Handlers).length + (injected.length + hs.length) : Nat) : Int)
      < _abortIndex) :
    w.handle i injected hs = .ok
      { arrays := w.arrays ++ [w.arrays.view g.Handlers ++ (injected ++ hs)]
        groups := w.groups
        chains := w.chains ++
          [{ array := w.arrays.length, len := g.Handlers.len + (injected.length + hs.length),
             cap := g.Handlers.len + (injected.length + hs.length) }] } := by
  have hown := hinv.1 g (List.getElem?_mem hg)
  have hvl := view_length _ _ hown
  have hc := combineHandlers_spec g w.arrays [injected, hs] hown (by
    simp only [List.map_cons, List.map_nil, List.sum_cons, List.sum_nil, Nat.add_zero]
    rw [← hvl]
    exact hlen)
  simp only [List.map_cons, List.map_nil, List.sum_cons, List.sum_nil, Nat.add_zero,
    List.flatten_cons, List.flatten_nil, List.append_nil] at hc
  simp only [World.handle, hg, hc]

theorem combineHandlers_error [Inhabited H] (g : RouterGroupM) (μ : Arrays H)
    (groups : List (List H))
    (hlen : ¬ ((g.Handlers.len + (groups.map List.length).sum : Nat) : Int) < _abortIndex) :
    g.combineHandlers μ groups = .error "too many handlers" := by
  unfold RouterGroupM.combineHandlers
  simp only [ge_iff_le]
  rw [if_pos (not_lt.mp hlen)]

theorem Inv_Group [Inhabited H] (w w' : World H) (i : Nat) (p : String) (ms : List H)
    (hinv : w.Inv) (h : w.Group i p ms = .ok w') : w'.Inv := by
  cases hg : w.groups[i]? with
  | none => simp [World.Group, hg] at h
  | some g =>
    have hown := hinv.1 g (List.getElem?_mem hg)
    have hvl := view_length _ _ hown
    by_cases hlen : (((w.arrays.view g.Handlers).length + ms.length : Nat) : Int) < _abortIndex
    · obtain ⟨q, _, hq⟩ := Group_spec w i g p ms hinv hg hlen
      rw [hq] at h
      cases h
      exact (Inv_alloc w _ (g.Handlers.len + ms.length) hinv
        (by simp [hvl])).1 _ rfl
    · have he := combineHandlers_error g w.arrays [ms] (by
        simp only [List.map_cons, List.map_nil, List.sum_cons, List.sum_nil, Nat.add_zero]
        rw [← hvl]
        exact hlen)
      simp [World.Group, hg, RouterGroupM.Group, he] at h

theorem Inv_handle [Inhabited H] (w w' : World H) (i : Nat) (injected hs : List H)
    (hinv : w.Inv) (h : w.handle i injected hs = .ok w') : w'.Inv := by
  cases hg : w.groups[i]? with
  | none => simp [World.handle, hg] at h
  | some g =>
    have hown := hinv.1 g (List.getElem?_mem hg)
    have hvl := view_length _ _ hown
    by_cases hlen : (((w.arrays.view g.Handlers).length + (injected.length + hs.length) : Nat)
        : Int) < _abortIndex
    · rw [handle_spec w i g injected hs hinv hg hlen] at h
      cases h
      exact (Inv_alloc w _ (g.Handlers.len + (injected.length + hs.length)) hinv
        (by simp [hvl])).2
    · have he := combineHandlers_error g w.arrays [injected, hs] (by
        simp only [List.map_cons, List.map_nil, List.sum_cons, List.sum_nil, Nat.add_zero]
        rw [← hvl]
        exact hlen)
      simp [World.handle, hg, he] at h

/-- What `UseFunc` on the group with number `i` does to the handler lists. -/
theorem UseFunc_frame [Inhabited H] (grow : Nat → Nat → Nat) (w : World H) (i : Nat)
    (later : List H) (hinv : w.Inv) :
    (w.UseFunc grow i later).Inv ∧
    (w.UseFunc grow i later).routeChains = w.routeChains ∧
    (∀ j, j ≠ i → (w.UseFunc grow i later).handlersOf j = w.handlersOf j) ∧
    (w.UseFunc grow i later).handlersOf i = (w.handlersOf i).map (fun hs => hs ++ later) ∧
    (w.UseFunc grow i later).groups.length = w.groups.length := by
  cases hg : w.groups[i]? with
  | none =>
    have hw : w.UseFunc grow i later = w := by simp only [World.UseFunc, hg]
    rw [hw]
    exact ⟨hinv, rfl, fun _ _ => rfl, by simp [World.handlersOf, hg], rfl⟩
  | some g =>
    have hown := hinv.1 g (List.getElem?_mem hg)
    obtain ⟨hgrow, hview, _, _⟩ := UseFunc_spec grow g w.arrays later hown
    obtain ⟨hinv', hgroups, hchains, hself⟩ := Inv_update w i g (g.UseFunc grow w.arrays later).2
      (g.UseFunc grow w.arrays later).1 hinv hg hgrow
    simp only [World.UseFunc, hg, World.handlersOf, World.routeChains]
    refine ⟨hinv', ?_, ?_, ?_, by simp⟩
    · exact List.map_congr_left hchains
    · intro j hj
      cases hc : w.groups[j]? with
      | none =>
        rw [List.getElem?_set_ne (fun e => hj e.symm), hc]
        rfl
      | some c =>
        obtain ⟨h1, h2⟩ := hgroups j c hj hc
        rw [h1]
        simp only [Option.map_some', h2]
    · rw [hself]
      simp only [Option.map_some', hview]

/-- What `Use` on the group with number `i` does to the handler lists. -/
theorem Use_frame [Inhabited H] (grow : Nat → Nat → Nat) (w : World H) (i : Nat)
    (later : List H) (hinv : w.Inv) :
    (w.Use grow i later).Inv ∧
    (w.Use grow i later).routeChains = w.routeChains ∧
    (∀ j, j ≠ i → (w.Use grow i later).handlersOf j = w.handlersOf j) ∧
    (w.Use grow i later).handlersOf i = (w.handlersOf i).map (fun hs => hs ++ later) ∧
    (w.Use grow i later).groups.length = w.groups.length := by
  cases hg : w.groups[i]? with
  | none =>
    have hw : w.Use grow i later = w := by simp only [World.Use, hg]
    rw [hw]
    exact ⟨hinv, rfl, fun _ _ => rfl, by simp [World.handlersOf, hg], rfl⟩
  | some g =>
    have hown := hinv.1 g (List.getElem?_mem hg)
    obtain ⟨hgrow, hview, _, _⟩ := Use_spec grow later g w.arrays hown
    obtain ⟨hinv', hgroups, hchains, hself⟩ := Inv_update w i g (g.Use grow w.arrays later).2
      (g.Use grow w.arrays later).1 hinv hg hgrow
    simp only [World.Use, hg, World.handlersOf, World.routeChains]
    refine ⟨hinv', ?_, ?_, ?_, by simp⟩
    · exact List.map_congr_left hchains
    · intro j hj
      cases hc : w.groups[j]? with
      | none =>
        rw [List.getElem?_set_ne (fun e => hj e.symm), hc]
        rfl
      | some c =>
        obtain ⟨h1, h2⟩ := hgroups j c hj hc
        rw [h1]
        simp only [Option.map_some', h2]
    · rw [hself]
      simp only [Option.map_some', hview]

theorem Inv_step [Inhabited H] (grow : Nat → Nat → Nat) (w : World H) (op : Op H)
    (hinv : w.Inv) : (w.step grow op).Inv := by
  cases op with
  | UseFunc i ms => exact (UseFunc_frame grow w i ms hinv).1
  | Use i ms => exact (Use_frame grow w i ms hinv).1
  | Group i p ms =>
    simp only [World.step]
    cases h : w.Group i p ms with
    | error msg => exact hinv
    | ok w' => exact Inv_Group w w' i p ms hinv h
  | handle i injected hs =>
    simp only [World.step]
    cases h : w.handle i injected hs with
    | error msg => exact hinv
    | ok w' => exact Inv_handle w w' i injected hs hinv h

theorem Inv_foldl [Inhabited H] (grow : Nat → Nat → Nat) (ops : List (Op H)) :
    ∀ w : World H, w.Inv → (ops.foldl (World.step grow) w).Inv := by
  induction ops with
  | nil =>
    intro w h
    exact h
  | cons op rest ih =>
    intro w h
    exact ih _ (Inv_step grow w op h)

/-- Every state reached from `New` satisfies the invariant. -/
theorem Inv_run [Inhabited H] (grow : Nat → Nat → Nat) (ops : List (Op H)) :
    (World.run grow ops).Inv :=
  Inv_foldl grow ops World.New Inv_New

theorem run_append [Inhabited H] (grow : Nat → Nat → Nat) (ops more : List (Op H)) :
    World.run grow (ops ++ more) = more.foldl (World.step grow) (World.run grow ops) := by
  simp [World.run, List.foldl_append]

theorem groups_length_step [Inhabited H] (grow : Nat → Nat → Nat) (w : World H) (op : Op H) :
    w.groups.length ≤ (w.step grow op).groups.length := by
  cases op with
  | UseFunc i ms =>
    simp only [World.step, World.UseFunc]
    cases w.groups[i]? <;> simp
  | Use i ms =>
    simp only [World.step, World.Use]
    cases w.groups[i]? <;> simp
  | Group i p ms =>
    simp only [World.step, World.Group]
    cases w.groups[i]? with
    | none => simp
    | some g =>
      simp only
      cases g.Group w.arrays p ms with
      | error msg => simp
      | ok r => simp
  | handle i injected hs =>
    simp only [World.step, World.handle]
    cases w.groups[i]? with
    | none => simp
    | some g =>
      simp only
      cases g.combineHandlers w.arrays [injected, hs] with
      | error msg => simp
      | ok r => simp

theorem groups_length_foldl [Inhabited H] (grow : Nat → Nat → Nat) (ops : List (Op H)) :
    ∀ w : World H, w.groups.length ≤ (ops.foldl (World.step grow) w).groups.length := by
  induction ops with
  | nil =>
    intro w
    exact le_refl _
  | cons op rest ih =>
    intro w
    exact le_trans (groups_length_step grow w op) (ih _)

theorem handlersOf_isSome (w : World H) (i : Nat) (h : i < w.groups.length) :
    (w.handlersOf i).isSome = true := by
  simp [World.handlersOf, List.getElem?_eq_getElem h]

/-- The slice-level `Group` computes what `RouterGroup.Group` computes on the
handler list read from memory. -/
theorem Group_refines [Inhabited H] (g : RouterGroupM) (μ : Arrays H) (p : String) (ms : List H)
    (h : g.Handlers.Owned μ) :
    (match g.Group μ p ms with
      | .ok r => Except.ok (r.2.abs r.1)
      | .error msg => Except.error msg) = (g.abs μ).Group p ms := by
  have hvl := view_length μ g.Handlers h
  obtain ⟨q, hq⟩ := joinPaths_total g.basePath p
  by_cases hlen : ((g.Handlers.len + ([ms].map List.length).sum : Nat) : Int) < _abortIndex
  · have hc := combineHandlers_spec g μ [ms] h hlen
    have hlen' : ¬ _abortIndex ≤ (((g.abs μ).Handlers ++ ms).length : Int) := by
      simp only [List.map_cons, List.map_nil, List.sum_cons, List.sum_nil, Nat.add_zero] at hlen
      simp only [RouterGroupM.abs, List.length_append, hvl, not_le]
      exact_mod_cast hlen
    simp only [List.map_cons, List.map_nil, List.sum_cons, List.sum_nil, Nat.add_zero,
      List.flatten_cons, List.flatten_nil, List.append_nil] at hc
    simp only [RouterGroupM.Group, hc, hq, RouterGroup.Group, combineHandlers_single,
      if_neg hlen', RouterGroup.calculateAbsolutePath]
    have hq' : joinPaths (g.abs μ).basePath p = .ok q := hq
    have hview : Arrays.view (μ ++ [μ.view g.Handlers ++ ms])
        { array := μ.length, len := g.Handlers.len + ms.length,
          cap := g.Handlers.len + ms.length } = μ.view g.Handlers ++ ms := by
      simp only [Arrays.view, Arrays.cells, List.getD_eq_getElem?_getD,
        List.getElem?_concat_length, Option.getD_some]
      rw [← List.getD_eq_getElem?_getD, ← Arrays.cells, ← Arrays.view, ← hvl,
        ← List.length_append, List.take_length]
    simp only [RouterGroupM.abs, hview, hq]
  · have he := combineHandlers_error g μ [ms] hlen
    have hlen' : _abortIndex ≤ (((g.abs μ).Handlers ++ ms).length : Int) := by
      simp only [List.map_cons, List.map_nil, List.sum_cons, List.sum_nil, Nat.add_zero,
        not_lt] at hlen
      simp only [RouterGroupM.abs, List.length_append, hvl]
      exact_mod_cast hlen
    simp only [RouterGroupM.Group, he, RouterGroup.Group, combineHandlers_single, if_pos hlen']

end Slices

section Setups

theorem addRoute_state_mux (engine : Engine H) (m p : String) (chain : List H) :
    (engine.addRoute m p chain).state.mux = engine.mux ∨
    (chain.length ≠ 0 ∧
      (engine.addRoute m p chain).state.mux =
        engine.mux ++ [{ path := p, method := m, handlers := chain }]) := by
  unfold Engine.addRoute
  split
  · exact Or.inl rfl
  · split
    · exact Or.inl rfl
    · split
      · exact Or.inl rfl
      · split
        · exact Or.inl rfl
        · rename_i hlen
          cases hh : mux.HandleFunc (engine.initMeta p).mux
              { path := p, method := m, handlers := chain } with
          | error msg =>
            left
            simp only [Outcome.state]
            exact initMeta_mux engine p
          | ok m' =>
            right
            refine ⟨hlen, ?_⟩
            simp only [Outcome.state]
            rw [HandleFunc_ok _ _ _ hh, initMeta_mux]

/-- Whatever `Handler` does, panics included, the route table afterwards is
the one before, possibly with one more route whose chain has at least one
handler and fewer than 63. -/
theorem Handler_state_mux (group : RouterGroup H) (engine : Engine H) (m rel : String)
    (hs : List H) :
    (group.Handler engine m rel hs).state.mux = engine.mux ∨
    ∃ r : Route H, ChainOk r ∧ (group.Handler engine m rel hs).state.mux = engine.mux ++ [r] := by
  obtain ⟨p, hp⟩ := joinPaths_total group.basePath rel
  rw [Handler_unfold group engine m rel p hs hp]
  split
  · exact Or.inl rfl
  · split
    · exact Or.inl rfl
    · rename_i hlen
      rcases addRoute_state_mux engine m p
          (group.Handlers ++ firstMatchingInjection engine.injections p ++ hs) with h | ⟨hne, h⟩
      · left
        cases hr : engine.addRoute m p
            (group.Handlers ++ firstMatchingInjection engine.injections p ++ hs) with
        | panic msg e =>
          rw [hr] at h
          exact h
        | ok e =>
          rw [hr] at h
          cases group.baseConfig <;> exact h
      · right
        refine ⟨⟨p, m, group.Handlers ++ firstMatchingInjection engine.injections p ++ hs⟩,
          ⟨Nat.pos_of_ne_zero hne, not_le.mp hlen⟩, ?_⟩
        cases hr : engine.addRoute m p
            (group.Handlers ++ firstMatchingInjection engine.injections p ++ hs) with
        | panic msg e =>
          rw [hr] at h
          exact h
        | ok e =>
          rw [hr] at h
          cases group.baseConfig <;> exact h

theorem setGroup_mux (s : Setup H) (i : Nat) (g : RouterGroup H) :
    (s.setGroup i g).engine.mux = s.engine.mux := by
  cases i <;> rfl

theorem step_chains (s : Setup H) (call : Call H) (h : ∀ r ∈ s.engine.mux, ChainOk r) :
    ∀ r ∈ (s.step call).engine.mux, ChainOk r := by
  cases call with
  | UseFunc i ms =>
    simp only [Setup.step]
    cases s.group i with
    | none => exact h
    | some g =>
      simp only [setGroup_mux]
      exact h
  | Use i ms =>
    simp only [Setup.step]
    cases s.group i with
    | none => exact h
    | some g =>
      simp only [setGroup_mux]
      exact h
  | Group i p ms =>
    simp only [Setup.step]
    cases s.group i with
    | none => exact h
    | some g =>
      simp only
      cases g.Group p ms <;> exact h
  | SetMethodConfig i config =>
    simp only [Setup.step]
    cases s.group i with
    | none => exact h
    | some g =>
      simp only [setGroup_mux]
      exact h
  | Inject pattern hs => exact h
  | Handler i m rel hs =>
    simp only [Setup.step]
    cases s.group i with
    | none => exact h
    | some g =>
      simp only
      rcases Handler_state_mux g s.engine m rel hs with hm | ⟨r0, hr0, hm⟩
      · rw [hm]
        exact h
      · rw [hm]
        intro r hr
        rcases List.mem_append.mp hr with hr | hr
        · exact h r hr
        · rw [List.mem_singleton.mp hr]
          exact hr0

theorem foldl_chains (calls : List (Call H)) :
    ∀ s : Setup H, (∀ r ∈ s.engine.mux, ChainOk r) →
      ∀ r ∈ (calls.foldl Setup.step s).engine.mux, ChainOk r := by
  induction calls with
  | nil =>
    intro s h
    exact h
  | cons call rest ih =>
    intro s h
    exact ih _ (step_chains s call h)

end Setups

section Claims

/-- Counterexample to C1 as stated: with root middleware 1, group middleware
2, a matching injection with handler 10 and route handler 3, the registered
chain is 1, 2, 10, 3 and not the injection handlers first. -/
theorem C1_counterexample :
    (New : Engine Nat).group.descend exCalls = .ok exLeaf ∧
    (exLeaf.Handler exEngine "GET" "/test" [3]).isPanic = false ∧
    (exLeaf.Handler exEngine "GET" "/test" [3]).state.mux.map Route.handlers = [[1, 2, 10, 3]] ∧
    (exLeaf.Handler exEngine "GET" "/test" [3]).state.mux.map Route.handlers ≠
      [firstMatchingInjection exEngine.injections "/internal/test" ++
        ((New : Engine Nat).group.Handlers ++ declared exCalls) ++ [3]] :=
  ⟨rfl, rfl, rfl, by decide⟩

/-- C1 (as amended): for a leaf group reached from a root group by UseFunc and
Group declarations, every successful Handler registration appends to the
route table one route whose chain is the group middleware from root to leaf
in declaration order, followed by the handlers of the first injection whose
pattern matches the absolute path (none when no pattern matches), followed by
the route-specific handlers in declaration order. -/
theorem C1_registered_chain (root leaf : RouterGroup H) (calls : List (GroupCall H))
    (engine engine' : Engine H) (m rel : String) (hs : List H)
    (hleaf : root.descend calls = .ok leaf)
    (hreg : leaf.Handler engine m rel hs = .ok engine') :
    ∃ p, joinPaths leaf.basePath rel = .ok p ∧
      engine'.mux = engine.mux ++
        [{ path := p, method := m,
           handlers := (root.Handlers ++ declared calls) ++
             firstMatchingInjection engine.injections p ++ hs }] := by
  cases hp : joinPaths leaf.basePath rel with
  | error msg =>
    obtain ⟨msg', h⟩ := Handler_path_error leaf engine m rel msg hs hp
    rw [h] at hreg
    cases hreg
  | ok p =>
    refine ⟨p, rfl, ?_⟩
    rw [Handler_unfold leaf engine m rel p hs hp] at hreg
    split at hreg
    · cases hreg
    · split at hreg
      · cases hreg
      · rw [← descend_Handlers calls root leaf hleaf]
        cases hr : engine.addRoute m p
            (leaf.Handlers ++ firstMatchingInjection engine.injections p ++ hs) with
        | panic msg e =>
          rw [hr] at hreg
          cases hreg
        | ok e =>
          rw [hr] at hreg
          have hmux := addRoute_ok_mux _ _ _ _ _ hr
          cases hb : leaf.baseConfig with
          | none =>
            rw [hb] at hreg
            cases hreg
            exact hmux
          | some cfg =>
            rw [hb] at hreg
            cases hreg
            exact hmux

/-- Witness for C1: root middleware 1, nested group with middleware 2, an
injection with handler 10 that matches every path, route handler 3. -/
theorem C1_registered_chain_witness :
    (New : Engine Nat).group.descend exCalls = .ok exLeaf ∧
    exLeaf.Handler exEngine "GET" "/test" [3]
      = .ok (exLeaf.Handler exEngine "GET" "/test" [3]).state ∧
    ∃ p, joinPaths exLeaf.basePath "/test" = .ok p ∧
      (exLeaf.Handler exEngine "GET" "/test" [3]).state.mux = exEngine.mux ++
        [{ path := p, method := "GET",
           handlers := ((New : Engine Nat).group.Handlers ++ declared exCalls) ++
             firstMatchingInjection exEngine.injections p ++ [3] }] :=
  ⟨rfl, rfl, C1_registered_chain (New : Engine Nat).group exLeaf exCalls exEngine _ "GET" "/test"
    [3] rfl rfl⟩

/-- C2: on a fresh context with a chain of 1 to 62 handlers whose declared
method differs from the request method, and whatever the middleware does
short of aborting, running Next returns, having invoked the handlers at
positions 0 to n-2 once each, in order, never the final handler, and having
written the 405 response exactly once. -/
theorem C2_method_mismatch (r : Route HandlerFunc) (req : Request) (fuel : Nat)
    (h1 : 1 ≤ r.handlers.length) (h62 : r.handlers.length ≤ 62)
    (hmethod : r.method ≠ req.Method)
    (hbeh : ∀ j h, j < r.handlers.length - 1 → r.handlers[j]? = some h → noAbort h = true)
    (hfuel : chainFuel r.handlers ≤ fuel) :
    ∃ c', exec fuel .Next (r.newContext req) = some c' ∧
      entered c'.events = List.range (r.handlers.length - 1) ∧
      r.handlers.length - 1 ∉ entered c'.events ∧
      count405 c'.events = 1 := by
  have hreach : reach r.handlers r.method req = r.handlers.length - 1 := by
    unfold reach
    rw [if_pos hmethod]
  obtain ⟨c', he, hent, hcnt⟩ := Next_noAbort r req fuel h1 h62
    (by rw [hreach]; exact hbeh) hfuel
  rw [hreach] at hent
  rw [if_pos hmethod] at hcnt
  refine ⟨c', he, hent, ?_, hcnt⟩
  rw [hent]
  simp

/-- Witness for C2: a route registered for GET with two wrapping middleware,
requested with POST. -/
theorem C2_method_mismatch_witness :
    exRoute.method ≠ exPost.Method ∧
    ∃ c', exec (chainFuel exRoute.handlers) .Next (exRoute.newContext exPost) = some c' ∧
      entered c'.events = List.range (exRoute.handlers.length - 1) ∧
      exRoute.handlers.length - 1 ∉ entered c'.events ∧
      count405 c'.events = 1 :=
  ⟨by decide,
    C2_method_mismatch exRoute exPost (chainFuel exRoute.handlers) (by decide) (by decide)
      (by decide)
      (by
        intro j h hj hget
        exact List.all_eq_true.mp (by decide : exRoute.handlers.all (fun g => noAbort g) = true)
          h (List.getElem?_mem hget))
      (le_refl _)⟩

/-- C3: on a fresh context with a chain of 1 to 62 handlers whose declared
method equals the request method, and whatever the handlers do short of
aborting (calling Next once, several times or not at all), running Next
returns, having invoked every handler exactly once, in chain order, and
without writing a 405 response. -/
theorem C3_each_handler_once (r : Route HandlerFunc) (req : Request) (fuel : Nat)
    (h1 : 1 ≤ r.handlers.length) (h62 : r.handlers.length ≤ 62)
    (hmethod : r.method = req.Method)
    (hbeh : ∀ h ∈ r.handlers, noAbort h = true)
    (hfuel : chainFuel r.handlers ≤ fuel) :
    ∃ c', exec fuel .Next (r.newContext req) = some c' ∧
      entered c'.events = List.range r.handlers.length ∧
      count405 c'.events = 0 := by
  have hreach : reach r.handlers r.method req = r.handlers.length := by
    unfold reach
    rw [if_neg (not_not.mpr hmethod)]
  obtain ⟨c', he, hent, hcnt⟩ := Next_noAbort r req fuel h1 h62
    (by
      intro j h _ hget
      exact hbeh h (List.getElem?_mem hget)) hfuel
  rw [hreach] at hent
  rw [if_neg (not_not.mpr hmethod)] at hcnt
  exact ⟨c', he, hent, hcnt⟩

/-- Witness for C3: the same route requested with GET. -/
theorem C3_each_handler_once_witness :
    exRoute.method = exGet.Method ∧
    ∃ c', exec (chainFuel exRoute.handlers) .Next (exRoute.newContext exGet) = some c' ∧
      entered c'.events = List.range exRoute.handlers.length ∧
      count405 c'.events = 0 :=
  ⟨rfl,
    C3_each_handler_once exRoute exGet (chainFuel exRoute.handlers) (by decide) (by decide) rfl
      (by decide) (le_refl _)⟩

/-- C5 (evaluation at the failing input): with the default timeout of one
second, no method config, and a client-timeout header that decodes to
18446744073709572 microseconds, the nanosecond product overflows 64 bits and
the negotiated timeout is 384ns, whereas the smaller of the base timeout and
the client value less the margin is the base timeout of one second. -/
theorem C5_overflow_timeout :
    strconv.ParseInt (Header.Get (exTimeoutRequest "18446744073709572").Header
      _httpHeaderTimeout) = (18446744073709572, none) ∧
    (New : Engine Nat).baseTimeout (exTimeoutRequest "18446744073709572") = 1000000000 ∧
    (New : Engine Nat).requestTimeout (exTimeoutRequest "18446744073709572") = 384 ∧
    min ((New : Engine Nat).baseTimeout (exTimeoutRequest "18446744073709572"))
      ((18446744073709572 - 20) * 1000) = 1000000000 := by
  refine ⟨by decide, by decide, by decide, by decide⟩

/-- C6: a Handler call whose merged chain (group handlers, matching
injection handlers and route handlers) is longer than the maximum allowed
length, one less than the abort index 63, panics and leaves the engine, hence
its route table and its method-config map, exactly as before the call. -/
theorem C6_overlong_chain_rejected (group : RouterGroup H) (engine : Engine H)
    (m rel p : String) (hs : List H)
    (hp : joinPaths group.basePath rel = .ok p)
    (hlen : _abortIndex - 1 <
      ((group.Handlers ++ firstMatchingInjection engine.injections p ++ hs).length : Int)) :
    ∃ msg, group.Handler engine m rel hs = .panic msg engine := by
  rw [Handler_unfold group engine m rel p hs hp]
  split
  · exact ⟨_, rfl⟩
  · rw [if_pos (by omega)]
    exact ⟨_, rfl⟩

/-- Witness for C6: sixty-three route handlers on the blank root group. -/
theorem C6_overlong_chain_rejected_witness :
    joinPaths (New : Engine Nat).group.basePath "/x" = .ok "/x" ∧
    _abortIndex - 1 < ((((New : Engine Nat).group.Handlers ++
      firstMatchingInjection (New : Engine Nat).injections "/x" ++
      List.replicate 63 0).length : Nat) : Int) ∧
    ∃ msg, (New : Engine Nat).group.Handler New "GET" "/x" (List.replicate 63 0)
      = .panic msg New :=
  ⟨rfl, by decide,
    C6_overlong_chain_rejected (New : Engine Nat).group New "GET" "/x" "/x" (List.replicate 63 0)
      rfl (by decide)⟩

/-- Counterexample to C7 as stated: a group that holds one middleware accepts
a registration with zero route handlers and adds a route whose chain is that
middleware alone. -/
theorem C7_counterexample :
    (((New : Engine Nat).group.UseFunc [1]).Handler New "GET" "/x" []).isPanic = false ∧
    (((New : Engine Nat).group.UseFunc [1]).Handler New "GET" "/x" []).state.mux
      = [{ path := "/x", method := "GET", handlers := [1] }] :=
  ⟨rfl, rfl⟩

/-- C7 (as amended): Handler called with zero route handlers, a valid method
and a fresh absolute path beginning with a slash panics when the merged chain
is empty, that is when the group holds no middleware and the first matching
injection contributes no handler; it panics only then or when the merged
chain holds 63 or more handlers; and whenever it panics the engine, hence the
route table, is exactly as before the call. -/
theorem C7_zero_handlers (group : RouterGroup H) (engine : Engine H) (m rel p : String)
    (hp : joinPaths group.basePath rel = .ok p)
    (hm : matchMethodPattern m = true)
    (hslash : p.data.head? = some '/')
    (hfresh : ∀ r ∈ engine.mux, r.path ≠ p) :
    ((group.Handlers = [] ∧ firstMatchingInjection engine.injections p = []) →
      ∃ msg, group.Handler engine m rel [] = .panic msg engine) ∧
    ((group.Handler engine m rel []).isPanic = true ↔
      ((group.Handlers = [] ∧ firstMatchingInjection engine.injections p = []) ∨
        _abortIndex ≤
          ((group.Handlers ++ firstMatchingInjection engine.injections p).length : Int))) ∧
    ((group.Handler engine m rel []).isPanic = true →
      (group.Handler engine m rel []).state = engine) := by
  have hempty : (group.Handlers = [] ∧ firstMatchingInjection engine.injections p = []) →
      ∃ msg, group.Handler engine m rel [] = .panic msg engine := by
    rintro ⟨hg, hi⟩
    rw [Handler_unfold group engine m rel p [] hp, if_neg (not_not.mpr hm), hg, hi]
    rw [if_neg (by rw [abortIndex_eq]; simp)]
    obtain ⟨msg, h⟩ := addRoute_empty_chain engine m p
    simp only [List.append_nil]
    rw [h]
    exact ⟨_, rfl⟩
  have hlong : _abortIndex ≤
        ((group.Handlers ++ firstMatchingInjection engine.injections p).length : Int) →
      ∃ msg, group.Handler engine m rel [] = .panic msg engine := by
    intro hlen
    rw [Handler_unfold group engine m rel p [] hp, if_neg (not_not.mpr hm)]
    rw [if_pos (by simpa using hlen)]
    exact ⟨_, rfl⟩
  have hiff : (group.Handler engine m rel []).isPanic = true ↔
      ((group.Handlers = [] ∧ firstMatchingInjection engine.injections p = []) ∨
        _abortIndex ≤
          ((group.Handlers ++ firstMatchingInjection engine.injections p).length : Int)) := by
    constructor
    · intro hpanic
      by_contra hnot
      rw [not_or] at hnot
      have hne' : group.Handlers ++ firstMatchingInjection engine.injections p ++ [] ≠ [] := by
        intro h
        apply hnot.1
        simpa using h
      have := Handler_accepts group engine m rel p [] hp hm hslash hfresh hne'
        (by simpa using hnot.2)
      rw [this] at hpanic
      cases hpanic
    · rintro (h | h)
      · obtain ⟨msg, hmsg⟩ := hempty h
        rw [hmsg]
        rfl
      · obtain ⟨msg, hmsg⟩ := hlong h
        rw [hmsg]
        rfl
  refine ⟨hempty, hiff, ?_⟩
  intro hpanic
  rcases hiff.mp hpanic with h | h
  · obtain ⟨msg, hmsg⟩ := hempty h
    rw [hmsg]
    rfl
  · obtain ⟨msg, hmsg⟩ := hlong h
    rw [hmsg]
    rfl

/-- Witness for C7: the blank root group of a blank engine. -/
theorem C7_zero_handlers_witness :
    joinPaths (New : Engine Nat).group.basePath "/x" = .ok "/x" ∧
    matchMethodPattern "GET" = true ∧
    ((New : Engine Nat).group.Handler New "GET" "/x" []).isPanic = true ∧
    ((New : Engine Nat).group.Handler New "GET" "/x" []).state = New :=
  ⟨rfl, rfl,
    (C7_zero_handlers (New : Engine Nat).group New "GET" "/x" "/x" rfl rfl rfl
      (by intro r hr; cases hr)).2.1.mpr (Or.inl ⟨rfl, rfl⟩),
    rfl⟩

/-- C8: given an absolute path that begins with a slash and is not yet
registered, and a non-empty merged chain below the length limit, Handler
panics if and only if the method is not a non-empty string of the uppercase
letters A to Z, and when it panics the engine is exactly as before. -/
theorem C8_method_validation (group : RouterGroup H) (engine : Engine H) (m rel p : String)
    (hs : List H)
    (hp : joinPaths group.basePath rel = .ok p)
    (hslash : p.data.head? = some '/')
    (hfresh : ∀ r ∈ engine.mux, r.path ≠ p)
    (hne : group.Handlers ++ firstMatchingInjection engine.injections p ++ hs ≠ [])
    (hlen : ((group.Handlers ++ firstMatchingInjection engine.injections p ++ hs).length : Int)
      < _abortIndex) :
    ((group.Handler engine m rel hs).isPanic = true ↔
      ¬ (m ≠ "" ∧ ∀ c ∈ m.data, 'A' ≤ c ∧ c ≤ 'Z')) ∧
    ((group.Handler engine m rel hs).isPanic = true →
      (group.Handler engine m rel hs).state = engine) := by
  rw [← matchMethodPattern_iff]
  by_cases hm : matchMethodPattern m = true
  · have := Handler_accepts group engine m rel p hs hp hm hslash hfresh hne hlen
    rw [this]
    simp [hm]
  · rw [Handler_unfold group engine m rel p hs hp, if_pos hm]
    simp [hm, Outcome.isPanic, Outcome.state]

/-- Witness for C8: a method with a trailing newline is rejected. -/
theorem C8_method_validation_witness :
    joinPaths (New : Engine Nat).group.basePath "/x" = .ok "/x" ∧
    ((New : Engine Nat).group.Handler New "GET\n" "/x" [3]).isPanic = true :=
  ⟨rfl,
    ((C8_method_validation (New : Engine Nat).group New "GET\n" "/x" "/x" [3] rfl rfl
      (by intro r hr; cases hr) (by decide) (by decide)).1).mpr (by decide)⟩

/-- C9: when the client-timeout header is absent or empty, is not a decimal
integer, denotes a value outside the signed 64-bit range, or denotes zero, the
negotiated timeout is the base timeout. -/
theorem C9_undecodable_header_ignored (engine : Engine H) (req : Request)
    (h : (∀ kv ∈ req.Header, kv.1 ≠ _httpHeaderTimeout) ∨
      Header.Get req.Header _httpHeaderTimeout = "" ∨
      isDecimalInteger (Header.Get req.Header _httpHeaderTimeout) = false ∨
      decimalValue (Header.Get req.Header _httpHeaderTimeout) < minInt64 ∨
      maxInt64 < decimalValue (Header.Get req.Header _httpHeaderTimeout) ∨
      decimalValue (Header.Get req.Header _httpHeaderTimeout) = 0) :
    engine.requestTimeout req = engine.baseTimeout req := by
  apply requestTimeout_ignored
  have habsent : (∀ kv ∈ req.Header, kv.1 ≠ _httpHeaderTimeout) →
      Header.Get req.Header _httpHeaderTimeout = "" := by
    intro hall
    unfold Header.Get
    rw [List.find?_eq_none.mpr]
    intro kv hkv
    simpa using hall kv hkv
  rcases ParseInt_cases (Header.Get req.Header _httpHeaderTimeout) with h1 | h1 | h1
  · obtain ⟨he, hdec, hval, hlo, hhi⟩ := h1
    have hzero : decimalValue (Header.Get req.Header _httpHeaderTimeout) = 0 := by
      rcases h with h | h | h | h | h | h
      · rw [habsent h] at hdec
        cases hdec
      · rw [h] at hdec
        cases hdec
      · rw [h] at hdec
        cases hdec
      · omega
      · omega
      · exact h
    unfold timeout
    simp only [he, hval, hzero, true_and]
    decide
  · exact timeout_nonpos_of_error req (by rw [h1.1]; simp)
  · exact timeout_nonpos_of_error req (by rw [h1.1]; simp)

/-- Witness for C9: a numeral beyond the signed 64-bit range. -/
theorem C9_undecodable_header_ignored_witness :
    maxInt64 < decimalValue
      (Header.Get (exTimeoutRequest "99999999999999999999").Header _httpHeaderTimeout) ∧
    exTimeoutEngine.requestTimeout (exTimeoutRequest "99999999999999999999")
      = exTimeoutEngine.baseTimeout (exTimeoutRequest "99999999999999999999") :=
  ⟨by decide,
    C9_undecodable_header_ignored exTimeoutEngine (exTimeoutRequest "99999999999999999999")
      (Or.inr (Or.inr (Or.inr (Or.inr (Or.inl (by decide))))))⟩

/-- C10 (evaluation at the failing input): the request lacks the dedicated
remote-IP header and carries a forwarded-for list whose first entry, trimmed,
is 1.2.3.4; the forwarded-for header is not consulted and the result is the
peer host 9.9.9.9. -/
theorem C10_forwarded_for_skipped :
    Header.Get exForwardedRequest.Header _httpHeaderRemoteIP = "" ∧
    sliceTo "1.2.3.4, 5.6.7.8" (strings.IndexByte "1.2.3.4, 5.6.7.8" ',') = .ok "1.2.3.4" ∧
    strings.TrimSpace "1.2.3.4" = "1.2.3.4" ∧
    remoteIP exForwardedRequest = .ok "9.9.9.9" :=
  ⟨by decide, rfl, by decide, rfl⟩

/-- Counterexample to C11 as stated: on the root group of a fresh engine,
Group with 63 middleware does not return a group; it panics. -/
theorem C11_counterexample :
    (New : Engine Nat).group.Group "/v1" (List.replicate 63 7) = .error "too many handlers" ∧
    ∃ msg, (World.New : World Nat).Group 0 "/v1" (List.replicate 63 7) = .error msg :=
  ⟨rfl, ⟨_, rfl⟩⟩

/-- C11 (as amended): in every state reached from a fresh engine by UseFunc,
Use, Group and route registrations, for a group g, a relative path and
middleware ms with fewer than 63 handlers in g and ms together, Group returns
a new non-root group whose base path is the join of the base path of g and
the relative path and whose handler list is that of g followed by ms, and
changes no existing handler list or chain. After any further calls, a
UseFunc or Use call on g leaves the handler list of that child and the chain
of every registered route as they are, and the list of g gains exactly the
new middleware at its end. -/
theorem C11_group_frame [Inhabited H] (grow : Nat → Nat → Nat) (ops more : List (Op H))
    (i : Nat) (g : RouterGroupM) (p : String) (ms later : List H)
    (hg : (World.run grow ops).groups[i]? = some g)
    (hlen : ((((World.run grow ops).arrays.view g.Handlers).length + ms.length : Nat) : Int)
      < _abortIndex) :
    ∃ w1 child,
      (World.run grow ops).Group i p ms = .ok w1 ∧
      w1.groups = (World.run grow ops).groups ++ [child] ∧
      child.root = false ∧ joinPaths g.basePath p = .ok child.basePath ∧
      w1.handlersOf (World.run grow ops).groups.length =
        some ((World.run grow ops).arrays.view g.Handlers ++ ms) ∧
      (∀ j, j < (World.run grow ops).groups.length →
        w1.handlersOf j = (World.run grow ops).handlersOf j) ∧
      w1.routeChains = (World.run grow ops).routeChains ∧
      ((more.foldl (World.step grow) w1).handlersOf i).isSome = true ∧
      ((more.foldl (World.step grow) w1).handlersOf (World.run grow ops).groups.length).isSome
        = true ∧
      ((more.foldl (World.step grow) w1).UseFunc grow i later).handlersOf
          (World.run grow ops).groups.length =
        (more.foldl (World.step grow) w1).handlersOf (World.run grow ops).groups.length ∧
      ((more.foldl (World.step grow) w1).UseFunc grow i later).routeChains =
        (more.foldl (World.step grow) w1).routeChains ∧
      ((more.foldl (World.step grow) w1).UseFunc grow i later).handlersOf i =
        ((more.foldl (World.step grow) w1).handlersOf i).map (fun hs => hs ++ later) ∧
      ((more.foldl (World.step grow) w1).Use grow i later).handlersOf
          (World.run grow ops).groups.length =
        (more.foldl (World.step grow) w1).handlersOf (World.run grow ops).groups.length ∧
      ((more.foldl (World.step grow) w1).Use grow i later).routeChains =
        (more.foldl (World.step grow) w1).routeChains ∧
      ((more.foldl (World.step grow) w1).Use grow i later).handlersOf i =
        ((more.foldl (World.step grow) w1).handlersOf i).map (fun hs => hs ++ later) := by
  have hinv := Inv_run grow ops
  have hown := hinv.1 g (List.getElem?_mem hg)
  have hvl := view_length _ _ hown
  have hi : i < (World.run grow ops).groups.length := (List.getElem?_eq_some_iff.mp hg).1
  obtain ⟨q, hq, hgroup⟩ := Group_spec (World.run grow ops) i g p ms hinv hg hlen
  have hinv1 := Inv_Group _ _ i p ms hinv hgroup
  refine ⟨_, _, hgroup, rfl, rfl, hq, ?_, ?_, ?_, ?_⟩
  · simp only [World.handlersOf, List.getElem?_concat_length, Option.map_some', Arrays.view,
      Arrays.cells, List.getD_eq_getElem?_getD, Option.getD_some]
    rw [← List.getD_eq_getElem?_getD, ← Arrays.cells, ← Arrays.view, ← hvl,
      ← List.length_append, List.take_length]
  · intro j hj
    simp only [World.handlersOf]
    rw [List.getElem?_append_left hj, List.getElem?_eq_getElem hj]
    simp only [Option.map_some']
    rw [view_snoc _ _ _ (owned_lt _ _ (hinv.1 _ (List.getElem_mem _)))]
  · simp only [World.routeChains]
    exact List.map_congr_left (fun c hc => view_snoc _ _ c (owned_lt _ _ (hinv.2.1 c hc)))
  · have hinv2 := Inv_foldl grow more _ hinv1
    have hlen2 := groups_length_foldl grow more
      ({ arrays := (World.run grow ops).arrays ++ [(World.run grow ops).arrays.view g.Handlers ++ ms]
         groups := (World.run grow ops).groups ++
           [{ Handlers := { array := (World.run grow ops).arrays.length,
                            len := g.Handlers.len + ms.length,
                            cap := g.Handlers.len + ms.length },
              basePath := q, root := false, baseConfig := none }]
         chains := (World.run grow ops).chains } : World H)
    simp only [List.length_append, List.length_singleton] at hlen2
    obtain ⟨_, hu2, hu3, hu4, _⟩ := UseFunc_frame grow _ i later hinv2
    obtain ⟨_, hv2, hv3, hv4, _⟩ := Use_frame grow _ i later hinv2
    have hne : (World.run grow ops).groups.length ≠ i := by omega
    exact ⟨handlersOf_isSome _ _ (by omega), handlersOf_isSome _ _ (by omega),
      hu3 _ hne, hu2, hu4, hv3 _ hne, hv2, hv4⟩

/-- Witness for C11: after two UseFunc calls and a route on the root group, a
child is created with middleware 6; later calls append 7 and 8 to the root
group in place and 9 and 11 to the child, and the child and both chains keep
their handlers. -/
theorem C11_group_frame_witness :
    (World.run exGrow exOps).handlersOf 0 = some [1, 2, 3, 4] ∧
    (((exMore.foldl (World.step exGrow) (World.run exGrow (exOps ++ [.Group 0 "/v1" [6]]))).UseFunc
      exGrow 0 [8]).handlersOf 0 = some [1, 2, 3, 4, 7, 8]) ∧
    (((exMore.foldl (World.step exGrow) (World.run exGrow (exOps ++ [.Group 0 "/v1" [6]]))).UseFunc
      exGrow 0 [8]).handlersOf 1 = some [1, 2, 3, 4, 6, 9, 11]) ∧
    (((exMore.foldl (World.step exGrow) (World.run exGrow (exOps ++ [.Group 0 "/v1" [6]]))).UseFunc
      exGrow 0 [8]).routeChains = [[1, 2, 3, 4, 10, 5], [1, 2, 3, 4, 6, 9, 11, 12]]) ∧
    ∃ w1 child,
      (World.run exGrow exOps).Group 0 "/v1" [6] = .ok w1 ∧
      w1.groups = (World.run exGrow exOps).groups ++ [child] ∧
      child.root = false ∧ joinPaths exRootGroup.basePath "/v1" = .ok child.basePath ∧
      w1.handlersOf (World.run exGrow exOps).groups.length =
        some ((World.run exGrow exOps).arrays.view exRootGroup.Handlers ++ [6]) ∧
      (∀ j, j < (World.run exGrow exOps).groups.length →
        w1.handlersOf j = (World.run exGrow exOps).handlersOf j) ∧
      w1.routeChains = (World.run exGrow exOps).routeChains ∧
      ((exMore.foldl (World.step exGrow) w1).handlersOf 0).isSome = true ∧
      ((exMore.foldl (World.step exGrow) w1).handlersOf (World.run exGrow exOps).groups.length).isSome
        = true ∧
      ((exMore.foldl (World.step exGrow) w1).UseFunc exGrow 0 [8]).handlersOf
          (World.run exGrow exOps).groups.length =
        (exMore.foldl (World.step exGrow) w1).handlersOf (World.run exGrow exOps).groups.length ∧
      ((exMore.foldl (World.step exGrow) w1).UseFunc exGrow 0 [8]).routeChains =
        (exMore.foldl (World.step exGrow) w1).routeChains ∧
      ((exMore.foldl (World.step exGrow) w1).UseFunc exGrow 0 [8]).handlersOf 0 =
        ((exMore.foldl (World.step exGrow) w1).handlersOf 0).map (fun hs => hs ++ [8]) ∧
      ((exMore.foldl (World.step exGrow) w1).Use exGrow 0 [8]).handlersOf
          (World.run exGrow exOps).groups.length =
        (exMore.foldl (World.step exGrow) w1).handlersOf (World.run exGrow exOps).groups.length ∧
      ((exMore.foldl (World.step exGrow) w1).Use exGrow 0 [8]).routeChains =
        (exMore.foldl (World.step exGrow) w1).routeChains ∧
      ((exMore.foldl (World.step exGrow) w1).Use exGrow 0 [8]).handlersOf 0 =
        ((exMore.foldl (World.step exGrow) w1).handlersOf 0).map (fun hs => hs ++ [8]) :=
  ⟨by decide, by decide, by decide, by decide,
    C11_group_frame exGrow exOps exMore 0 exRootGroup "/v1" [6] [8] rfl (by decide)⟩

/-- C12: for a context that carries a map, with or without deadline and
cancellation, WithContext returns a context that carries a newly allocated
map with the same keys and values, leaves the map of the original context as
it was, has no deadline and is never done whatever cancel functions are
called and however late it is; and whatever is later stored in the map of the
original context, the entries seen through the returned context stay the same. -/
theorem C12_detach (σ : Maps) (ctx : context.Context) (md : MD)
    (hmd : metadata.FromContext ctx = (md, true))
    (hvalid : ∀ r, md = some r → r < σ.length)
    (hkeys : (σ.entries md).keys.Nodup) :
    ∃ nmd, metadata.FromContext (metadata.WithContext σ ctx).2 = (some nmd, true) ∧
      md ≠ some nmd ∧
      (∀ k, ((metadata.WithContext σ ctx).1.entries (some nmd)).get? k =
        (σ.entries md).get? k) ∧
      (metadata.WithContext σ ctx).1.entries md = σ.entries md ∧
      (metadata.WithContext σ ctx).2.Deadline = none ∧
      (∀ cancelled now, (metadata.WithContext σ ctx).2.Done cancelled now = false) ∧
      (∀ r m, md = some r →
        (((metadata.WithContext σ ctx).1.store r m).entries (some nmd)) =
          (metadata.WithContext σ ctx).1.entries (some nmd)) := by
  rw [WithContext_eq σ ctx md hmd hvalid]
  refine ⟨σ.length, rfl, ?_, ?_, entries_snoc σ _ md hvalid, rfl, fun _ _ => rfl, ?_⟩
  · intro h
    have := hvalid _ h
    omega
  · intro k
    show ((σ ++ [Entries.overlay [] (σ.entries md)]).entries (some σ.length)).get? k = _
    rw [entries_snoc_new, get_overlay _ _ _ hkeys, get_nil]
    cases (σ.entries md).get? k <;> rfl
  · intro r m hr
    have := hvalid r hr
    exact store_other _ r σ.length m (by omega)

/-- Witness for C12: the map `caller: svcA` carried by a context whose
deadline has passed. -/
theorem C12_detach_witness :
    exDeadlineContext.Deadline = some 5 ∧ exDeadlineContext.Done [] 9 = true ∧
    (metadata.WithContext exMaps exDeadlineContext).1.entries (some 3) =
      [("caller", .str "svcA")] ∧
    ∃ nmd, metadata.FromContext (metadata.WithContext exMaps exDeadlineContext).2 =
        (some nmd, true) ∧
      some 2 ≠ some nmd ∧
      (∀ k, ((metadata.WithContext exMaps exDeadlineContext).1.entries (some nmd)).get? k =
        (exMaps.entries (some 2)).get? k) ∧
      (metadata.WithContext exMaps exDeadlineContext).1.entries (some 2) =
        exMaps.entries (some 2) ∧
      (metadata.WithContext exMaps exDeadlineContext).2.Deadline = none ∧
      (∀ cancelled now,
        (metadata.WithContext exMaps exDeadlineContext).2.Done cancelled now = false) ∧
      (∀ r m, some 2 = some r →
        (((metadata.WithContext exMaps exDeadlineContext).1.store r m).entries (some nmd)) =
          (metadata.WithContext exMaps exDeadlineContext).1.entries (some nmd)) :=
  ⟨rfl, rfl, rfl, C12_detach exMaps exDeadlineContext (some 2) rfl
    (by
      intro r hr
      cases hr
      decide)
    (by decide)⟩

/-- C13: Join of maps that exist in the store returns a newly allocated map
with distinct keys; a key is in it exactly when it is in one of the
arguments; it binds a key to a value exactly when some argument binds the key
to that value and no later argument contains the key; and every map that
existed before, the arguments included, has the entries it had. -/
theorem C13_join (σ : Maps) (mds : List MD)
    (hvalid : ∀ r, some r ∈ mds → r < σ.length)
    (hkeys : ∀ md ∈ mds, (σ.entries md).keys.Nodup) :
    (metadata.Join σ mds).2 = some σ.length ∧
    ((metadata.Join σ mds).1.entries (metadata.Join σ mds).2).keys.Nodup ∧
    (∀ k, k ∈ ((metadata.Join σ mds).1.entries (metadata.Join σ mds).2).keys ↔
      ∃ md ∈ mds, k ∈ (σ.entries md).keys) ∧
    (∀ k v, ((metadata.Join σ mds).1.entries (metadata.Join σ mds).2).get? k = some v ↔
      ∃ (i : Nat) (md : MD), mds[i]? = some md ∧ (σ.entries md).get? k = some v ∧
        ∀ (j : Nat) (md' : MD), i < j → mds[j]? = some md' → (σ.entries md').get? k = none) ∧
    (∀ r, r < σ.length → (metadata.Join σ mds).1.entries (some r) = σ.entries (some r)) := by
  have hnd : ∀ m ∈ mds.map σ.entries, m.keys.Nodup := by
    intro m hm
    obtain ⟨md, hmd, rfl⟩ := List.mem_map.mp hm
    exact hkeys md hmd
  have hget : ∀ k, (((mds.map σ.entries).foldl Entries.overlay []).get? k) =
      lastBinding (mds.map σ.entries) k := by
    intro k
    rw [get_foldl_overlay _ _ _ hnd, get_nil]
    cases lastBinding (mds.map σ.entries) k <;> rfl
  rw [Join_eq σ mds hvalid]
  refine ⟨rfl, ?_, ?_, ?_, ?_⟩
  · show ((σ ++ [_]).entries (some σ.length)).keys.Nodup
    rw [entries_snoc_new]
    exact nodup_foldl_overlay _ _ (by simp [Entries.keys])
  · intro k
    show k ∈ ((σ ++ [_]).entries (some σ.length)).keys ↔ _
    rw [entries_snoc_new, ← not_iff_not, ← get_eq_none_iff, hget, lastBinding_eq_none_iff]
    simp only [List.mem_map, forall_exists_index, and_imp, forall_apply_eq_imp_iff₂,
      get_eq_none_iff, not_exists, not_and]
  · intro k v
    show ((σ ++ [_]).entries (some σ.length)).get? k = some v ↔ _
    rw [entries_snoc_new, hget, lastBinding_eq_some_iff]
    constructor
    · rintro ⟨i, m, hi, hg, hlater⟩
      rw [List.getElem?_map] at hi
      cases hmd : mds[i]? with
      | none => simp [hmd] at hi
      | some md =>
        simp only [hmd, Option.map_some', Option.some.injEq] at hi
        subst hi
        refine ⟨i, md, hmd, hg, ?_⟩
        intro j md' hj hmd'
        exact hlater j _ hj (by rw [List.getElem?_map, hmd']; rfl)
    · rintro ⟨i, md, hi, hg, hlater⟩
      refine ⟨i, σ.entries md, by rw [List.getElem?_map, hi]; rfl, hg, ?_⟩
      intro j m' hj hm'
      rw [List.getElem?_map] at hm'
      cases hmd : mds[j]? with
      | none => simp [hmd] at hm'
      | some md' =>
        simp only [hmd, Option.map_some', Option.some.injEq] at hm'
        subst hm'
        exact hlater j md' hj hmd
  · intro r hr
    exact entries_snoc σ _ (some r) (by
      intro r' h'
      cases h'
      exact hr)

/-- Witness for C13: joining `a: 1` and `a: 2, b: 3`, in that order, gives
`a: 2, b: 3`. -/
theorem C13_join_witness :
    (metadata.Join exMaps [some 0, some 1]).1.entries (metadata.Join exMaps [some 0, some 1]).2 =
      [("a", .int64 2), ("b", .int64 3)] ∧
    (metadata.Join exMaps [some 0, some 1]).2 = some exMaps.length ∧
    ((metadata.Join exMaps [some 0, some 1]).1.entries
      (metadata.Join exMaps [some 0, some 1]).2).keys.Nodup ∧
    (∀ k, k ∈ ((metadata.Join exMaps [some 0, some 1]).1.entries
        (metadata.Join exMaps [some 0, some 1]).2).keys ↔
      ∃ md ∈ [some 0, some 1], k ∈ (exMaps.entries md).keys) ∧
    (∀ k v, ((metadata.Join exMaps [some 0, some 1]).1.entries
        (metadata.Join exMaps [some 0, some 1]).2).get? k = some v ↔
      ∃ (i : Nat) (md : MD), [some 0, some 1][i]? = some md ∧
        (exMaps.entries md).get? k = some v ∧
        ∀ (j : Nat) (md' : MD), i < j → [some 0, some 1][j]? = some md' →
          (exMaps.entries md').get? k = none) ∧
    (∀ r, r < exMaps.length →
      (metadata.Join exMaps [some 0, some 1]).1.entries (some r) = exMaps.entries (some r)) :=
  ⟨rfl, C13_join exMaps [some 0, some 1]
    (by
      intro r hr
      have : r = 0 ∨ r = 1 := by simpa using hr
      rcases this with rfl | rfl <;> decide)
    (by decide)⟩

/-- C14: joining with the empty relative path returns the base path unchanged;
for a non-empty relative path the result is the cleaned join of base and
relative path, with one slash appended exactly when the relative path ends in
a slash and the cleaned join does not, so that the result ends in a slash
whenever the relative path does. -/
theorem C14_joinPaths (a r : String) :
    joinPaths a "" = .ok a ∧
    (r ≠ "" →
      joinPaths a r = .ok (if endsInSlash r = true ∧ endsInSlash (path.Join a r) = false
        then path.Join a r ++ "/" else path.Join a r) ∧
      ∀ p, joinPaths a r = .ok p → endsInSlash r = true → endsInSlash p = true) :=
  ⟨rfl, fun hr => ⟨joinPaths_nonempty a r hr, fun p hp hs => joinPaths_keeps_slash a r p hp hr hs⟩⟩

/-- Witness for C14: base `/internal` with relative paths `/test/` and empty. -/
theorem C14_joinPaths_witness :
    "/test/" ≠ "" ∧ joinPaths "/internal" "/test/" = .ok "/internal/test/" ∧
    joinPaths "/internal" "" = .ok "/internal" ∧
    endsInSlash "/internal/test/" = true ∧
    (joinPaths "/internal" "/test/" =
        .ok (if endsInSlash "/test/" = true ∧ endsInSlash (path.Join "/internal" "/test/") = false
          then path.Join "/internal" "/test/" ++ "/" else path.Join "/internal" "/test/") ∧
      ∀ p, joinPaths "/internal" "/test/" = .ok p → endsInSlash "/test/" = true →
        endsInSlash p = true) :=
  ⟨by decide, rfl, (C14_joinPaths "/internal" "/test/").1, by decide,
    (C14_joinPaths "/internal" "/test/").2 (by decide)⟩

/-- C15, evaluated at the failing input: a GET request on a GET route with a
chain of 32 wrapping middleware, none of which aborts. The request runs to
its end without a panic, and the IsAborted call of the first middleware,
made after its Next has returned, gives true. -/
theorem C15_isAborted_without_abort :
    exLongWrapRoute.handlers.length = 32 ∧
    exLongWrapRoute.handlers.all (fun h => noAbort h) = true ∧
    exLongWrapRoute.method = exGet.Method ∧
    (exec (chainFuel exLongWrapRoute.handlers) .Next (exLongWrapRoute.newContext exGet)).map
      (fun c => (c.panicked, c.events.count (.isAborted true),
        c.events.drop (c.events.length - 2))) =
      some (false, 1, [.isAborted true, .leave 0]) :=
  ⟨rfl, rfl, rfl, longWrap_run⟩

/-- Counterexample to C16 as stated: a configuration with read timeout -1 and
write timeout -5 is accepted and installed. -/
theorem C16_counterexample :
    exNegativeReadConfig.ReadTimeOut < 0 ∧ exNegativeReadConfig.WriteTimeOut < 0 ∧
    ((New : Engine Nat).SetConfig exNegativeReadConfig).2 = none ∧
    ((New : Engine Nat).SetConfig exNegativeReadConfig).1.conf =
      { exNegativeReadConfig with NewWork := "tcp" } :=
  ⟨by decide, by decide, rfl, rfl⟩

/-- C16 (as amended): SetConfig rejects every configuration whose default
timeout is negative, returning an error and leaving the engine, and so its
previous configuration, unchanged; every configuration whose default timeout
is not negative is accepted and installed whatever its read and write
timeouts, with an empty network kind replaced by tcp, and nothing else in the
engine changes. -/
theorem C16_set_config (engine : Engine H) (conf : ServerConfig) :
    (conf.TimeOut < 0 →
      (engine.SetConfig conf).2 ≠ none ∧ (engine.SetConfig conf).1 = engine) ∧
    (0 ≤ conf.TimeOut →
      (engine.SetConfig conf).2 = none ∧
      (engine.SetConfig conf).1 =
        { engine with
          conf := { conf with NewWork := if conf.NewWork = "" then "tcp" else conf.NewWork } }) := by
  constructor
  · intro h
    simp [Engine.SetConfig, h]
  · intro h
    have h' : ¬ conf.TimeOut < 0 := not_lt.mpr h
    by_cases hn : conf.NewWork = ""
    · simp [Engine.SetConfig, h', hn]
    · simp [Engine.SetConfig, h', hn]

/-- Witness for C16: on a fresh engine, a default timeout of -1 is rejected
and the configuration with default timeout 0 is installed. -/
theorem C16_set_config_witness :
    ((-1 : Int) < 0 ∧
      ((New : Engine Nat).SetConfig { exNegativeReadConfig with TimeOut := -1 }).2 ≠ none ∧
      ((New : Engine Nat).SetConfig { exNegativeReadConfig with TimeOut := -1 }).1 = New) ∧
    ((0 : Int) ≤ exNegativeReadConfig.TimeOut ∧
      ((New : Engine Nat).SetConfig exNegativeReadConfig).2 = none) :=
  ⟨⟨by decide,
      (C16_set_config (New : Engine Nat) { exNegativeReadConfig with TimeOut := -1 }).1
        (by decide)⟩,
    by decide,
    ((C16_set_config (New : Engine Nat) exNegativeReadConfig).2 (by decide)).1⟩

/-- C17: on a context whose cursor stands at the abort sentinel, with a chain
of at most 62 handlers and any declared and request method, Next returns with
the cursor moved one past the sentinel and nothing else changed: no handler
is invoked and nothing is written, and IsAborted is true before and after. -/
theorem C17_next_at_sentinel (c : Context) (fuel : Nat)
    (hidx : c.index = _abortIndex) (hlen : c.handlers.length ≤ 62) (hfuel : 2 ≤ fuel) :
    c.IsAborted = true ∧
    ∃ c', exec fuel .Next c = some c' ∧ c' = { c with index := _abortIndex + 1 } ∧
      c'.events = c.events ∧ entered c'.events = entered c.events ∧
      count405 c'.events = count405 c.events ∧ c'.IsAborted = true := by
  obtain ⟨n, rfl⟩ : ∃ n, fuel = n + 2 := ⟨fuel - 2, by omega⟩
  have hs : wrapInt8 (c.handlers.length : Int) = (c.handlers.length : Int) :=
    wrapInt8_of_range _ (by omega) (by omega)
  have hstep : c.step = { c with index := _abortIndex + 1 } := by
    unfold Context.step
    rw [hidx]
    rfl
  have hnot : ¬ (({ c with index := _abortIndex + 1 } : Context).index < (c.handlers.length : Int)) := by
    show ¬ (_abortIndex + 1 < (c.handlers.length : Int))
    rw [abortIndex_eq]
    omega
  refine ⟨by simp [Context.IsAborted, hidx], { c with index := _abortIndex + 1 }, ?_, rfl, rfl, rfl,
    rfl, by simp [Context.IsAborted]⟩
  rw [exec, hs, hstep, exec, if_neg hnot]

/-- Witness for C17: the context of a POST request on a GET route with three
handlers, just after Abort. -/
theorem C17_next_at_sentinel_witness :
    exAbortedContext.index = _abortIndex ∧
    exAbortedContext.IsAborted = true ∧
    ∃ c', exec 2 .Next exAbortedContext = some c' ∧
      c' = { exAbortedContext with index := _abortIndex + 1 } ∧
      c'.events = exAbortedContext.events ∧
      entered c'.events = entered exAbortedContext.events ∧
      count405 c'.events = count405 exAbortedContext.events ∧ c'.IsAborted = true :=
  ⟨rfl, C17_next_at_sentinel exAbortedContext 2 rfl (by decide) (le_refl _)⟩

/-- C18: a successful Handler registration splices in, between the group
handlers and the route handlers, exactly the handlers of the first injection
in registration order whose pattern matches the absolute path, whatever later
injections match, and nothing when no pattern matches; an injection added to
the engine afterwards leaves the route table, and so the registered chain,
as it is, and so does every route registered after that injection. -/
theorem C18_first_matching_injection (group : RouterGroup H) (engine engine' : Engine H)
    (m rel : String) (hs : List H)
    (hreg : group.Handler engine m rel hs = .ok engine') :
    ∃ p spliced, joinPaths group.basePath rel = .ok p ∧
      engine'.mux = engine.mux ++
        [{ path := p, method := m, handlers := group.Handlers ++ spliced ++ hs }] ∧
      ((∃ (j : Nat) (inj : injection H), engine.injections[j]? = some inj ∧
          inj.pattern p = true ∧
          (∀ (i : Nat) (x : injection H), i < j → engine.injections[i]? = some x →
            x.pattern p = false) ∧
          spliced = inj.handlers) ∨
        ((∀ x ∈ engine.injections, x.pattern p = false) ∧ spliced = [])) ∧
      ∀ (pattern : String → Bool) (late : List H),
        (engine'.Inject pattern late).mux = engine'.mux ∧
        ∀ (g2 : RouterGroup H) (m2 rel2 : String) (hs2 : List H) (e2 : Engine H),
          g2.Handler (engine'.Inject pattern late) m2 rel2 hs2 = .ok e2 →
          e2.mux.take engine'.mux.length = engine'.mux := by
  obtain ⟨p, hp, hmux⟩ := Handler_ok_mux group engine engine' m rel hs hreg
  refine ⟨p, firstMatchingInjection engine.injections p, hp, hmux,
    firstMatchingInjection_cases engine.injections p, fun pattern late => ⟨rfl, ?_⟩⟩
  intro g2 m2 rel2 hs2 e2 h2
  obtain ⟨p2, _, hmux2⟩ := Handler_ok_mux g2 _ e2 m2 rel2 hs2 h2
  rw [hmux2]
  exact List.take_left' rfl

/-- Witness for C18: two injections that both match `/a/b`; the route gets the
handlers of the first one only. -/
theorem C18_first_matching_injection_witness :
    exTwoInjections.injections.map (fun inj => inj.pattern "/a/b") = [true, true] ∧
    (exTwoInjections.group.Handler exTwoInjections "GET" "/a/b" [3]).state.mux =
      [{ path := "/a/b", method := "GET", handlers := [10, 3] }] ∧
    ∃ p spliced, joinPaths exTwoInjections.group.basePath "/a/b" = .ok p ∧
      (exTwoInjections.group.Handler exTwoInjections "GET" "/a/b" [3]).state.mux =
        exTwoInjections.mux ++
          [{ path := p, method := "GET",
             handlers := exTwoInjections.group.Handlers ++ spliced ++ [3] }] ∧
      ((∃ (j : Nat) (inj : injection Nat), exTwoInjections.injections[j]? = some inj ∧
          inj.pattern p = true ∧
          (∀ (i : Nat) (x : injection Nat), i < j → exTwoInjections.injections[i]? = some x →
            x.pattern p = false) ∧
          spliced = inj.handlers) ∨
        ((∀ x ∈ exTwoInjections.injections, x.pattern p = false) ∧ spliced = [])) ∧
      ∀ (pattern : String → Bool) (late : List Nat),
        ((exTwoInjections.group.Handler exTwoInjections "GET" "/a/b" [3]).state.Inject
          pattern late).mux =
          (exTwoInjections.group.Handler exTwoInjections "GET" "/a/b" [3]).state.mux ∧
        ∀ (g2 : RouterGroup Nat) (m2 rel2 : String) (hs2 : List Nat) (e2 : Engine Nat),
          g2.Handler ((exTwoInjections.group.Handler exTwoInjections "GET" "/a/b" [3]).state.Inject
            pattern late) m2 rel2 hs2 = .ok e2 →
          e2.mux.take
              (exTwoInjections.group.Handler exTwoInjections "GET" "/a/b" [3]).state.mux.length =
            (exTwoInjections.group.Handler exTwoInjections "GET" "/a/b" [3]).state.mux :=
  ⟨rfl, rfl,
    C18_first_matching_injection exTwoInjections.group exTwoInjections _ "GET" "/a/b" [3] rfl⟩

/-- Counterexample to C19 as stated: on the root group of a fresh engine, the
relative path `test`, which has no leading slash, registers the route `/test`,
and the empty relative path registers the route `/`. -/
theorem C19_counterexample :
    matchMethodPattern "GET" = true ∧
    ((New : Engine Nat).group.Handler New "GET" "test" [3]).isPanic = false ∧
    ((New : Engine Nat).group.Handler New "GET" "test" [3]).state.mux =
      [{ path := "/test", method := "GET", handlers := [3] }] ∧
    ((New : Engine Nat).group.Handler New "GET" "" [3]).isPanic = false ∧
    ((New : Engine Nat).group.Handler New "GET" "" [3]).state.mux =
      [{ path := "/", method := "GET", handlers := [3] }] :=
  ⟨rfl, rfl, rfl, rfl, rfl⟩

/-- C19 (as amended): calling Handler with a valid method, any handlers
and a relative path whose join with the base path of the group is
empty or does not begin with a slash fails fatally and leaves the engine,
and so the route table, unchanged; the join begins with a slash whenever the
base path of the group does, whatever the relative path. -/
theorem C19_bad_absolute_path (group : RouterGroup H) (engine : Engine H) (m rel p : String)
    (hs : List H) (hm : matchMethodPattern m = true)
    (hp : joinPaths group.basePath rel = .ok p) :
    (p.data.head? ≠ some '/' →
      ∃ msg, group.Handler engine m rel hs = .panic msg engine ∧
        (group.Handler engine m rel hs).state.mux = engine.mux) ∧
    (group.basePath.data.head? = some '/' → p.data.head? = some '/') := by
  refine ⟨fun hbad => ?_, fun hbase => joinPaths_rooted _ _ _ hp hbase⟩
  rw [Handler_unfold group engine m rel p hs hp, if_neg (not_not.mpr hm)]
  split
  · exact ⟨_, rfl, rfl⟩
  · obtain ⟨msg, hmsg⟩ := addRoute_bad_path engine m p
      (group.Handlers ++ firstMatchingInjection engine.injections p ++ hs) hbad
    rw [hmsg]
    exact ⟨_, rfl, rfl⟩

/-- Witness for C19: a group with an empty base path and the relative path
`test`, whose join `test` has no leading slash. -/
theorem C19_bad_absolute_path_witness :
    joinPaths exBlankGroup.basePath "test" = .ok "test" ∧
    ("test".data.head? ≠ some '/' →
      ∃ msg, exBlankGroup.Handler New "GET" "test" [3] = .panic msg New ∧
        (exBlankGroup.Handler New "GET" "test" [3]).state.mux = (New : Engine Nat).mux) ∧
    (exBlankGroup.basePath.data.head? = some '/' → "test".data.head? = some '/') :=
  ⟨rfl, C19_bad_absolute_path exBlankGroup New "GET" "test" "test" [3] rfl rfl⟩

/-- C20: metadata.Bool is total and returns the stored value when it is a
boolean; for a stored string it returns true on 1, t, T, TRUE, true and True,
false on 0, f, F, FALSE, false and False, and false on every other string;
it returns false when the key is absent, when the stored value is neither a
boolean nor a string, and when the context carries no map. -/
theorem C20_bool_lookup (σ : Maps) (ctx : context.Context) (key : String) :
    (∀ md b, metadata.FromContext ctx = (md, true) →
      (σ.entries md).get? key = some (.bool b) → metadata.Bool σ ctx key = b) ∧
    (∀ md s, metadata.FromContext ctx = (md, true) →
      (σ.entries md).get? key = some (.str s) →
      (s ∈ ["1", "t", "T", "TRUE", "true", "True"] → metadata.Bool σ ctx key = true) ∧
      (s ∈ ["0", "f", "F", "FALSE", "false", "False"] → metadata.Bool σ ctx key = false) ∧
      (s ∉ ["1", "t", "T", "TRUE", "true", "True"] → metadata.Bool σ ctx key = false)) ∧
    (∀ md, metadata.FromContext ctx = (md, true) →
      (σ.entries md).get? key = none → metadata.Bool σ ctx key = false) ∧
    (∀ md v, metadata.FromContext ctx = (md, true) →
      (σ.entries md).get? key = some v → (∀ b, v ≠ .bool b) → (∀ s, v ≠ .str s) →
      metadata.Bool σ ctx key = false) ∧
    ((metadata.FromContext ctx).2 = false → metadata.Bool σ ctx key = false) := by
  refine ⟨?_, ?_, ?_, ?_, Bool_of_none σ ctx key⟩
  · intro md b hmd hget
    rw [Bool_of_value σ ctx key md hmd, index_of_get _ _ _ hget]
  · intro md s hmd hget
    rw [Bool_of_value σ ctx key md hmd, index_of_get _ _ _ hget]
    refine ⟨?_, ?_, ?_⟩
    · intro hs
      simp only [List.mem_cons, List.mem_singleton, List.not_mem_nil, or_false] at hs
      rcases hs with rfl | rfl | rfl | rfl | rfl | rfl <;> rfl
    · intro hs
      simp only [List.mem_cons, List.mem_singleton, List.not_mem_nil, or_false] at hs
      rcases hs with rfl | rfl | rfl | rfl | rfl | rfl <;> rfl
    · intro hs
      simp only [List.mem_cons, List.mem_singleton, List.not_mem_nil, or_false, not_or] at hs
      obtain ⟨h1, h2, h3, h4, h5, h6⟩ := hs
      have hnot : ¬ (s = "1" ∨ s = "t" ∨ s = "T" ∨ s = "true" ∨ s = "TRUE" ∨ s = "True") := by
        rintro (h | h | h | h | h | h)
        · exact h1 h
        · exact h2 h
        · exact h3 h
        · exact h5 h
        · exact h4 h
        · exact h6 h
      show (strconv.ParseBool s).1 = false
      unfold strconv.ParseBool
      rw [if_neg hnot]
      split <;> rfl
  · intro md hmd hget
    rw [Bool_of_value σ ctx key md hmd, index_of_absent _ _ hget]
  · intro md v hmd hget hb hs
    rw [Bool_of_value σ ctx key md hmd, index_of_get _ _ _ hget]
    cases v with
    | nil => rfl
    | str s => exact absurd rfl (hs s)
    | int64 i => rfl
    | bool b => exact absurd rfl (hb b)
    | other tag => rfl

/-- Witness for C20: a map with a boolean, the strings `true`, `false` and
`yes`, and a number; an absent key; and a context without a map. -/
theorem C20_bool_lookup_witness :
    metadata.Bool exFlagMaps exFlagContext "mirror" = true ∧
    metadata.Bool exFlagMaps exFlagContext "color" = true ∧
    metadata.Bool exFlagMaps exFlagContext "off" = false ∧
    metadata.Bool exFlagMaps exFlagContext "bad" = false ∧
    metadata.Bool exFlagMaps exFlagContext "n" = false ∧
    metadata.Bool exFlagMaps exFlagContext "absent" = false ∧
    metadata.Bool exFlagMaps .Background "mirror" = false :=
  ⟨(C20_bool_lookup exFlagMaps exFlagContext "mirror").1 (some 0) true rfl rfl,
    ((C20_bool_lookup exFlagMaps exFlagContext "color").2.1 (some 0) "true" rfl rfl).1 (by decide),
    ((C20_bool_lookup exFlagMaps exFlagContext "off").2.1 (some 0) "false" rfl rfl).2.1
      (by decide),
    ((C20_bool_lookup exFlagMaps exFlagContext "bad").2.1 (some 0) "yes" rfl rfl).2.2 (by decide),
    (C20_bool_lookup exFlagMaps exFlagContext "n").2.2.2.1 (some 0) (.int64 1) rfl rfl
      (by intro b; exact Value.noConfusion) (by intro s; exact Value.noConfusion),
    (C20_bool_lookup exFlagMaps exFlagContext "absent").2.2.1 (some 0) rfl rfl,
    (C20_bool_lookup exFlagMaps .Background "mirror").2.2.2.2 rfl⟩

/-- C21: bodyAllowForStatus is false for 304 and true for every other status
code, the codes 100 to 199 and 204 included. For the code 304 Render sets the
content type and the status and stops: the body step of the renderer is not
run and the error field keeps its value. For every other code the body step
is run and its error, if any, is recorded. -/
theorem C21_body_allowed (s : Int) :
    (bodyAllowForStatus s = false ↔ s = 304) ∧
    (100 ≤ s → s ≤ 199 → bodyAllowForStatus s = true) ∧
    bodyAllowForStatus 204 = true ∧
    ∀ (W : Type) (WriteHeader : W → Int → W) (c : Rendering W) (r : render.Render W),
      Context.Render WriteHeader c 304 r =
        { Writer := WriteHeader (r.WriteContentType c.Writer) 304, Error := c.Error } ∧
      (s ≠ 304 →
        (Context.Render WriteHeader c s r).Writer =
          (r.Render (if s > 0 then WriteHeader (r.WriteContentType c.Writer) s
            else r.WriteContentType c.Writer)).1 ∧
        (Context.Render WriteHeader c s r).Error =
          match (r.Render (if s > 0 then WriteHeader (r.WriteContentType c.Writer) s
            else r.WriteContentType c.Writer)).2 with
          | some err => some err
          | none => c.Error) := by
  have hiff : bodyAllowForStatus s = false ↔ s = 304 := by
    unfold bodyAllowForStatus
    constructor
    · intro h
      split at h
      · cases h
      · split at h
        · cases h
        · split at h
          · assumption
          · cases h
    · intro h
      subst h
      decide
  refine ⟨hiff, ?_, by decide, ?_⟩
  · intro h1 h2
    unfold bodyAllowForStatus
    rw [if_pos ⟨h1, h2⟩]
  · intro W WriteHeader c r
    refine ⟨rfl, ?_⟩
    intro hs
    have hallow : bodyAllowForStatus s = true := by
      cases hb : bodyAllowForStatus s with
      | true => rfl
      | false => exact absurd (hiff.mp hb) hs
    unfold Context.Render
    simp only [hallow, not_true_eq_false, if_false]
    cases hr : r.Render (if s > 0 then WriteHeader (r.WriteContentType c.Writer) s
        else r.WriteContentType c.Writer) with
    | mk w3 e =>
      cases e <;> exact ⟨rfl, rfl⟩

/-- Witness for C21: on a recorder, rendering a text with code 304 records the
content type and the status and no body, also when the body step would fail;
with code 204 the body step runs. -/
theorem C21_body_allowed_witness :
    (Context.Render Recorder.WriteHeader exRendering 304 (render.String "hello")).Writer.body = [] ∧
    (Context.Render Recorder.WriteHeader exRendering 304 exFailingRender).Error = none ∧
    (Context.Render Recorder.WriteHeader exRendering 204 (render.String "hello")).Writer.body
      = ["hello"] ∧
    (Context.Render Recorder.WriteHeader exRendering 204 exFailingRender).Error
      = some "write failed" ∧
    bodyAllowForStatus 150 = true ∧
    Context.Render Recorder.WriteHeader exRendering 304 exFailingRender =
      { Writer := Recorder.WriteHeader (exFailingRender.WriteContentType exRendering.Writer) 304,
        Error := exRendering.Error } :=
  ⟨rfl, rfl, rfl,
    ((C21_body_allowed 204).2.2.2 Recorder Recorder.WriteHeader exRendering exFailingRender).2
      (by decide) |>.2,
    (C21_body_allowed 150).2.1 (by decide) (by decide),
    ((C21_body_allowed 304).2.2.2 Recorder Recorder.WriteHeader exRendering exFailingRender).1⟩

/-- C22: on a fresh context with a chain of at most 62 handlers, whatever the
request method, when every handler body calls Next at most once (and Abort,
AbortWithStatus and IsAborted as often as it likes), running Next returns
without a panic; every increment of the cursor starts from a value between -1
and 126, so the 8-bit cursor never exceeds 127 and never wraps; and every
index expression on the chain uses a cursor from 0 to n-1. -/
theorem C22_cursor_in_range (r : Route HandlerFunc) (req : Request) (fuel : Nat)
    (h62 : r.handlers.length ≤ 62) (honce : ∀ h ∈ r.handlers, nexts h ≤ 1)
    (hfuel : chainFuel r.handlers ≤ fuel) :
    ∃ c', exec fuel .Next (r.newContext req) = some c' ∧ c'.panicked = false ∧
      (∀ b, Probe.increment b ∈ probes fuel .Next (r.newContext req) →
        -1 ≤ b ∧ b + 1 ≤ 127 ∧ wrapInt8 (b + 1) = b + 1) ∧
      (∀ i n, Probe.lookup i n ∈ probes fuel .Next (r.newContext req) →
        n = r.handlers.length ∧ 0 ≤ i ∧ i < (r.handlers.length : Int)) ∧
      (∀ j ∈ entered c'.events, j < r.handlers.length) := by
  obtain ⟨c', he, _⟩ := (exec_terminates r.handlers (by omega) fuel).1 (r.newContext req) rfl
    (by simp [Route.newContext]) (by simp [Route.newContext])
    (by simpa [Route.newContext, chainFuel] using hfuel)
  have hsound := depthSpec_sound r.handlers h62 honce
  have hP : (depthSpec r.handlers).PN (r.newContext req) := by
    refine ⟨rfl, rfl, by simp [Route.newContext], ?_, ?_, ?_, ?_⟩ <;>
      simp [Route.newContext, depth, entered, left]
  have hall := (probes_meet (depthSpec r.handlers) hsound (Probe.Within r.handlers.length)
    (by
      rintro c ⟨_, _, hlo, hd0, _, hb, _⟩
      exact ⟨hlo, by omega⟩)
    (by
      rintro s c ⟨hs, hc, _, h0, _⟩ hlt _
      refine ⟨by rw [hc], h0, ?_⟩
      rw [hc, ← hs]
      exact hlt)
    (by
      rintro s c h c1 ⟨_, _, _, _, hd0, _⟩ _ _ _ ⟨_, _, h0, _, _, hb, _⟩ _
      have hd : depth (c.record (.enter c.index.toNat)).events = depth c.events + 1 :=
        depth_enter c.events _
      rw [hd] at hb
      exact ⟨by omega, by omega⟩) fuel).1 (r.newContext req) hP
  have hR : (rangeSpec r.handlers).PN (r.newContext req) := by
    refine ⟨rfl, ?_⟩
    intro j hj
    simp [Route.newContext, entered] at hj
  refine ⟨c', he, ?_, ?_, ?_, ?_⟩
  · exact ((exec_meets_spec _ hsound fuel).1 (r.newContext req) c' hP he).2.1
  · intro b hb
    obtain ⟨h1, h2⟩ := hall _ hb
    exact ⟨h1, h2, wrapInt8_of_range _ (by omega) h2⟩
  · intro i n hi
    obtain ⟨h1, h2, h3⟩ := hall _ hi
    subst h1
    exact ⟨rfl, h2, h3⟩
  · exact ((exec_meets_spec _ (rangeSpec_sound r.handlers) fuel).1
      (r.newContext req) c' hR he).2

/-- Witness for C22: three handlers, the second of which aborts and then
calls Next, requested with the declared method. -/
theorem C22_cursor_in_range_witness :
    probes (chainFuel exAbortRoute.handlers) .Next (exAbortRoute.newContext exGet) =
      [.increment (-1), .lookup 0 3, .increment 0, .lookup 1 3, .increment 63, .increment 64,
       .increment 65] ∧
    ∃ c', exec (chainFuel exAbortRoute.handlers) .Next (exAbortRoute.newContext exGet)
        = some c' ∧ c'.panicked = false ∧
      (∀ b, Probe.increment b ∈
          probes (chainFuel exAbortRoute.handlers) .Next (exAbortRoute.newContext exGet) →
        -1 ≤ b ∧ b + 1 ≤ 127 ∧ wrapInt8 (b + 1) = b + 1) ∧
      (∀ i n, Probe.lookup i n ∈
          probes (chainFuel exAbortRoute.handlers) .Next (exAbortRoute.newContext exGet) →
        n = exAbortRoute.handlers.length ∧ 0 ≤ i ∧ i < (exAbortRoute.handlers.length : Int)) ∧
      (∀ j ∈ entered c'.events, j < exAbortRoute.handlers.length) :=
  ⟨by decide,
    C22_cursor_in_range exAbortRoute exGet (chainFuel exAbortRoute.handlers) (by decide)
      (by decide) (le_refl _)⟩

/-- C23 (evaluation at the failing input): the dedicated remote-IP header is
the literal `null`, the peer address is 9.9.9.9:1234. Without a forwarded-for
header, and with one that holds a single address without a comma, computing
the remote IP panics on the slice bound -1 instead of falling through to the
real-IP header or to the peer host. -/
theorem C23_null_remote_ip_panics :
    strings.IndexByte exNullRemoteRequest.RemoteAddr ':' = 7 ∧
    strings.IndexByte (Header.Get exNullRemoteRequest.Header "X-Forwarder-For") ',' = -1 ∧
    remoteIP exNullRemoteRequest = .error "runtime error: slice bounds out of range" ∧
    Header.Get exNullRemoteForwarded.Header "X-Real-IP" = "5.6.7.8" ∧
    strings.IndexByte (Header.Get exNullRemoteForwarded.Header "X-Forwarder-For") ',' = -1 ∧
    remoteIP exNullRemoteForwarded = .error "runtime error: slice bounds out of range" :=
  ⟨by decide, by decide, rfl, by decide, by decide, rfl⟩

/-- C24: in every state reached from a new engine by UseFunc, Use, Group,
SetMethodConfig, Inject and Handler calls, every chain in the route table has
at least one handler and fewer than 63, the abort index; so every position
that holds a handler of a registered chain is below the abort index, and no
chain has a handler at the abort index itself. -/
theorem C24_registered_chain_lengths (calls : List (Call H)) :
    ∀ r ∈ (Setup.run calls).engine.mux,
      1 ≤ r.handlers.length ∧ (r.handlers.length : Int) < _abortIndex ∧
      (∀ (i : Nat) (h : H), r.handlers[i]? = some h → (i : Int) < _abortIndex) ∧
      r.handlers[_abortIndex.toNat]? = none := by
  intro r hr
  have hok : ChainOk r := foldl_chains calls Setup.New (by
    intro r hr
    simp [Setup.New, Pudding.New] at hr) r hr
  obtain ⟨h1, h2⟩ := hok
  rw [abortIndex_eq] at h2 ⊢
  refine ⟨h1, h2, ?_, ?_⟩
  · intro i h hi
    have := (List.getElem?_eq_some_iff.mp hi).1
    omega
  · rw [List.getElem?_eq_none_iff]
    show r.handlers.length ≤ 63
    omega

/-- Witness for C24: a program with a nested group, an injection, a refused
route of 64 handlers and two accepted routes. -/
theorem C24_registered_chain_lengths_witness :
    (Setup.run exProgram).engine.mux =
      [{ path := "/v1/a", method := "GET", handlers := [1, 2, 10, 3] },
       { path := "/v1/c", method := "GET", handlers := [1, 2, 5, 10, 6] }] ∧
    (1 ≤ [1, 2, 10, 3].length ∧ (([1, 2, 10, 3] : List Nat).length : Int) < _abortIndex ∧
      (∀ (i : Nat) (h : Nat), [1, 2, 10, 3][i]? = some h → (i : Int) < _abortIndex) ∧
      ([1, 2, 10, 3] : List Nat)[_abortIndex.toNat]? = none) :=
  ⟨by decide,
    C24_registered_chain_lengths exProgram
      { path := "/v1/a", method := "GET", handlers := [1, 2, 10, 3] } (by decide)⟩

/-- C25 (evaluation at the failing input): a client declares 100ms with
setTimeout, which writes 100000 to the header; the server-side decoder
returns 99.98ms, that is 20 microseconds less, not 100ms less 20ms. -/
theorem C25_margin_is_20_microseconds :
    Header.Get (setTimeout exGet 100000000).Header _httpHeaderTimeout = "100000" ∧
    timeout (setTimeout exGet 100000000) = 100000000 - 20000 ∧
    timeout (setTimeout exGet 100000000) ≠ 100000000 - 20000000 := by
  decide

/-- C26: when the base timeout of a request, the timeout of the method config
of its path if there is one and the default of the engine otherwise, is zero
or negative, the negotiated timeout is the base timeout whatever the headers
of the request are, and the context derived for the request, which exists
unless computing the remote IP has panicked, is a cancel-only context on the
metadata context: it has no deadline and is done exactly when its cancel
function was called. In general the negotiated timeout differs from the base
timeout only if the base timeout is positive and larger than the positive
client value, which then is the negotiated timeout. -/
theorem C26_nonpositive_base (engine : Engine H) (req : Request)
    (hbase : engine.baseTimeout req ≤ 0) :
    engine.requestTimeout req = engine.baseTimeout req ∧
    (∀ (σ σ' : Maps) (now : Int) (k : Nat) (ctx : context.Context),
      engine.requestContext σ req now k = .ok (σ', ctx) →
        ctx = .WithCancel (metadata.NewContext .Background (some σ.length)) k ∧
        ctx.Deadline = none ∧ ∀ cancelled t, ctx.Done cancelled t = cancelled.contains k) ∧
    (∀ (σ : Maps) (now : Int) (k : Nat) (ip : String), remoteIP req = .ok ip →
      ∃ σ' ctx, engine.requestContext σ req now k = .ok (σ', ctx)) ∧
    (∀ (σ : Maps) (now : Int) (k : Nat) (msg : String),
      engine.requestContext σ req now k = .error msg → remoteIP req = .error msg) ∧
    (∀ (e : Engine H) (q : Request), e.requestTimeout q ≠ e.baseTimeout q →
      0 < e.baseTimeout q ∧ 0 < timeout q ∧ timeout q < e.baseTimeout q ∧
      e.requestTimeout q = timeout q) := by
  have htm : engine.requestTimeout req = engine.baseTimeout req := by
    rcases requestTimeout_cases engine req with h | ⟨h1, h2, _⟩
    · exact h
    · omega
  have hnot : ¬ engine.requestTimeout req > 0 := by
    rw [htm]
    omega
  refine ⟨htm, ?_, ?_, ?_, ?_⟩
  · intro σ σ' now k ctx h
    unfold Engine.requestContext at h
    cases hip : remoteIP req with
    | error msg =>
      rw [hip] at h
      cases h
    | ok ip =>
      rw [hip] at h
      simp only [if_neg hnot, Except.ok.injEq, Prod.mk.injEq] at h
      obtain ⟨_, rfl⟩ := h
      refine ⟨rfl, rfl, ?_⟩
      intro cancelled t
      simp [context.Context.Done, metadata.NewContext]
  · intro σ now k ip hip
    unfold Engine.requestContext
    rw [hip]
    simp only [if_neg hnot]
    exact ⟨_, _, rfl⟩
  · intro σ now k msg h
    unfold Engine.requestContext at h
    cases hip : remoteIP req with
    | error msg' =>
      rw [hip] at h
      simp only [Except.error.injEq] at h
      rw [h]
    | ok ip =>
      rw [hip] at h
      simp only [if_neg hnot] at h
      cases h
  · intro e q hne
    rcases requestTimeout_cases e q with h | ⟨h1, h2, h3⟩
    · exact absurd h hne
    · exact ⟨by omega, h1, h2, h3⟩

/-- Witness for C26: an engine with default timeout zero and a request that
declares 40000 microseconds. -/
theorem C26_nonpositive_base_witness :
    timeout (exTimeoutRequest "40000") = 39980000 ∧
    exNoTimeoutEngine.baseTimeout (exTimeoutRequest "40000") ≤ 0 ∧
    exNoTimeoutEngine.requestTimeout (exTimeoutRequest "40000") = 0 ∧
    exNoTimeoutEngine.requestContext [] (exTimeoutRequest "40000") 1000 7 =
      .ok ([[("remote_ip", .str "9.9.9.9"), ("remote_port", .str ""), ("caller", .str ""),
             ("mirror", .bool false)]],
        .WithCancel (metadata.NewContext .Background (some 0)) 7) ∧
    exNoTimeoutEngine.requestTimeout (exTimeoutRequest "40000") =
      exNoTimeoutEngine.baseTimeout (exTimeoutRequest "40000") :=
  ⟨by decide, by decide, by decide, rfl,
    (C26_nonpositive_base exNoTimeoutEngine (exTimeoutRequest "40000") (by decide)).1⟩

end Claims

end Pudding
